import Mathlib

/-!
# lazygit: layout, screen mode, context stack and scroll controller

A shallow embedding of `pkg/gui/global_handlers.go`, `pkg/gui/arrangement.go`,
`pkg/gui/sub_commits_panel.go` and `pkg/commands/config.go`.  Go `int` values are embedded as `Int`: every quantity
below is a terminal coordinate, a line count or a small weight, far from the 64-bit range,
and `int(math.Max(0, float64(n)))` is embedded as `max 0 n`, the value it has on that range.
The `float64` side-panel width ratio and the expression `int(1/ratio)` are embedded through
`Float64`, with the rounding of IEEE 754.
-/

namespace Lazygit

/-! ## Data model -/

/-- Modelled from the spec: the screen mode enum `WindowMaximisation`, whose declaration
(`SCREEN_NORMAL`, `SCREEN_HALF`, `SCREEN_FULL`) is not among the source files: the states
Normal, Half, Full of the screen mode controller. -/
inductive WindowMaximisation where
  | SCREEN_NORMAL
  | SCREEN_HALF
  | SCREEN_FULL
  deriving DecidableEq, Repr

/-- The user configuration values read by the embedded functions
(`gui.Config.GetUserConfig().Gui`). -/
structure GuiConfig where
  ScrollHeight : Int
  ScrollPastBottom : Bool
  ExpandFocusedSidePanel : Bool
  MainPanelSplitMode : String
  deriving DecidableEq, Repr

/-- The part of a `gocui.View` the scroll handlers read and write: its name, its origin
`(ox, oy)`, its inner size `(sx, sy)` as returned by `view.Size()`, and the number of
lines of its content as returned by `view.ViewLinesHeight()`. -/
structure View where
  name : String
  ox : Int
  oy : Int
  sx : Int
  sy : Int
  linesHeight : Int
  deriving DecidableEq, Repr

/-- The library call `view.SetOrigin(x, y)`: a negative coordinate is refused with an
error and leaves the view as it was, any other point becomes the new origin. -/
def View.SetOrigin (v : View) (x y : Int) : Except String View :=
  if x < 0 ∨ y < 0 then .error "invalid point" else .ok { v with ox := x, oy := y }

/-! ## Screen mode cycling (`global_handlers.go`) -/

/-- The loop of `nextIntInCycle`: `i` is the index of the head of the remaining slice.
Indexing an empty slice panics, which is `none`. -/
def nextIntInCycle.loop {α : Type} [DecidableEq α] (sl : List α) (current : α) :
    Nat → List α → Option α
  | _, [] => sl[0]?
  | i, val :: rest =>
    if val = current then
      if i + 1 = sl.length then sl[0]? else sl[i + 1]?
    else nextIntInCycle.loop sl current (i + 1) rest

/-- Embedding of `nextIntInCycle(sl, current)`. -/
def nextIntInCycle {α : Type} [DecidableEq α] (sl : List α) (current : α) : Option α :=
  nextIntInCycle.loop sl current 0 sl

/-- The loop of `prevIntInCycle`: `i` is the index of the head of the remaining slice. -/
def prevIntInCycle.loop {α : Type} [DecidableEq α] (sl : List α) (current : α) :
    Nat → List α → Option α
  | _, [] => sl[sl.length - 1]?
  | i, val :: rest =>
    if val = current then
      if i > 0 then sl[i - 1]? else sl[sl.length - 1]?
    else prevIntInCycle.loop sl current (i + 1) rest

/-- Embedding of `prevIntInCycle(sl, current)`. -/
def prevIntInCycle {α : Type} [DecidableEq α] (sl : List α) (current : α) : Option α :=
  prevIntInCycle.loop sl current 0 sl

/-- The assignment made by `gui.nextScreenMode()` to `gui.State.ScreenMode`. -/
def nextScreenMode (ScreenMode : WindowMaximisation) : Option WindowMaximisation :=
  nextIntInCycle [.SCREEN_NORMAL, .SCREEN_HALF, .SCREEN_FULL] ScreenMode

/-- The assignment made by `gui.prevScreenMode()` to `gui.State.ScreenMode`. -/
def prevScreenMode (ScreenMode : WindowMaximisation) : Option WindowMaximisation :=
  prevIntInCycle [.SCREEN_NORMAL, .SCREEN_HALF, .SCREEN_FULL] ScreenMode

/-! ## Scroll handlers (`global_handlers.go`) -/

/-- Embedding of `gui.scrollUpView(view)`. -/
def scrollUpView (cfg : GuiConfig) (view : View) : Except String View :=
  let ox := view.ox
  let oy := view.oy
  let newOy := max 0 (oy - cfg.ScrollHeight)
  view.SetOrigin ox newOy

/-- Embedding of `gui.scrollDownView(view)`.  `managers` lists the view names that have an
entry in `gui.viewBufferManagerMap`; the second component of the result is the argument of
the `manager.ReadLines` call, when there is one. -/
def scrollDownView (cfg : GuiConfig) (managers : List String) (view : View) :
    Except String (View × Option Int) :=
  let ox := view.ox
  let oy := view.oy
  let canScrollPastBottom := cfg.ScrollPastBottom
  let y := if !canScrollPastBottom then oy + view.sy else oy
  let scrollHeight := cfg.ScrollHeight
  let scrollableLines := view.linesHeight - y
  let readLines (v : View) (scrollHeight : Int) : Except String (View × Option Int) :=
    .ok (v, if view.name ∈ managers then some scrollHeight else none)
  if scrollableLines > 0 then
    let margin : Int := if canScrollPastBottom then 2 else 1
    let scrollHeight :=
      if scrollableLines - margin < scrollHeight then scrollableLines - margin
      else scrollHeight
    if oy + scrollHeight ≥ 0 then
      match view.SetOrigin ox (oy + scrollHeight) with
      | .error err => .error err
      | .ok v => readLines v scrollHeight
    else readLines view scrollHeight
  else readLines view scrollHeight

/-- The view as it is after one `scrollDownView` call, whether or not the call returned an
error. -/
def scrollDownViewState (cfg : GuiConfig) (managers : List String) (view : View) : View :=
  match scrollDownView cfg managers view with
  | .ok (v, _) => v
  | .error _ => view

/-- The view after `n` successive `scrollDownView` calls. -/
def scrollDownViewIter (cfg : GuiConfig) (managers : List String) : Nat → View → View
  | 0, view => view
  | n + 1, view => scrollDownViewIter cfg managers n (scrollDownViewState cfg managers view)

/-! ## Boxes and contexts (`arrangement.go`) -/

/-- Modelled from the spec: the direction (row or column) of a box; the declaration of
`boxlayout.Direction` is not among the source files. `ROW` is the zero value. -/
inductive Direction where
  | ROW
  | COLUMN
  deriving DecidableEq, Repr

/-- Modelled from the spec: the struct `boxlayout.Box`, whose declaration is not among the
source files, with the attributes the spec lists and the box literals of `arrangement.go`
set: `Direction`, `Children`, `ConditionalChildren` (`none` is the nil function), `Window`
(the empty string when unset), `Size` and `Weight`. -/
inductive Box where
  | mk (Direction : Direction) (Children : List Box)
      (ConditionalChildren : Option (Int → Int → List Box))
      (Window : String) (Size : Int) (Weight : Int)

/-- Field `Direction` of a box. -/
def Box.Direction : Box → Direction
  | .mk d _ _ _ _ _ => d

/-- Field `Children` of a box. -/
def Box.Children : Box → List Box
  | .mk _ cs _ _ _ _ => cs

/-- Field `ConditionalChildren` of a box. -/
def Box.ConditionalChildren : Box → Option (Int → Int → List Box)
  | .mk _ _ f _ _ _ => f

/-- Field `Window` of a box. -/
def Box.Window : Box → String
  | .mk _ _ _ w _ _ => w

/-- Field `Size` of a box. -/
def Box.Size : Box → Int
  | .mk _ _ _ _ s _ => s

/-- Field `Weight` of a box. -/
def Box.Weight : Box → Int
  | .mk _ _ _ _ _ w => w

/-- The box literal `&boxlayout.Box{Window: window, Size: size, Weight: weight}`: every
other field has its zero value. -/
def Box.window (window : String) (size weight : Int) : Box :=
  .mk .ROW [] none window size weight

/-- Modelled from the spec: the closed set of context kinds (`GetKind()`), declared outside
the source files: the side kind and the kinds that are not; only `SIDE_CONTEXT` is tested
by the code embedded here. -/
inductive ContextKind where
  | SIDE_CONTEXT
  | MAIN_CONTEXT
  | TEMPORARY_POPUP
  | PERSISTENT_POPUP
  deriving DecidableEq, Repr

/-- Modelled from the spec: what the embedded code reads of a `Context`, an interface
declared outside the source files: its key, its kind and its owning window name. -/
structure Context where
  key : String
  kind : ContextKind
  windowName : String
  deriving DecidableEq, Repr

/-- The part of the GUI state read by `arrangement.go`.  `currentWindow`,
`isMainPanelSplit` and `secondaryViewFocused` hold the results of the helper methods of
those names, and `width`, `height` the result of `gui.g.Size()`. -/
structure Gui where
  ScreenMode : WindowMaximisation
  ContextStack : List Context
  Config : GuiConfig
  currentWindow : String
  isMainPanelSplit : Bool
  secondaryViewFocused : Bool
  isSearching : Bool
  width : Int
  height : Int

/-- The loop of `currentSideWindowName`: `idx` is the loop index and the first argument
counts the iterations left. -/
def currentSideWindowName.loop (stack : List Context) : Nat → Nat → String
  | 0, _ => "files"
  | n + 1, idx =>
    let reversedIdx := stack.length - 1 - idx
    match stack[reversedIdx]? with
    | none => "files"
    | some context =>
      if context.kind = .SIDE_CONTEXT then context.windowName
      else currentSideWindowName.loop stack n (idx + 1)

/-- Embedding of `gui.currentSideWindowName()`. -/
def currentSideWindowName (gui : Gui) : String :=
  currentSideWindowName.loop gui.ContextStack gui.ContextStack.length 0

/-- Embedding of `gui.splitMainPanelSideBySide()`. -/
def splitMainPanelSideBySide (gui : Gui) : Bool :=
  if !gui.isMainPanelSplit then false
  else
    let mainPanelSplitMode := gui.Config.MainPanelSplitMode
    if mainPanelSplitMode = "vertical" then false
    else if mainPanelSplitMode = "horizontal" then true
    else if gui.width < 200 ∧ gui.height > 30 then false
    else true

/-- Embedding of `gui.getMidSectionWeights()`, returning `(sideSectionWeight,
mainSectionWeight)`.  `invRatio` is the value of the Go expression
`int(1/sidePanelWidthRatio)` on the configured float64 side-panel width. -/
def getMidSectionWeights (invRatio : Int) (gui : Gui) : Int × Int :=
  let currentWindow := gui.currentWindow
  let mainSectionWeight := invRatio - 1
  let sideSectionWeight : Int := 1
  let mainSectionWeight := if splitMainPanelSideBySide gui then 5 else mainSectionWeight
  if currentWindow = "main" then
    if gui.ScreenMode = .SCREEN_HALF ∨ gui.ScreenMode = .SCREEN_FULL then
      (0, mainSectionWeight)
    else (sideSectionWeight, mainSectionWeight)
  else
    if gui.ScreenMode = .SCREEN_HALF then (sideSectionWeight, 1)
    else if gui.ScreenMode = .SCREEN_FULL then (sideSectionWeight, 0)
    else (sideSectionWeight, mainSectionWeight)

/-- Embedding of `gui.getDefaultStashWindowBox()`. -/
def getDefaultStashWindowBox (gui : Gui) : Box :=
  let stashWindowAccessed :=
    gui.ContextStack.foldl
      (fun accessed context => if context.windowName = "stash" then true else accessed) false
  if stashWindowAccessed then Box.window "stash" 0 1 else Box.window "stash" 3 0

/-- Embedding of `gui.sidePanelChildren(width, height)`. -/
def sidePanelChildren (gui : Gui) (_width height : Int) : List Box :=
  let currentWindow := currentSideWindowName gui
  if gui.ScreenMode = .SCREEN_FULL ∨ gui.ScreenMode = .SCREEN_HALF then
    let fullHeightBox (window : String) : Box :=
      if window = currentWindow then Box.window window 0 1 else Box.window window 0 0
    [fullHeightBox "status", fullHeightBox "files", fullHeightBox "branches",
      fullHeightBox "commits", fullHeightBox "stash"]
  else if height ≥ 28 then
    let accordianMode := gui.Config.ExpandFocusedSidePanel
    let accordianBox (defaultBox : Box) : Box :=
      if accordianMode ∧ defaultBox.Window = currentWindow then
        Box.window defaultBox.Window 0 2
      else defaultBox
    [Box.window "status" 3 0,
      accordianBox (Box.window "files" 0 1),
      accordianBox (Box.window "branches" 0 1),
      accordianBox (Box.window "commits" 0 1),
      accordianBox (getDefaultStashWindowBox gui)]
  else
    let squashedHeight : Int := if height ≥ 21 then 3 else 1
    let squashedSidePanelBox (window : String) : Box :=
      if window = currentWindow then Box.window window 0 1
      else Box.window window squashedHeight 0
    [squashedSidePanelBox "status", squashedSidePanelBox "files",
      squashedSidePanelBox "branches", squashedSidePanelBox "commits",
      squashedSidePanelBox "stash"]

/-! ## Box layout engine -/

/-- Modelled from the spec: the rectangle the absent layout engine gives a panel: panel
name, origin `(x, y)`, width and height. -/
structure Rectangle where
  window : String
  x : Int
  y : Int
  width : Int
  height : Int
  deriving DecidableEq, Repr

/-- Modelled from the spec: whether a box has a fixed size set.  The package
`pkg/gui/boxlayout` is not among the source files; the spec makes fixed size and weight
exclusive in effect, a box with a size being fixed whatever its weight. -/
def Box.isFixed (b : Box) : Bool := decide (b.Size ≠ 0)

/-- Modelled from the spec: a weighted box of `pkg/gui/boxlayout` is one that has no fixed
size and a positive weight; a box with neither collapses to zero extent but keeps its
slot. -/
def Box.isWeighted (b : Box) : Bool := !b.isFixed && decide (b.Weight > 0)

/-- Modelled from the spec: the extents given to the children of one box by the absent
`boxlayout.ArrangeWindows`, once `unitSize` and `extraSize` are known: a fixed child has
its size, a weighted child `unitSize` times its weight, the last weighted child also has
the rounding remainder `extraSize`, and a child with neither size nor weight has zero
extent. -/
def allot (unitSize extraSize : Int) : List Box → List Int
  | [] => []
  | c :: rest =>
    (if c.isFixed then c.Size
     else if c.isWeighted then
       if rest.all (fun b => !b.isWeighted) then unitSize * c.Weight + extraSize
       else unitSize * c.Weight
     else 0) :: allot unitSize extraSize rest

/-- Modelled from the spec: the total fixed size of the children (layout step "first
subtract the total fixed-size of children with fixed-size set" of the absent
`boxlayout.ArrangeWindows`). -/
def reservedSize (children : List Box) : Int :=
  (children.map (fun b => if b.isFixed then b.Size else 0)).sum

/-- Modelled from the spec: the total weight of the weighted children, for the absent
`boxlayout.ArrangeWindows`. -/
def totalWeight (children : List Box) : Int :=
  (children.map (fun b => if b.isWeighted then b.Weight else 0)).sum

/-- Modelled from the spec: the partition of a box's extent `available` along its
direction by the absent `boxlayout.ArrangeWindows`: the fixed sizes are subtracted first,
the remainder (never negative) is distributed by weight in integer units, and the rounding
remainder goes to the last weighted child. -/
def childExtents (available : Int) (children : List Box) : List Int :=
  let remaining := max 0 (available - reservedSize children)
  let total := totalWeight children
  let unitSize := if total > 0 then remaining / total else 0
  let extraSize := if total > 0 then remaining % total else 0
  allot unitSize extraSize children

/-- Modelled from the spec: the sub-rectangles of the children of a box at origin
`(x, y)` with extent `w` by `h`, for the absent `boxlayout.ArrangeWindows`: the children
are packed in declared order along the split axis, which for a row is the horizontal one
(the spec's example splits a row of width 40 into widths 10 and 30). -/
def placeChildren (dir : Direction) (x y w h : Int) : List Box → List Int → List Rectangle
  | [], _ => []
  | c :: cs, exts =>
    let e := exts.headD 0
    if dir = .ROW then
      ⟨c.Window, x, y, e, h⟩ :: placeChildren dir (x + e) y w h cs exts.tail
    else
      ⟨c.Window, x, y, w, e⟩ :: placeChildren dir x (y + e) w h cs exts.tail

mutual
/-- Modelled from the spec: `Arrange(root, originX, originY, width, height)`, the layout
call `boxlayout.ArrangeWindows` whose package is not among the source files.  A
conditional-children producer is invoked with the allotted width and height; a box without
children is a leaf and records its rectangle when it names a panel; otherwise the extent
is partitioned and each child is laid out in its sub-rectangle. -/
def Arrange (b : Box) (x y w h : Int) : List Rectangle :=
  match b with
  | .mk dir children cond window _ _ =>
    let leaf : List Rectangle := if window ≠ "" then [⟨window, x, y, w, h⟩] else []
    let available := if dir = .ROW then w else h
    match cond with
    | some f =>
      if (f w h).isEmpty then leaf
      else
        ArrangeChildren (f w h)
          (placeChildren dir x y w h (f w h) (childExtents available (f w h)))
    | none =>
      if children.isEmpty then leaf
      else
        ArrangeChildren children
          (placeChildren dir x y w h children (childExtents available children))
termination_by structural b
/-- Modelled from the spec: the recursion of `Arrange` into each child with its allotted
sub-rectangle (the package `pkg/gui/boxlayout` is not among the source files). -/
def ArrangeChildren (cs : List Box) (rects : List Rectangle) : List Rectangle :=
  match cs with
  | [] => []
  | c :: cs =>
    let r := rects.headD ⟨"", 0, 0, 0, 0⟩
    Arrange c r.x r.y r.width r.height ++ ArrangeChildren cs rects.tail
termination_by structural cs
end

/-- A box tree without negative size or weight, at every node and in everything a
conditional-children producer returns. -/
inductive Box.WellFormed : Box → Prop
  | mk (dir : Lazygit.Direction) (children : List Box)
      (cond : Option (Int → Int → List Box))
      (window : String) (size weight : Int) (hsize : 0 ≤ size) (hweight : 0 ≤ weight)
      (hchildren : ∀ c ∈ children, Box.WellFormed c)
      (hcond : ∀ f, cond = some f → ∀ w h : Int, ∀ c ∈ f w h, Box.WellFormed c) :
      Box.WellFormed (.mk dir children cond window size weight)

/-- Modelled from the spec: the children a box has in a layout pass of the absent
`boxlayout.ArrangeWindows` at the allotted width and height: those its conditional-children
producer returns when it has one, its declared children otherwise. -/
def Box.materialize (b : Box) (w h : Int) : List Box :=
  match b.ConditionalChildren with
  | some f => f w h
  | none => b.Children

/-- The extent of a box of width `w` and height `h` along its split axis. -/
def Box.available (b : Box) (w h : Int) : Int :=
  if b.Direction = .ROW then w else h

/-- The sub-rectangles `Arrange` allots to the children of a box laid out at origin
`(x, y)` with width `w` and height `h`. -/
def Box.childRects (b : Box) (x y w h : Int) : List Rectangle :=
  placeChildren b.Direction x y w h (b.materialize w h)
    (childExtents (b.available w h) (b.materialize w h))

/-- The origin of a rectangle along the split axis of a direction. -/
def Rectangle.start (dir : Direction) (r : Rectangle) : Int :=
  if dir = .ROW then r.x else r.y

/-- The extent of a rectangle along the split axis of a direction. -/
def Rectangle.extent (dir : Direction) (r : Rectangle) : Int :=
  if dir = .ROW then r.width else r.height

/-- The origin of a rectangle across the split axis of a direction. -/
def Rectangle.crossStart (dir : Direction) (r : Rectangle) : Int :=
  if dir = .ROW then r.y else r.x

/-- The extent of a rectangle across the split axis of a direction. -/
def Rectangle.crossExtent (dir : Direction) (r : Rectangle) : Int :=
  if dir = .ROW then r.height else r.width

/-- The children of a box laid out in the rectangle `pr`. -/
def Box.childrenIn (p : Box) (pr : Rectangle) : List Box :=
  p.materialize pr.width pr.height

/-- The sub-rectangles allotted to the children of a box laid out in the rectangle `pr`. -/
def Box.rectsIn (p : Box) (pr : Rectangle) : List Rectangle :=
  p.childRects pr.x pr.y pr.width pr.height

/-- The space left for the weighted children of a box laid out in the rectangle `pr`, once
the fixed sizes are subtracted from its extent along the split axis. -/
def Box.remainingIn (p : Box) (pr : Rectangle) : Int :=
  pr.extent p.Direction - reservedSize (p.childrenIn pr)

/-- The boxes `Arrange root x y w h` lays out, each with the rectangle it is allotted: the
root itself, and every child of a box laid out, in the sub-rectangle of its slot. -/
inductive LaidOut (root : Box) (x y w h : Int) : Box → Rectangle → Prop
  | root : LaidOut root x y w h root ⟨root.Window, x, y, w, h⟩
  | child (p : Box) (pr : Rectangle) (i : Nat) (c : Box) (r : Rectangle)
      (hp : LaidOut root x y w h p pr)
      (hc : (p.childrenIn pr)[i]? = some c)
      (hr : (p.rectsIn pr)[i]? = some r) :
      LaidOut root x y w h c r

/-! ## Context stack -/

/-- Modelled from the spec: the number of side-kind contexts in a stack, for the context
stack operations of the absent `context.go`. -/
def sideCount (stack : List Context) : Nat :=
  stack.countP (fun c => c.kind = .SIDE_CONTEXT)

/-- Modelled from the spec: `push(context)` of the absent `context.go`: "append context to
top; becomes focused".  The top of the stack is the last element, as in
`currentSideWindowName`. -/
def pushContext (stack : List Context) (c : Context) : List Context :=
  stack ++ [c]

/-- Modelled from the spec: `pop()` of the absent `context.go`: "remove top; the new top
becomes focused. Popping the last remaining side context is a no-op". -/
def popContext (stack : List Context) : List Context :=
  match stack.getLast? with
  | none => stack
  | some top =>
    if top.kind = .SIDE_CONTEXT ∧ sideCount stack = 1 then stack else stack.dropLast

/-- Replace the first side-kind context of a list by `c`. -/
def replaceFirstSide (c : Context) : List Context → List Context
  | [] => []
  | d :: rest =>
    if d.kind = .SIDE_CONTEXT then c :: rest else d :: replaceFirstSide c rest

/-- Modelled from the spec: `replaceAtSideLevel(context)` of the absent `context.go`:
"swap which side context occupies the stack's side-context slot", the slot being that of
the side context nearest the top. -/
def replaceAtSideLevel (stack : List Context) (c : Context) : List Context :=
  (replaceFirstSide c stack.reverse).reverse

/-- Modelled from the spec: the three transitions of the context stack of the absent
`context.go`; `replaceAtSideLevel` takes a side context, the one that is to occupy the
side-context slot. -/
inductive StackOp where
  | push (c : Context)
  | pop
  | replaceAtSideLevel (c : Context) (side : c.kind = .SIDE_CONTEXT)

/-- One context stack operation. -/
def StackOp.apply (stack : List Context) : StackOp → List Context
  | .push c => Lazygit.pushContext stack c
  | .pop => Lazygit.popContext stack
  | .replaceAtSideLevel c _ => Lazygit.replaceAtSideLevel stack c

/-- A sequence of context stack operations, applied in order. -/
def runStackOps (stack : List Context) (ops : List StackOp) : List Context :=
  ops.foldl StackOp.apply stack

/-! ## Task pipeline -/

/-- Modelled from the spec: the three kinds of task of the absent task pipeline: static
text, a captured command, a streaming command. -/
inductive UpdateTask where
  | staticText (lines : List String)
  | captured
  | streaming
  deriving DecidableEq, Repr

/-- Modelled from the spec: the state of one panel of the task pipeline (the package
`pkg/tasks` and `refreshMainViews` are not among the source files): the generation
counter, the buffer, whether a producer of the current generation is in flight, and the
generations whose process has been asked to terminate. -/
structure Panel where
  generation : Nat
  buffer : List String
  producer : Option UpdateTask
  terminated : List Nat
  deriving DecidableEq, Repr

/-- Modelled from the spec: the events of one panel of the absent task pipeline: a task is
submitted, a producer started at generation `gen` emits a line, a captured command started
at generation `gen` completes with its output. -/
inductive PanelEvent where
  | submit (task : UpdateTask)
  | output (gen : Nat) (line : String)
  | completed (gen : Nat) (lines : List String)
  deriving DecidableEq, Repr

/-- Modelled from the spec: `submit(panelName, task)` of the absent task pipeline: an
in-flight producer is asked to stop, the generation advances so that its further output is
stale, and the new producer starts; static text is written at once as the whole buffer. -/
def Panel.submit (p : Panel) (task : UpdateTask) : Panel :=
  let terminated := if p.producer.isSome then p.generation :: p.terminated else p.terminated
  match task with
  | .staticText lines =>
    { generation := p.generation + 1, buffer := lines, producer := none,
      terminated := terminated }
  | t =>
    { generation := p.generation + 1, buffer := p.buffer, producer := some t,
      terminated := terminated }

/-- Modelled from the spec: one event of the absent task pipeline.  Output tagged with a
stale generation is dropped; streamed lines are appended, captured output replaces the
buffer in one update. -/
def Panel.step (p : Panel) : PanelEvent → Panel
  | .submit task => p.submit task
  | .output gen line =>
    if gen = p.generation then { p with buffer := p.buffer ++ [line] } else p
  | .completed gen lines =>
    if gen = p.generation then { p with buffer := lines, producer := none } else p

/-- A sequence of events of one panel, in the order they happen. -/
def Panel.run (p : Panel) (events : List PanelEvent) : Panel :=
  events.foldl Panel.step p

/-- Whether an event is output of the producer started at generation `gen`. -/
def PanelEvent.isFrom (gen : Nat) : PanelEvent → Bool
  | .submit _ => false
  | .output g _ => g = gen
  | .completed g _ => g = gen

/-! ## Main panel scrolling (`global_handlers.go`) -/

/-- The part of the GUI state `scrollUpMain` and `scrollDownMain` write: the flag
`State.Panels.Merging.UserScrolling` and the view `Views.Main`. -/
structure MainScroll where
  UserScrolling : Bool
  Main : View
  deriving DecidableEq, Repr

/-- Embedding of `gui.scrollUpMain()`: the state after the call and the error it returns.
`canScrollMergePanel` is the result of the helper method of that name. -/
def scrollUpMain (cfg : GuiConfig) (canScrollMergePanel : Bool) (s : MainScroll) :
    MainScroll × Except String Unit :=
  let s := if canScrollMergePanel then { s with UserScrolling := true } else s
  match scrollUpView cfg s.Main with
  | .ok v => ({ s with Main := v }, .ok ())
  | .error err => (s, .error err)

/-- Embedding of `gui.scrollDownMain()`: the state after the call and the error it
returns, or the argument of the `ReadLines` call it makes when there is one.
`canScrollMergePanel` is the result of the helper method of that name. -/
def scrollDownMain (cfg : GuiConfig) (managers : List String) (canScrollMergePanel : Bool)
    (s : MainScroll) : MainScroll × Except String (Option Int) :=
  let s := if canScrollMergePanel then { s with UserScrolling := true } else s
  match scrollDownView cfg managers s.Main with
  | .ok (v, lines) => ({ s with Main := v }, .ok lines)
  | .error err => (s, .error err)

/-! ## The window tree (`arrangement.go`) -/

/-- Embedding of `gui.mainSectionChildren()`. -/
def mainSectionChildren (gui : Gui) : List Box :=
  let currentWindow := gui.currentWindow
  if !gui.isMainPanelSplit ∨ (gui.ScreenMode = .SCREEN_FULL ∧ currentWindow = "main") then
    [Box.window "main" 0 1]
  else
    let main := if gui.secondaryViewFocused then "secondary" else "main"
    let secondary := if gui.secondaryViewFocused then "main" else "secondary"
    [Box.window main 0 1, Box.window secondary 0 1]

/-- What `infoSectionChildren` uses that is declared outside the source files: the string
constants `SEARCH_PREFIX` and `INFO_SECTION_PADDING` and the function
`utils.Decolorise`. -/
structure InfoSection where
  SEARCH_PREFIX : String
  INFO_SECTION_PADDING : String
  Decolorise : String → String

/-- The Go builtin `len` on a string: its length in bytes. -/
def goLen (s : String) : Int := s.utf8ByteSize

/-- Embedding of `gui.infoSectionChildren(informationStr, appStatus)`. -/
def infoSectionChildren (env : InfoSection) (gui : Gui) (informationStr appStatus : String) :
    List Box :=
  if gui.isSearching then
    [Box.window "searchPrefix" (goLen env.SEARCH_PREFIX) 0, Box.window "search" 0 1]
  else
    let result : List Box := []
    let result :=
      if goLen appStatus > 0 then
        result ++ [Box.window "appStatus" (goLen appStatus + goLen env.INFO_SECTION_PADDING) 0]
      else result
    result ++
      [Box.window "options" 0 1,
        Box.window "information"
          (goLen env.INFO_SECTION_PADDING + goLen (env.Decolorise informationStr)) 0]

/-- The box tree `root` that `gui.getWindowDimensions(informationStr, appStatus)` builds.
`invRatio` is the value of `int(1/sidePanelWidthRatio)`, as in `getMidSectionWeights`. -/
def getWindowDimensions.root (invRatio : Int) (env : InfoSection) (gui : Gui)
    (informationStr appStatus : String) : Box :=
  let width := gui.width
  let height := gui.height
  let sideSectionWeight := (getMidSectionWeights invRatio gui).1
  let mainSectionWeight := (getMidSectionWeights invRatio gui).2
  let portraitMode := width ≤ 84 ∧ height > 45
  let sidePanelsDirection := if portraitMode then Direction.ROW else Direction.COLUMN
  let mainPanelsDirection :=
    if splitMainPanelSideBySide gui then Direction.COLUMN else Direction.ROW
  .mk .ROW
    [.mk sidePanelsDirection
        [.mk .ROW [] (some (sidePanelChildren gui)) "" 0 sideSectionWeight,
          .mk mainPanelsDirection (mainSectionChildren gui) none "" 0 mainSectionWeight]
        none "" 0 1,
      .mk .COLUMN (infoSectionChildren env gui informationStr appStatus) none "" 1 0]
    none "" 0 0

/-- Embedding of `gui.getWindowDimensions(informationStr, appStatus)`: the layout of the
tree at the terminal size. -/
def getWindowDimensions (invRatio : Int) (env : InfoSection) (gui : Gui)
    (informationStr appStatus : String) : List Rectangle :=
  Arrange (getWindowDimensions.root invRatio env gui informationStr appStatus) 0 0 gui.width
    gui.height

/-- The boxes of a tree: the root, the declared children of a box of the tree, and the
boxes its conditional-children producer returns at any width and height. -/
inductive Box.Descendant (root : Box) : Box → Prop
  | self : Box.Descendant root root
  | child (p c : Box) (hp : Box.Descendant root p) (hc : c ∈ p.Children) :
      Box.Descendant root c
  | conditional (p c : Box) (f : Int → Int → List Box) (w h : Int)
      (hp : Box.Descendant root p) (hf : p.ConditionalChildren = some f) (hc : c ∈ f w h) :
      Box.Descendant root c

/-- How many of the three a box has: a window name, a non-empty list of children, a
conditional-children producer. -/
def Box.shapeCount (b : Box) : Nat :=
  (if b.Window ≠ "" then 1 else 0) + (if b.Children.isEmpty then 0 else 1)
    + (if b.ConditionalChildren.isSome then 1 else 0)

/-! ## The side-panel width ratio: Go `float64` arithmetic -/

/-- The iteration of `floorLog2`, with fuel. -/
def floorLog2.go : Nat → Nat → Nat
  | 0, _ => 0
  | fuel + 1, n => if n ≥ 2 then floorLog2.go fuel (n / 2) + 1 else 0

/-- The floor of the binary logarithm of a positive natural number. -/
def floorLog2 (n : Nat) : Nat := floorLog2.go n n

/-- The floor of the binary logarithm of the fraction `n / d` of two positive natural
numbers. -/
def binExp (n d : Nat) : Int :=
  let k : Int := (floorLog2 n : Int) - (floorLog2 d : Int)
  if (if k ≥ 0 then d * 2 ^ k.toNat ≤ n else d ≤ n * 2 ^ (-k).toNat) then k else k - 1

/-- The integer nearest to `n / d`, a tie going to the even one. -/
def roundHalfEven (n d : Nat) : Nat :=
  let q := n / d
  let r := n % d
  if 2 * r < d then q else if 2 * r > d then q + 1 else if q % 2 = 0 then q else q + 1

/-- The values of the Go type `float64` (IEEE 754 binary64): the finite value
`mant * 2 ^ exp`, negated when `neg` is set, the two infinities, and not-a-number. -/
inductive Float64 where
  | finite (neg : Bool) (mant : Nat) (exp : Int)
  | inf (neg : Bool)
  | nan
  deriving DecidableEq, Repr

/-- The `float64` nearest to the fraction `n / d` (with `d` positive), negated when `neg` is
set, as IEEE 754 rounds to nearest with ties to even: 53 significant bits, the least
exponent `-1074` of the subnormal numbers, and infinity from `2 ^ 1024` on.  It is the
value a decimal literal `n / d` of the configuration is read as, and the rounding of every
arithmetic result. -/
def Float64.round (neg : Bool) (n d : Nat) : Float64 :=
  if n = 0 then .finite neg 0 0
  else
    let e : Int := max (binExp n d - 52) (-1074)
    let m :=
      if e ≥ 0 then roundHalfEven n (d * 2 ^ e.toNat)
      else roundHalfEven (n * 2 ^ (-e).toNat) d
    if e > 971 ∨ (e = 971 ∧ m ≥ 2 ^ 53) then .inf neg else .finite neg m e

/-- The Go expression `1/x` on a `float64`. -/
def Float64.inv : Float64 → Float64
  | .nan => .nan
  | .inf neg => .finite neg 0 0
  | .finite neg mant exp =>
    if mant = 0 then .inf neg
    else if exp ≤ 0 then Float64.round neg (2 ^ (-exp).toNat) mant
    else Float64.round neg 1 (mant * 2 ^ exp.toNat)

/-- The Go conversion `int(x)` of a `float64` to the 64-bit `int`: the fraction is
discarded; when the value is not finite or does not fit, the result depends on the
implementation, which is `none`. -/
def Float64.toInt : Float64 → Option Int
  | .finite neg mant exp =>
    let t : Nat := if exp ≥ 0 then mant * 2 ^ exp.toNat else mant / 2 ^ (-exp).toNat
    if neg then (if t ≤ 2 ^ 63 then some (-(t : Int)) else none)
    else (if t < 2 ^ 63 then some (t : Int) else none)
  | _ => none

/-- The function `getMidSectionWeights` at the configured `float64` side-panel width
ratio, when Go defines the result of `int(1/sidePanelWidthRatio)`. -/
def getMidSectionWeights.ofRatio (sidePanelWidthRatio : Float64) (gui : Gui) :
    Option (Int × Int) :=
  (sidePanelWidthRatio.inv.toInt).map (fun invRatio => getMidSectionWeights invRatio gui)

/-- The rational value of a finite `float64`. -/
def Float64.value : Float64 → Option ℚ
  | .finite neg mant exp => some ((if neg then -1 else 1) * (mant : ℚ) * (2 : ℚ) ^ exp)
  | _ => none

/-! ## Sub-commits panel (`sub_commits_panel.go`) -/

/-- What the embedded code reads of a `models.Commit`, a type declared outside the source
files: its `Sha`. -/
structure Commit where
  Sha : String
  deriving DecidableEq, Repr

/-- The part of the GUI state read and written by `sub_commits_panel.go`:
`gui.State.SubCommits`, the fields `refName` and `SelectedLineIdx` of
`gui.State.Panels.SubCommits`, the context `gui.State.Contexts.SubCommits` with the parent
set by `SetParentContext`, and the context stack.  The commits of the slice are taken to
be non-nil, as the list builder produces them. -/
structure SubCommitsState where
  SubCommits : List Commit
  refName : String
  SelectedLineIdx : Int
  SubCommitsContext : Context
  SubCommitsParent : Option Context
  ContextStack : List Context
  deriving DecidableEq, Repr

/-- Embedding of `gui.getSelectedSubCommit()`.  The result `.ok none` is the Go `nil`, and
`.error` is the run-time panic of a slice index out of range. -/
def getSelectedSubCommit (gui : SubCommitsState) : Except String (Option Commit) :=
  let selectedLine := gui.SelectedLineIdx
  let commits := gui.SubCommits
  if selectedLine = -1 ∨ commits.length = 0 then .ok none
  else if selectedLine < 0 then .error "index out of range"
  else
    match commits[selectedLine.toNat]? with
    | some commit => .ok (some commit)
    | none => .error "index out of range"

/-- Embedding of `gui.handleCheckoutSubCommit()`.  The helpers `gui.ask` and
`gui.handleCheckoutRef` are declared outside the source files and are parameters: each
returns the state it leaves and its error.  The result `.error` is a run-time panic;
`.ok (gui, err)` is the state left and the error returned. -/
def handleCheckoutSubCommit
    (ask : SubCommitsState → (SubCommitsState → SubCommitsState × Option String)
      → SubCommitsState × Option String)
    (handleCheckoutRef : SubCommitsState → String → SubCommitsState × Option String)
    (gui : SubCommitsState) : Except String (SubCommitsState × Option String) :=
  match getSelectedSubCommit gui with
  | .error p => .error p
  | .ok none => .ok (gui, none)
  | .ok (some commit) =>
    match ask gui (fun gui => handleCheckoutRef gui commit.Sha) with
    | (gui, some err) => .ok (gui, some err)
    | (gui, none) => .ok ({ gui with SelectedLineIdx := 0 }, none)

/-- Embedding of `gui.handleCreateSubCommitResetMenu()`, with the helper
`gui.createResetMenu` as a parameter.  The field access `commit.Sha` on the `nil` commit is
the run-time panic of a nil pointer dereference. -/
def handleCreateSubCommitResetMenu
    (createResetMenu : SubCommitsState → String → SubCommitsState × Option String)
    (gui : SubCommitsState) : Except String (SubCommitsState × Option String) :=
  match getSelectedSubCommit gui with
  | .error p => .error p
  | .ok none => .error "nil pointer dereference"
  | .ok (some commit) => .ok (createResetMenu gui commit.Sha)

/-- Embedding of `gui.handleViewSubCommitFiles()`, with the helper
`gui.switchToCommitFilesContext` as a parameter. -/
def handleViewSubCommitFiles
    (switchToCommitFilesContext : SubCommitsState → String → Bool → Context → String
      → SubCommitsState × Option String)
    (gui : SubCommitsState) : Except String (SubCommitsState × Option String) :=
  match getSelectedSubCommit gui with
  | .error p => .error p
  | .ok none => .ok (gui, none)
  | .ok (some commit) =>
    .ok (switchToCommitFilesContext gui commit.Sha false gui.SubCommitsContext "branches")

/-- Embedding of `gui.switchToSubCommitsContext(refName)`: the state left and the error
returned.  `GetCommits` is the call of the commit list builder on the ref name,
`currentSideListContext` and `pushContext` are the helpers of those names, declared outside
the source files; `pushContext` returns the state it leaves and its error. -/
def switchToSubCommitsContext (GetCommits : String → Except String (List Commit))
    (currentSideListContext : SubCommitsState → Option Context)
    (pushContext : SubCommitsState → Context → SubCommitsState × Option String)
    (gui : SubCommitsState) (refName : String) : SubCommitsState × Option String :=
  match GetCommits refName with
  | .error err => (gui, some err)
  | .ok commits =>
    let gui := { gui with SubCommits := commits }
    let gui := { gui with refName := refName }
    let gui := { gui with SelectedLineIdx := 0 }
    let gui := { gui with SubCommitsParent := currentSideListContext gui }
    pushContext gui gui.SubCommitsContext

/-! ## Pager configuration (`commands/config.go`)

Go strings are modelled by `String`, a sequence of Unicode characters. -/

/-- The Go predicate `unicode.IsSpace`, by which `strings.TrimSpace` trims. -/
def IsSpace (r : Char) : Bool :=
  let n := r.toNat
  decide ((0x09 ≤ n ∧ n ≤ 0x0D) ∨ n = 0x20 ∨ n = 0x85 ∨ n = 0xA0 ∨ n = 0x1680 ∨
    (0x2000 ≤ n ∧ n ≤ 0x200A) ∨ n = 0x2028 ∨ n = 0x2029 ∨ n = 0x202F ∨ n = 0x205F ∨
    n = 0x3000)

/-- The Go function `strings.TrimSpace`: the string without its leading and trailing white
space. -/
def TrimSpace (s : String) : String :=
  ⟨((s.data.dropWhile IsSpace).reverse.dropWhile IsSpace).reverse⟩

/-- The scan of `strings.Split` for a non-empty separator: `cur` holds the current piece
reversed, and `skip` the number of characters of a matched separator still to pass. -/
def Split.loop (sep : List Char) : List Char → List Char → Nat → List (List Char)
  | [], cur, _ => [cur.reverse]
  | _ :: rest, cur, skip + 1 => Split.loop sep rest cur skip
  | c :: rest, cur, 0 =>
    if sep.isPrefixOf (c :: rest) then cur.reverse :: Split.loop sep rest [] (sep.length - 1)
    else Split.loop sep rest (c :: cur) 0

/-- The Go function `strings.Split(s, sep)`: the pieces of `s` between the occurrences of
`sep`, found from left to right without overlap; with an empty `sep`, the characters of
`s`. -/
def Split (s sep : String) : List String :=
  if sep = "" then s.data.map (fun c => String.mk [c])
  else (Split.loop sep.data s.data [] 0).map String.mk

/-- The part of a list of characters that precedes the first occurrence of `sep`; the
whole list when there is none. -/
def Split.first (sep : List Char) : List Char → List Char
  | [] => []
  | c :: rest => if sep.isPrefixOf (c :: rest) then [] else c :: Split.first sep rest

/-- What `config.go` reads of a `GitCommand` and of its environment: the results of
`os.Getenv("GIT_PAGER")` and `os.Getenv("PAGER")`, the method `RunCommandWithOutput`
(declared outside the source files) as a function of the command line, and the values
`Git.Paging.UseConfig` and `Git.Paging.Pager` of the user configuration. -/
structure GitCommand where
  GIT_PAGER : String
  PAGER : String
  RunCommandWithOutput : String → Except String String
  UseConfig : Bool
  Pager : String

/-- Embedding of `(c *GitCommand) ConfiguredPager()`.  The result `none` is the run-time
panic of the index expression `[0]` on an empty slice. -/
def ConfiguredPager (c : GitCommand) : Option String :=
  if c.GIT_PAGER ≠ "" then some c.GIT_PAGER
  else if c.PAGER ≠ "" then some c.PAGER
  else
    match c.RunCommandWithOutput "git config --get-all core.pager" with
    | .error _ => some ""
    | .ok output =>
      let trimmedOutput := TrimSpace output
      (Split trimmedOutput "\n")[0]?

/-- Embedding of `(c *GitCommand) GetPager(width)`.  The helper
`utils.ResolvePlaceholderString` is declared outside the source files and is a parameter;
the template values are the list of the pairs of the Go map; `width/2` is the truncated
division of Go and `strconv.Itoa` the decimal representation.  The result `none` is the
run-time panic of an index expression `[0]` on an empty slice. -/
def GetPager (ResolvePlaceholderString : String → List (String × String) → String)
    (c : GitCommand) (width : Int) : Option String :=
  let useConfig := c.UseConfig
  if useConfig then
    match ConfiguredPager c with
    | none => none
    | some pager => (Split pager "| less")[0]?
  else
    let templateValues := [("columnWidth", toString (Int.tdiv width 2 - 6))]
    let pagerTemplate := c.Pager
    some (ResolvePlaceholderString pagerTemplate templateValues)

/-! # Theorems -/

/-! ## Scroll controller -/

/-- One `scrollDownView` call leaves everything but the vertical origin as it was. -/
theorem scrollDownViewState_frame (cfg : GuiConfig) (managers : List String) (v : View) :
    (scrollDownViewState cfg managers v).name = v.name ∧
    (scrollDownViewState cfg managers v).ox = v.ox ∧
    (scrollDownViewState cfg managers v).sx = v.sx ∧
    (scrollDownViewState cfg managers v).sy = v.sy ∧
    (scrollDownViewState cfg managers v).linesHeight = v.linesHeight := by
  unfold scrollDownViewState scrollDownView View.SetOrigin
  simp only []
  split_ifs <;> simp

/-- The vertical origin after one `scrollDownView` call with scroll-past-bottom off. -/
theorem scrollDownViewState_oy_noPast (cfg : GuiConfig) (managers : List String) (v : View)
    (hpast : cfg.ScrollPastBottom = false) :
    (scrollDownViewState cfg managers v).oy = v.oy ∨
    (0 ≤ (scrollDownViewState cfg managers v).oy ∧
      (scrollDownViewState cfg managers v).oy ≤ v.linesHeight - v.sy - 1) := by
  unfold scrollDownViewState scrollDownView View.SetOrigin
  simp only [hpast, Bool.not_false, if_true, Bool.false_eq_true, if_false]
  split_ifs <;> dsimp only <;> omega

/-- The iteration leaves the view height and the content height as they were. -/
theorem scrollDownViewIter_frame (cfg : GuiConfig) (managers : List String) (n : Nat)
    (v : View) :
    (scrollDownViewIter cfg managers n v).ox = v.ox ∧
    (scrollDownViewIter cfg managers n v).sy = v.sy ∧
    (scrollDownViewIter cfg managers n v).linesHeight = v.linesHeight := by
  induction n generalizing v with
  | zero => simp [scrollDownViewIter]
  | succ n ih =>
    obtain ⟨_, h1, _, h2, h3⟩ := scrollDownViewState_frame cfg managers v
    obtain ⟨i1, i2, i3⟩ := ih (scrollDownViewState cfg managers v)
    simp only [scrollDownViewIter]
    exact ⟨i1.trans h1, i2.trans h2, i3.trans h3⟩

/-- C1: with scroll-past-bottom disabled, an origin with `oy ≤ max 0 (H - sy)` still
satisfies that bound after any number of `scrollDownView` calls, which leave the content
height `H` and the view height `sy` as they were; and a call that changes the origin sets
it to at most `H - sy - 1`. -/
theorem scrollDownView_bounded (cfg : GuiConfig) (managers : List String) (v : View)
    (n : Nat) (hpast : cfg.ScrollPastBottom = false)
    (hoy : v.oy ≤ max 0 (v.linesHeight - v.sy)) :
    (scrollDownViewIter cfg managers n v).oy ≤ max 0 (v.linesHeight - v.sy) ∧
    (scrollDownViewIter cfg managers n v).linesHeight = v.linesHeight ∧
    (scrollDownViewIter cfg managers n v).sy = v.sy ∧
    ((scrollDownViewState cfg managers v).oy ≠ v.oy →
      (scrollDownViewState cfg managers v).oy ≤ v.linesHeight - v.sy - 1) := by
  refine ⟨?_, (scrollDownViewIter_frame cfg managers n v).2.2,
    (scrollDownViewIter_frame cfg managers n v).2.1, ?_⟩
  · induction n generalizing v with
    | zero => simpa [scrollDownViewIter] using hoy
    | succ n ih =>
      obtain ⟨_, _, _, h2, h3⟩ := scrollDownViewState_frame cfg managers v
      have hstep : (scrollDownViewState cfg managers v).oy ≤ max 0 (v.linesHeight - v.sy) := by
        rcases scrollDownViewState_oy_noPast cfg managers v hpast with h | ⟨h0, h1⟩
        · rw [h]; exact hoy
        · exact le_max_of_le_right (by omega)
      have := ih (scrollDownViewState cfg managers v) (by rw [h2, h3]; exact hstep)
      simpa [scrollDownViewIter, h2, h3] using this
  · intro hne
    rcases scrollDownViewState_oy_noPast cfg managers v hpast with h | ⟨_, h1⟩
    · exact absurd h hne
    · exact h1

/-- C1, at a concrete view: content of 10 lines in a view of height 4, step 5. -/
theorem scrollDownView_bounded_witness :
    (scrollDownViewIter ⟨5, false, false, ""⟩ [] 3 ⟨"main", 0, 0, 80, 4, 10⟩).oy ≤
        max 0 ((10 : Int) - 4) ∧
    (scrollDownViewIter ⟨5, false, false, ""⟩ [] 3 ⟨"main", 0, 0, 80, 4, 10⟩).linesHeight
        = 10 ∧
    (scrollDownViewIter ⟨5, false, false, ""⟩ [] 3 ⟨"main", 0, 0, 80, 4, 10⟩).sy = 4 ∧
    ((scrollDownViewState ⟨5, false, false, ""⟩ [] ⟨"main", 0, 0, 80, 4, 10⟩).oy ≠ 0 →
      (scrollDownViewState ⟨5, false, false, ""⟩ [] ⟨"main", 0, 0, 80, 4, 10⟩).oy ≤
        (10 : Int) - 4 - 1) :=
  scrollDownView_bounded ⟨5, false, false, ""⟩ [] ⟨"main", 0, 0, 80, 4, 10⟩ 3 rfl
    (by decide)

/-- C2: `nextScreenMode` and `prevScreenMode` walk the cycle Normal, Half, Full in opposite
directions and wrap at both ends. -/
theorem screenMode_cycle :
    nextScreenMode .SCREEN_NORMAL = some .SCREEN_HALF ∧
    nextScreenMode .SCREEN_HALF = some .SCREEN_FULL ∧
    nextScreenMode .SCREEN_FULL = some .SCREEN_NORMAL ∧
    prevScreenMode .SCREEN_NORMAL = some .SCREEN_FULL ∧
    prevScreenMode .SCREEN_FULL = some .SCREEN_HALF ∧
    prevScreenMode .SCREEN_HALF = some .SCREEN_NORMAL := by
  decide

/-- C9: on a view whose horizontal origin is not negative, `scrollUpView` succeeds and
sets the origin to `(ox, max 0 (oy - step))`: the horizontal origin is unchanged and the
vertical origin is not negative. -/
theorem scrollUpView_origin (cfg : GuiConfig) (v : View) (hox : 0 ≤ v.ox) :
    scrollUpView cfg v = .ok { v with oy := max 0 (v.oy - cfg.ScrollHeight) } ∧
    ∀ v', scrollUpView cfg v = .ok v' →
      v'.ox = v.ox ∧ v'.oy = max 0 (v.oy - cfg.ScrollHeight) ∧ 0 ≤ v'.oy := by
  have h : scrollUpView cfg v = .ok { v with oy := max 0 (v.oy - cfg.ScrollHeight) } := by
    unfold scrollUpView View.SetOrigin
    have h0 : ¬ (v.ox < 0 ∨ max 0 (v.oy - cfg.ScrollHeight) < 0) := by
      intro h
      rcases h with h | h
      · omega
      · exact absurd (le_max_left 0 (v.oy - cfg.ScrollHeight)) (not_le.mpr h)
    simp only [h0, if_false]
  refine ⟨h, ?_⟩
  intro v' hv'
  rw [h] at hv'
  cases hv'
  exact ⟨rfl, rfl, le_max_left _ _⟩

/-- C9, at a concrete view: origin `(2, 3)` scrolled up by 5 lines. -/
theorem scrollUpView_origin_witness :
    scrollUpView ⟨5, false, false, ""⟩ ⟨"main", 2, 3, 80, 4, 10⟩
      = .ok { (⟨"main", 2, 3, 80, 4, 10⟩ : View) with oy := max 0 ((3 : Int) - 5) } ∧
    ∀ v', scrollUpView ⟨5, false, false, ""⟩ ⟨"main", 2, 3, 80, 4, 10⟩ = .ok v' →
      v'.ox = 2 ∧ v'.oy = max 0 ((3 : Int) - 5) ∧ 0 ≤ v'.oy :=
  scrollUpView_origin ⟨5, false, false, ""⟩ ⟨"main", 2, 3, 80, 4, 10⟩ (by decide)

/-- The vertical origin after one `scrollDownView` call with scroll-past-bottom on. -/
theorem scrollDownViewState_oy_past (cfg : GuiConfig) (managers : List String) (v : View)
    (hpast : cfg.ScrollPastBottom = true) (hstep : 0 < cfg.ScrollHeight) (hox : 0 ≤ v.ox)
    (hoy0 : 0 ≤ v.oy) (hoy : v.oy ≤ max 0 (v.linesHeight - 2)) :
    (scrollDownViewState cfg managers v).oy
      = min (v.oy + cfg.ScrollHeight) (max 0 (v.linesHeight - 2)) := by
  unfold scrollDownViewState scrollDownView View.SetOrigin
  simp only [hpast, Bool.not_true, if_true, Bool.false_eq_true, if_false]
  split_ifs <;> dsimp only <;> omega

/-- Closed form of the vertical origin after `n` calls with scroll-past-bottom on. -/
theorem scrollDownViewIter_oy_past (cfg : GuiConfig) (managers : List String) (n : Nat)
    (v : View) (hpast : cfg.ScrollPastBottom = true) (hstep : 0 < cfg.ScrollHeight)
    (hox : 0 ≤ v.ox) (hoy0 : 0 ≤ v.oy) (hoy : v.oy ≤ max 0 (v.linesHeight - 2)) :
    (scrollDownViewIter cfg managers n v).oy
      = min (v.oy + n * cfg.ScrollHeight) (max 0 (v.linesHeight - 2)) := by
  induction n generalizing v with
  | zero => simp [scrollDownViewIter]; omega
  | succ n ih =>
    obtain ⟨_, h1, _, _, h3⟩ := scrollDownViewState_frame cfg managers v
    have hs := scrollDownViewState_oy_past cfg managers v hpast hstep hox hoy0 hoy
    have hn : (0 : Int) ≤ n * cfg.ScrollHeight :=
      mul_nonneg (Int.ofNat_nonneg n) (le_of_lt hstep)
    have := ih (scrollDownViewState cfg managers v) (by rw [h1]; exact hox)
      (by rw [hs]; omega) (by rw [hs, h3]; omega)
    simp only [scrollDownViewIter]
    rw [this, hs, h3]
    push_cast
    rw [add_mul, one_mul]
    generalize (n : Int) * cfg.ScrollHeight = t at hn ⊢
    omega

/-- C10 (as amended): with scroll-past-bottom enabled, content height `H ≥ 1` and a
positive step, `n` successive `scrollDownView` calls from origin 0 put the vertical origin
at `min (n * step) (max 0 (H - 2))`: the calls advance by the step until they reach
`max 0 (H - 2)` and stop there, so that for `H ≥ 2` two lines of content remain at or
below the origin. -/
theorem scrollDownView_pastBottom (cfg : GuiConfig) (managers : List String) (v : View)
    (n : Nat) (hpast : cfg.ScrollPastBottom = true) (hstep : 0 < cfg.ScrollHeight)
    (_hH : 1 ≤ v.linesHeight) (hox : 0 ≤ v.ox) (hoy : v.oy = 0) :
    (scrollDownViewIter cfg managers n v).oy
        = min (n * cfg.ScrollHeight) (max 0 (v.linesHeight - 2)) ∧
    (max 0 (v.linesHeight - 2) ≤ n →
      (scrollDownViewIter cfg managers n v).oy = max 0 (v.linesHeight - 2)) := by
  have h := scrollDownViewIter_oy_past cfg managers n v hpast hstep hox (by omega)
    (by rw [hoy]; exact le_max_left _ _)
  rw [hoy, zero_add] at h
  refine ⟨h, fun hn => ?_⟩
  rw [h]
  have hmul : (n : Int) ≤ n * cfg.ScrollHeight :=
    le_mul_of_one_le_right (Int.ofNat_nonneg n) hstep
  exact min_eq_right (le_trans hn hmul)

/-- C10 (as amended), at a concrete view: 5 lines of content, step 1, 10 calls. -/
theorem scrollDownView_pastBottom_witness :
    (scrollDownViewIter ⟨1, true, false, ""⟩ [] 10 ⟨"main", 0, 0, 80, 4, 5⟩).oy
        = min (((10 : Nat) : Int) * 1) (max 0 ((5 : Int) - 2)) ∧
    (max 0 ((5 : Int) - 2) ≤ ((10 : Nat) : Int) →
      (scrollDownViewIter ⟨1, true, false, ""⟩ [] 10 ⟨"main", 0, 0, 80, 4, 5⟩).oy
        = max 0 ((5 : Int) - 2)) :=
  scrollDownView_pastBottom ⟨1, true, false, ""⟩ [] ⟨"main", 0, 0, 80, 4, 5⟩ 10 rfl
    (by decide) (by decide) (by decide) rfl

/-- C10 as stated fails: with 5 lines of content and step 1 the origin reaches 3 after
three calls, a further call leaves the view as it is, and 3 is not `5 - 1`. -/
theorem scrollDownView_pastBottom_counterexample :
    (scrollDownViewIter ⟨1, true, false, ""⟩ [] 3 ⟨"main", 0, 0, 80, 4, 5⟩).oy = 3 ∧
    scrollDownViewState ⟨1, true, false, ""⟩ []
        (scrollDownViewIter ⟨1, true, false, ""⟩ [] 3 ⟨"main", 0, 0, 80, 4, 5⟩)
      = scrollDownViewIter ⟨1, true, false, ""⟩ [] 3 ⟨"main", 0, 0, 80, 4, 5⟩ ∧
    (scrollDownViewIter ⟨1, true, false, ""⟩ [] 3 ⟨"main", 0, 0, 80, 4, 5⟩).oy
      ≠ (5 : Int) - 1 := by
  decide

/-! ## Arrangement -/

/-- C3: in Half or Full screen mode, for every width and height, `sidePanelChildren`
returns five boxes for status, files, branches, commits, stash in that order; the box of
the current side window has weight 1 and every other box has size 0 and weight 0. -/
theorem sidePanelChildren_fullScreen (gui : Gui) (width height : Int)
    (hmode : gui.ScreenMode = .SCREEN_HALF ∨ gui.ScreenMode = .SCREEN_FULL) :
    sidePanelChildren gui width height
      = ["status", "files", "branches", "commits", "stash"].map (fun window =>
          if window = currentSideWindowName gui then Box.window window 0 1
          else Box.window window 0 0) ∧
    (sidePanelChildren gui width height).map Box.Window
      = ["status", "files", "branches", "commits", "stash"] ∧
    ∀ b ∈ sidePanelChildren gui width height,
      (b.Window = currentSideWindowName gui → b.Weight = 1) ∧
      (b.Window ≠ currentSideWindowName gui → b.Size = 0 ∧ b.Weight = 0) := by
  have hm : gui.ScreenMode = .SCREEN_FULL ∨ gui.ScreenMode = .SCREEN_HALF := hmode.symm
  have h : sidePanelChildren gui width height
      = ["status", "files", "branches", "commits", "stash"].map (fun window =>
          if window = currentSideWindowName gui then Box.window window 0 1
          else Box.window window 0 0) := by
    unfold sidePanelChildren
    simp only [hm, if_true, List.map]
  refine ⟨h, ?_, ?_⟩
  · rw [h]
    simp only [List.map]
    refine congrArg₂ _ ?_ (congrArg₂ _ ?_ (congrArg₂ _ ?_ (congrArg₂ _ ?_
      (congrArg₂ _ ?_ rfl)))) <;> split_ifs <;> rfl
  · intro b hb
    rw [h] at hb
    simp only [List.map, List.mem_cons, List.mem_singleton, List.not_mem_nil, or_false] at hb
    rcases hb with hb | hb | hb | hb | hb <;> subst hb <;> split_ifs with hc <;>
      simp [Box.window, Box.Window, Box.Weight, Box.Size, hc]

/-- C3, at a concrete state: half-screen mode, the commits panel under a menu, a terminal
of 120 by 40. -/
theorem sidePanelChildren_fullScreen_witness :
    (sidePanelChildren
        ⟨.SCREEN_HALF, [⟨"commits", .SIDE_CONTEXT, "commits"⟩,
            ⟨"menu", .TEMPORARY_POPUP, "menu"⟩],
          ⟨2, false, false, "auto"⟩, "menu", false, false, false, 120, 40⟩ 30 38).map
        Box.Window
      = ["status", "files", "branches", "commits", "stash"] :=
  (sidePanelChildren_fullScreen
    ⟨.SCREEN_HALF, [⟨"commits", .SIDE_CONTEXT, "commits"⟩,
        ⟨"menu", .TEMPORARY_POPUP, "menu"⟩],
      ⟨2, false, false, "auto"⟩, "menu", false, false, false, 120, 40⟩ 30 38
    (Or.inl rfl)).2.1

/-- C4: `getMidSectionWeights` applies the screen mode as follows, whatever the side-panel
ratio: with current window "main" in Half or Full mode the side weight is 0 and the main
weight is the one of Normal mode; with another current window Half gives `(1, 1)` and Full
gives `(1, 0)`; in Normal mode the side weight is 1. -/
theorem getMidSectionWeights_modes (invRatio : Int) (gui : Gui) :
    (gui.currentWindow = "main" →
      gui.ScreenMode = .SCREEN_HALF ∨ gui.ScreenMode = .SCREEN_FULL →
      getMidSectionWeights invRatio gui
        = (0, (getMidSectionWeights invRatio { gui with ScreenMode := .SCREEN_NORMAL }).2)) ∧
    (gui.currentWindow ≠ "main" → gui.ScreenMode = .SCREEN_HALF →
      getMidSectionWeights invRatio gui = (1, 1)) ∧
    (gui.currentWindow ≠ "main" → gui.ScreenMode = .SCREEN_FULL →
      getMidSectionWeights invRatio gui = (1, 0)) ∧
    (gui.ScreenMode = .SCREEN_NORMAL → (getMidSectionWeights invRatio gui).1 = 1) := by
  refine ⟨?_, ?_, ?_, ?_⟩
  · intro hw hm
    unfold getMidSectionWeights splitMainPanelSideBySide
    simp only [hw, hm, if_true]
    simp
  · intro hw hm
    unfold getMidSectionWeights
    simp [hw, hm]
  · intro hw hm
    unfold getMidSectionWeights
    simp [hw, hm]
  · intro hm
    unfold getMidSectionWeights
    simp only [hm]
    split_ifs <;> simp_all

/-- C4, at concrete states: main focused in full-screen mode, and the files panel focused in
half-screen, full-screen and normal mode, with `int(1/ratio) = 3`. -/
theorem getMidSectionWeights_modes_witness :
    getMidSectionWeights 3
        ⟨.SCREEN_FULL, [], ⟨2, false, false, "auto"⟩, "main", false, false, false, 120, 40⟩
      = (0, 2) ∧
    getMidSectionWeights 3
        ⟨.SCREEN_HALF, [], ⟨2, false, false, "auto"⟩, "files", false, false, false, 120, 40⟩
      = (1, 1) ∧
    getMidSectionWeights 3
        ⟨.SCREEN_FULL, [], ⟨2, false, false, "auto"⟩, "files", false, false, false, 120, 40⟩
      = (1, 0) ∧
    (getMidSectionWeights 3
        ⟨.SCREEN_NORMAL, [], ⟨2, false, false, "auto"⟩, "files", false, false, false, 120,
          40⟩).1 = 1 :=
  ⟨(getMidSectionWeights_modes 3
      ⟨.SCREEN_FULL, [], ⟨2, false, false, "auto"⟩, "main", false, false, false, 120,
        40⟩).1 rfl (Or.inr rfl),
   (getMidSectionWeights_modes 3
      ⟨.SCREEN_HALF, [], ⟨2, false, false, "auto"⟩, "files", false, false, false, 120,
        40⟩).2.1 (by decide) rfl,
   (getMidSectionWeights_modes 3
      ⟨.SCREEN_FULL, [], ⟨2, false, false, "auto"⟩, "files", false, false, false, 120,
        40⟩).2.2.1 (by decide) rfl,
   (getMidSectionWeights_modes 3
      ⟨.SCREEN_NORMAL, [], ⟨2, false, false, "auto"⟩, "files", false, false, false, 120,
        40⟩).2.2.2 rfl⟩

/-- The loop of `currentSideWindowName`, started at index `idx` with the remaining
iterations, finds the first side context of the reversed stack from `idx` on. -/
theorem currentSideWindowName_loop_eq (stack : List Context) (n idx : Nat)
    (h : idx + n = stack.length) :
    currentSideWindowName.loop stack n idx
      = (((stack.reverse.drop idx).find? (fun c => c.kind = .SIDE_CONTEXT)).map
          Context.windowName).getD "files" := by
  induction n generalizing idx with
  | zero =>
    have : stack.reverse.drop idx = [] := by
      apply List.drop_eq_nil_of_le
      simp; omega
    simp [currentSideWindowName.loop, this]
  | succ n ih =>
    have hlt : idx < stack.reverse.length := by simp; omega
    obtain ⟨c, hc⟩ : ∃ c, c = stack.reverse[idx] := ⟨_, rfl⟩
    have hget : stack[stack.length - 1 - idx]? = some c := by
      rw [hc, List.getElem_reverse]
      exact List.getElem?_eq_getElem _
    have hdrop : stack.reverse.drop idx = c :: stack.reverse.drop (idx + 1) := by
      rw [hc]; exact List.drop_eq_getElem_cons hlt
    rw [currentSideWindowName.loop]
    simp only [hget, hdrop, List.find?_cons]
    by_cases hk : c.kind = .SIDE_CONTEXT
    · simp [hk]
    · simp only [hk, if_false, decide_False]
      exact ih (idx + 1) (by omega)

/-- The result of `currentSideWindowName` as a search of the reversed stack. -/
theorem currentSideWindowName_eq_find (gui : Gui) :
    currentSideWindowName gui
      = ((gui.ContextStack.reverse.find? (fun c => c.kind = .SIDE_CONTEXT)).map
          Context.windowName).getD "files" := by
  unfold currentSideWindowName
  rw [currentSideWindowName_loop_eq gui.ContextStack gui.ContextStack.length 0 (by simp)]
  simp

/-- C5: for every context stack, `currentSideWindowName` returns the window name of the
side-kind context of greatest index, and "files" when no context of the stack is of side
kind; so pushing a context that is not of side kind leaves its result as it was. -/
theorem currentSideWindowName_nearest (gui : Gui) :
    (∀ (i : Nat) (hi : i < gui.ContextStack.length),
      (gui.ContextStack[i]).kind = .SIDE_CONTEXT →
      (∀ (j : Nat) (hj : j < gui.ContextStack.length), i < j →
        (gui.ContextStack[j]).kind ≠ .SIDE_CONTEXT) →
      currentSideWindowName gui = (gui.ContextStack[i]).windowName) ∧
    ((∀ c ∈ gui.ContextStack, c.kind ≠ .SIDE_CONTEXT) →
      currentSideWindowName gui = "files") ∧
    (∀ c : Context, c.kind ≠ .SIDE_CONTEXT →
      currentSideWindowName { gui with ContextStack := gui.ContextStack ++ [c] }
        = currentSideWindowName gui) := by
  refine ⟨?_, ?_, ?_⟩
  · intro i hi hside habove
    rw [currentSideWindowName_eq_find]
    have hsplit : gui.ContextStack
        = gui.ContextStack.take i ++ gui.ContextStack[i] :: gui.ContextStack.drop (i + 1) := by
      rw [← List.drop_eq_getElem_cons hi, List.take_append_drop]
    have hnone : (gui.ContextStack.drop (i + 1)).reverse.find?
        (fun c => c.kind = .SIDE_CONTEXT) = none := by
      rw [List.find?_eq_none]
      intro c hc
      rw [List.mem_reverse, List.mem_iff_getElem] at hc
      obtain ⟨k, hk, rfl⟩ := hc
      rw [List.getElem_drop]
      rw [List.length_drop] at hk
      simpa using habove (i + 1 + k) (by omega) (by omega)
    have hrev : gui.ContextStack.reverse
        = (gui.ContextStack.drop (i + 1)).reverse
            ++ gui.ContextStack[i] :: (gui.ContextStack.take i).reverse := by
      conv_lhs => rw [hsplit]
      simp
    rw [hrev, List.find?_append, hnone, List.find?_cons]
    simp [hside]
  · intro hall
    rw [currentSideWindowName_eq_find]
    have : gui.ContextStack.reverse.find? (fun c => c.kind = .SIDE_CONTEXT) = none := by
      rw [List.find?_eq_none]
      intro c hc
      simpa using hall c (List.mem_reverse.mp hc)
    rw [this]
    rfl
  · intro c hc
    rw [currentSideWindowName_eq_find, currentSideWindowName_eq_find]
    simp [List.find?_cons, hc]

/-- C5, at a concrete stack: a menu above the branches panel above the files panel. -/
theorem currentSideWindowName_nearest_witness :
    currentSideWindowName
        ⟨.SCREEN_NORMAL, [⟨"files", .SIDE_CONTEXT, "files"⟩,
            ⟨"localBranches", .SIDE_CONTEXT, "branches"⟩, ⟨"menu", .TEMPORARY_POPUP, "menu"⟩],
          ⟨2, false, false, "auto"⟩, "menu", false, false, false, 120, 40⟩
      = "branches" ∧
    currentSideWindowName
        ⟨.SCREEN_NORMAL, [⟨"menu", .TEMPORARY_POPUP, "menu"⟩],
          ⟨2, false, false, "auto"⟩, "menu", false, false, false, 120, 40⟩
      = "files" ∧
    currentSideWindowName
        { (⟨.SCREEN_NORMAL, [⟨"localBranches", .SIDE_CONTEXT, "branches"⟩],
            ⟨2, false, false, "auto"⟩, "branches", false, false, false, 120, 40⟩ : Gui) with
          ContextStack := [⟨"localBranches", .SIDE_CONTEXT, "branches"⟩]
            ++ [⟨"menu", .TEMPORARY_POPUP, "menu"⟩] }
      = currentSideWindowName
          ⟨.SCREEN_NORMAL, [⟨"localBranches", .SIDE_CONTEXT, "branches"⟩],
            ⟨2, false, false, "auto"⟩, "branches", false, false, false, 120, 40⟩ :=
  ⟨(currentSideWindowName_nearest
      ⟨.SCREEN_NORMAL, [⟨"files", .SIDE_CONTEXT, "files"⟩,
          ⟨"localBranches", .SIDE_CONTEXT, "branches"⟩, ⟨"menu", .TEMPORARY_POPUP, "menu"⟩],
        ⟨2, false, false, "auto"⟩, "menu", false, false, false, 120, 40⟩).1 1 (by decide) rfl
      (by
        intro j hj hij
        have hj3 : j < 3 := hj
        have : j = 2 := by omega
        subst this
        simp),
   (currentSideWindowName_nearest
      ⟨.SCREEN_NORMAL, [⟨"menu", .TEMPORARY_POPUP, "menu"⟩],
        ⟨2, false, false, "auto"⟩, "menu", false, false, false, 120, 40⟩).2.1
      (by decide),
   (currentSideWindowName_nearest
      ⟨.SCREEN_NORMAL, [⟨"localBranches", .SIDE_CONTEXT, "branches"⟩],
        ⟨2, false, false, "auto"⟩, "branches", false, false, false, 120, 40⟩).2.2
      ⟨"menu", .TEMPORARY_POPUP, "menu"⟩ (by decide)⟩

/-! ## Context stack -/

/-- Replacing the first side context by a side context keeps the number of side
contexts. -/
theorem sideCount_replaceFirstSide (c : Context) (hc : c.kind = .SIDE_CONTEXT)
    (l : List Context) : sideCount (replaceFirstSide c l) = sideCount l := by
  induction l with
  | nil => rfl
  | cons d rest ih =>
    unfold replaceFirstSide
    by_cases hd : d.kind = .SIDE_CONTEXT
    · simp [sideCount, hd, hc, List.countP_cons]
    · simp only [hd, if_false]
      simp only [sideCount, List.countP_cons] at ih ⊢
      rw [ih]

/-- Every context stack operation keeps at least one side context in the stack. -/
theorem sideCount_apply (stack : List Context) (op : StackOp) (h : 1 ≤ sideCount stack) :
    1 ≤ sideCount (op.apply stack) := by
  cases op with
  | push c =>
    simp only [StackOp.apply, pushContext, sideCount, List.countP_append] at h ⊢
    omega
  | pop =>
    simp only [StackOp.apply, popContext]
    cases hl : stack.getLast? with
    | none => simpa using h
    | some top =>
      simp only []
      split_ifs with hcond
      · exact h
      · have hs : stack = stack.dropLast ++ [top] := by
          have hne : stack ≠ [] := by
            intro hnil; simp [hnil] at hl
          rw [List.getLast?_eq_getLast _ hne] at hl
          cases hl
          exact (List.dropLast_append_getLast hne).symm
        have hcount : sideCount stack
            = sideCount stack.dropLast + sideCount [top] := by
          conv_lhs => rw [hs]
          simp [sideCount, List.countP_append]
        by_cases ht : top.kind = .SIDE_CONTEXT
        · have h1 : sideCount [top] = 1 := by simp [sideCount, ht]
          have hne1 : sideCount stack ≠ 1 := fun h1 => hcond ⟨ht, h1⟩
          omega
        · have h0 : sideCount [top] = 0 := by simp [sideCount, ht]
          omega
  | replaceAtSideLevel c hc =>
    simp only [StackOp.apply, replaceAtSideLevel]
    have h1 : sideCount (replaceFirstSide c stack.reverse).reverse
        = sideCount (replaceFirstSide c stack.reverse) := by
      simp [sideCount]
    have h2 : sideCount stack.reverse = sideCount stack := by simp [sideCount]
    rw [h1, sideCount_replaceFirstSide c hc, h2]
    exact h

/-- A context stack operation that does not push a side context keeps exactly one side
context in the stack. -/
theorem sideCount_apply_one (stack : List Context) (op : StackOp)
    (h : sideCount stack = 1) (hop : ∀ c, op = .push c → c.kind ≠ .SIDE_CONTEXT) :
    sideCount (op.apply stack) = 1 := by
  cases op with
  | push c =>
    have hc : c.kind ≠ .SIDE_CONTEXT := hop c rfl
    simp only [StackOp.apply, pushContext, sideCount, List.countP_append] at h ⊢
    simp [hc, h]
  | pop =>
    simp only [StackOp.apply, popContext]
    cases hl : stack.getLast? with
    | none => simpa using h
    | some top =>
      simp only []
      split_ifs with hcond
      · exact h
      · have hs : stack = stack.dropLast ++ [top] := by
          have hne : stack ≠ [] := by
            intro hnil; simp [hnil] at hl
          rw [List.getLast?_eq_getLast _ hne] at hl
          cases hl
          exact (List.dropLast_append_getLast hne).symm
        have hcount : sideCount stack
            = sideCount stack.dropLast + sideCount [top] := by
          conv_lhs => rw [hs]
          simp [sideCount, List.countP_append]
        by_cases ht : top.kind = .SIDE_CONTEXT
        · exact absurd ⟨ht, h⟩ hcond
        · have h0 : sideCount [top] = 0 := by simp [sideCount, ht]
          omega
  | replaceAtSideLevel c hc =>
    simp only [StackOp.apply, replaceAtSideLevel]
    have h1 : sideCount (replaceFirstSide c stack.reverse).reverse
        = sideCount (replaceFirstSide c stack.reverse) := by
      simp [sideCount]
    have h2 : sideCount stack.reverse = sideCount stack := by simp [sideCount]
    rw [h1, sideCount_replaceFirstSide c hc, h2]
    exact h

/-- C6: for every sequence of push, pop and replace-at-side-level operations starting from
the initial single-element stack that holds a side context, the context stack is never
empty and contains a side-kind context; and when the contexts pushed are non-side
contexts, which are the ones the spec layers above the side context by push and pop, the
stack always contains one and only one side-kind context. -/
theorem contextStack_one_side (c0 : Context) (ops : List StackOp)
    (h0 : c0.kind = .SIDE_CONTEXT) :
    (runStackOps [c0] ops ≠ [] ∧ 1 ≤ sideCount (runStackOps [c0] ops)) ∧
    ((∀ c, StackOp.push c ∈ ops → c.kind ≠ .SIDE_CONTEXT) →
      sideCount (runStackOps [c0] ops) = 1) := by
  have key : ∀ (ops : List StackOp) (stack : List Context), 1 ≤ sideCount stack →
      1 ≤ sideCount (runStackOps stack ops) := by
    intro ops
    induction ops with
    | nil => intro stack h; exact h
    | cons op rest ih =>
      intro stack h
      exact ih (op.apply stack) (sideCount_apply stack op h)
  have keyOne : ∀ (ops : List StackOp) (stack : List Context), sideCount stack = 1 →
      (∀ c, StackOp.push c ∈ ops → c.kind ≠ .SIDE_CONTEXT) →
      sideCount (runStackOps stack ops) = 1 := by
    intro ops
    induction ops with
    | nil => intro stack h _; exact h
    | cons op rest ih =>
      intro stack h hops
      refine ih (op.apply stack) (sideCount_apply_one stack op h ?_) ?_
      · intro c hc
        exact hops c (by rw [hc]; exact List.mem_cons_self _ _)
      · intro c hc
        exact hops c (List.mem_cons_of_mem _ hc)
  have h := key ops [c0] (by simp [sideCount, h0])
  refine ⟨⟨?_, h⟩, keyOne ops [c0] (by simp [sideCount, h0])⟩
  intro hnil
  rw [hnil] at h
  simp [sideCount] at h

/-- C6, at a concrete run: from the files panel, a menu is pushed, the side slot is given
to the branches panel, the main panel is pushed, and the stack is popped three times: the
branches panel remains, alone. -/
theorem contextStack_one_side_witness :
    runStackOps [⟨"files", .SIDE_CONTEXT, "files"⟩]
        [.push ⟨"menu", .TEMPORARY_POPUP, "menu"⟩,
          .replaceAtSideLevel ⟨"localBranches", .SIDE_CONTEXT, "branches"⟩ rfl,
          .push ⟨"main", .MAIN_CONTEXT, "main"⟩, .pop, .pop, .pop]
      = [⟨"localBranches", .SIDE_CONTEXT, "branches"⟩] ∧
    sideCount (runStackOps [⟨"files", .SIDE_CONTEXT, "files"⟩]
        [.push ⟨"menu", .TEMPORARY_POPUP, "menu"⟩,
          .replaceAtSideLevel ⟨"localBranches", .SIDE_CONTEXT, "branches"⟩ rfl,
          .push ⟨"main", .MAIN_CONTEXT, "main"⟩, .pop, .pop, .pop]) = 1 :=
  ⟨by decide,
   (contextStack_one_side ⟨"files", .SIDE_CONTEXT, "files"⟩
    [.push ⟨"menu", .TEMPORARY_POPUP, "menu"⟩,
      .replaceAtSideLevel ⟨"localBranches", .SIDE_CONTEXT, "branches"⟩ rfl,
      .push ⟨"main", .MAIN_CONTEXT, "main"⟩, .pop, .pop, .pop] rfl).2
    (by
      intro c hc
      simp only [List.mem_cons, StackOp.push.injEq, reduceCtorEq, List.not_mem_nil,
        or_false, false_or] at hc
      rcases hc with hc | hc <;> subst hc <;> decide)⟩

/-! ## Task pipeline -/

/-- No event lowers the generation of a panel or withdraws a termination request. -/
theorem Panel.step_mono (q : Panel) (e : PanelEvent) :
    q.generation ≤ (q.step e).generation ∧
    ∀ g, g ∈ q.terminated → g ∈ (q.step e).terminated := by
  cases e with
  | submit task =>
    cases task <;>
      (simp only [Panel.step, Panel.submit]
       refine ⟨by omega, fun g hg => ?_⟩
       split_ifs
       · exact List.mem_cons_of_mem _ hg
       · exact hg)
  | output gen line =>
    simp only [Panel.step]
    split_ifs <;> exact ⟨le_refl _, fun g hg => hg⟩
  | completed gen lines =>
    simp only [Panel.step]
    split_ifs <;> exact ⟨le_refl _, fun g hg => hg⟩

/-- An event of a producer whose generation is stale leaves the panel as it is. -/
theorem Panel.step_stale (q : Panel) (g : Nat) (e : PanelEvent) (hg : g < q.generation)
    (he : e.isFrom g = true) : q.step e = q := by
  cases e with
  | submit task => simp [PanelEvent.isFrom] at he
  | output gen line =>
    simp only [PanelEvent.isFrom, decide_eq_true_eq] at he
    have : gen ≠ q.generation := by omega
    simp [Panel.step, this]
  | completed gen lines =>
    simp only [PanelEvent.isFrom, decide_eq_true_eq] at he
    have : gen ≠ q.generation := by omega
    simp [Panel.step, this]

/-- Once a generation is stale, the events of its producer have no effect on a run, and
the termination requests made so far stay recorded. -/
theorem Panel.run_stale (events : List PanelEvent) (q : Panel) (g : Nat)
    (hg : g < q.generation) :
    q.run events = q.run (events.filter (fun e => !e.isFrom g)) ∧
    ∀ t, t ∈ q.terminated → t ∈ (q.run events).terminated := by
  induction events generalizing q with
  | nil => exact ⟨rfl, fun t ht => ht⟩
  | cons e rest ih =>
    by_cases he : e.isFrom g = true
    · have hq := Panel.step_stale q g e hg he
      obtain ⟨h1, h2⟩ := ih q hg
      refine ⟨?_, ?_⟩
      · simp only [Panel.run, List.foldl_cons, hq, List.filter_cons, he, Bool.not_true,
          Bool.false_eq_true, if_false]
        exact h1
      · intro t ht
        simp only [Panel.run, List.foldl_cons, hq]
        exact h2 t ht
    · obtain ⟨hm1, hm2⟩ := Panel.step_mono q e
      obtain ⟨h1, h2⟩ := ih (q.step e) (lt_of_lt_of_le hg hm1)
      simp only [Bool.not_eq_true] at he
      refine ⟨?_, ?_⟩
      · simp only [Panel.run, List.foldl_cons, List.filter_cons, he, Bool.not_false,
          if_true]
        exact h1
      · intro t ht
        simp only [Panel.run, List.foldl_cons]
        exact h2 t (hm2 t ht)

/-- C8: when a task is submitted for a panel that is running a streaming task, the
process of that task is asked to terminate, and whatever the events that follow, the
panel is in the state it would be in without any of the output the superseded task
produces after the submission: none of it reaches the buffer. -/
theorem submit_supersedes (p : Panel) (task : UpdateTask) (events : List PanelEvent)
    (hrun : p.producer = some .streaming) :
    p.generation ∈ (p.submit task).terminated ∧
    p.generation ∈ ((p.submit task).run events).terminated ∧
    (p.submit task).run events
      = (p.submit task).run (events.filter (fun e => !e.isFrom p.generation)) ∧
    ((p.submit task).run events).buffer
      = ((p.submit task).run (events.filter (fun e => !e.isFrom p.generation))).buffer := by
  have hterm : p.generation ∈ (p.submit task).terminated := by
    cases task <;> simp [Panel.submit, hrun]
  have hgen : p.generation < (p.submit task).generation := by
    cases task <;> simp [Panel.submit]
  obtain ⟨h1, h2⟩ := Panel.run_stale events (p.submit task) p.generation hgen
  exact ⟨hterm, h2 _ hterm, h1, congrArg Panel.buffer h1⟩

/-- C8, at the example of the spec: a streaming task writes "a" and "b" and is superseded
before it writes "c"; the buffer is exactly `["a", "b"]` and the task was asked to
terminate. -/
theorem submit_supersedes_witness :
    (Panel.run ⟨0, [], none, []⟩
        [.submit .streaming, .output 1 "a", .output 1 "b", .submit .streaming,
          .output 1 "c"]).buffer = ["a", "b"] ∧
    1 ∈ (Panel.run ⟨0, [], none, []⟩
        [.submit .streaming, .output 1 "a", .output 1 "b", .submit .streaming,
          .output 1 "c"]).terminated ∧
    ((Panel.submit ⟨1, ["a", "b"], some .streaming, []⟩ .streaming).run
        [.output 1 "c"]).buffer
      = ((Panel.submit ⟨1, ["a", "b"], some .streaming, []⟩ .streaming).run
          ([PanelEvent.output 1 "c"].filter (fun e => !e.isFrom 1))).buffer :=
  ⟨by decide, by decide,
    (submit_supersedes ⟨1, ["a", "b"], some .streaming, []⟩ .streaming [.output 1 "c"]
      rfl).2.2.2⟩

/-! ## Box layout engine -/

/-- Unfolding of `Arrange` at any box. -/
theorem Arrange_eq (b : Box) (x y w h : Int) :
    Arrange b x y w h
      = if (b.materialize w h).isEmpty then
          (if b.Window ≠ "" then [⟨b.Window, x, y, w, h⟩] else [])
        else ArrangeChildren (b.materialize w h) (b.childRects x y w h) := by
  cases b with
  | mk dir children cond window size weight =>
    cases cond with
    | none =>
      rw [Arrange]
      simp only [Box.materialize, Box.ConditionalChildren, Box.Children, Box.childRects,
        Box.available, Box.Direction, Box.Window]
    | some f =>
      rw [Arrange]
      simp only [Box.materialize, Box.ConditionalChildren, Box.Children, Box.childRects,
        Box.available, Box.Direction, Box.Window]

/-- Unfolding of `ArrangeChildren` at a non-empty list of children. -/
theorem ArrangeChildren_cons (c : Box) (cs : List Box) (rects : List Rectangle) :
    ArrangeChildren (c :: cs) rects
      = Arrange c (rects.headD ⟨"", 0, 0, 0, 0⟩).x (rects.headD ⟨"", 0, 0, 0, 0⟩).y
          (rects.headD ⟨"", 0, 0, 0, 0⟩).width (rects.headD ⟨"", 0, 0, 0, 0⟩).height
        ++ ArrangeChildren cs rects.tail := by
  rw [ArrangeChildren]

/-- A well-formed box has no negative size or weight. -/
theorem Box.WellFormed.size_weight {b : Box} (hwf : b.WellFormed) :
    0 ≤ b.Size ∧ 0 ≤ b.Weight := by
  cases hwf with
  | mk dir children cond window size weight hsize hweight hchildren hcond =>
    exact ⟨hsize, hweight⟩

/-- The children of a well-formed box in a layout pass are well-formed. -/
theorem Box.WellFormed.materialize {b : Box} (hwf : b.WellFormed) (w h : Int) :
    ∀ c ∈ b.materialize w h, c.WellFormed := by
  cases hwf with
  | mk dir children cond window size weight hsize hweight hchildren hcond =>
    cases cond with
    | none => exact hchildren
    | some f => exact hcond f rfl w h

/-- Every child has one extent. -/
theorem allot_length (u e : Int) (cs : List Box) : (allot u e cs).length = cs.length := by
  induction cs with
  | nil => rfl
  | cons c rest ih => simp [allot, ih]

/-- Every child has one extent. -/
theorem childExtents_length (a : Int) (cs : List Box) :
    (childExtents a cs).length = cs.length := by
  simp [childExtents, allot_length]

/-- No extent is negative when the unit, the remainder and the sizes are not. -/
theorem allot_nonneg (u e : Int) (hu : 0 ≤ u) (he : 0 ≤ e) (cs : List Box)
    (hcs : ∀ c ∈ cs, 0 ≤ c.Size) : ∀ v ∈ allot u e cs, 0 ≤ v := by
  induction cs with
  | nil => intro v hv; simp [allot] at hv
  | cons c rest ih =>
    intro v hv
    simp only [allot, List.mem_cons] at hv
    rcases hv with hv | hv
    · subst hv
      have hsz := hcs c (List.mem_cons_self _ _)
      split_ifs with h1 h2 h3
      · exact hsz
      · have hw : 0 < c.Weight := by
          simp only [Box.isWeighted, Bool.and_eq_true, decide_eq_true_eq] at h2
          exact h2.2
        exact add_nonneg (mul_nonneg hu (le_of_lt hw)) he
      · have hw : 0 < c.Weight := by
          simp only [Box.isWeighted, Bool.and_eq_true, decide_eq_true_eq] at h2
          exact h2.2
        exact mul_nonneg hu (le_of_lt hw)
      · exact le_refl _
    · exact ih (fun c hc => hcs c (List.mem_cons_of_mem _ hc)) v hv

/-- The total weight is not negative. -/
theorem totalWeight_nonneg (cs : List Box) : 0 ≤ totalWeight cs := by
  induction cs with
  | nil => simp [totalWeight]
  | cons c rest ih =>
    simp only [totalWeight, List.map_cons, List.sum_cons] at ih ⊢
    split_ifs with h
    · have hw : 0 < c.Weight := by
        simp only [Box.isWeighted, Bool.and_eq_true, decide_eq_true_eq] at h
        exact h.2
      omega
    · omega

/-- The total weight is positive as soon as one child is weighted. -/
theorem totalWeight_pos (cs : List Box) (h : ∃ c ∈ cs, c.isWeighted = true) :
    0 < totalWeight cs := by
  induction cs with
  | nil => obtain ⟨c, hc, _⟩ := h; simp at hc
  | cons c rest ih =>
    have hrest := totalWeight_nonneg rest
    simp only [totalWeight, List.map_cons, List.sum_cons] at ih hrest ⊢
    by_cases hc : c.isWeighted = true
    · have hw : 0 < c.Weight := by
        simp only [Box.isWeighted, Bool.and_eq_true, decide_eq_true_eq] at hc
        exact hc.2
      simp only [hc, if_true]
      omega
    · obtain ⟨d, hd, hdw⟩ := h
      rcases List.mem_cons.mp hd with hd | hd
      · subst hd; exact absurd hdw hc
      · have := ih ⟨d, hd, hdw⟩
        rw [if_neg hc]
        omega

/-- No extent is negative when no size is. -/
theorem childExtents_nonneg (a : Int) (cs : List Box) (hcs : ∀ c ∈ cs, 0 ≤ c.Size) :
    ∀ v ∈ childExtents a cs, 0 ≤ v := by
  unfold childExtents
  apply allot_nonneg _ _ _ _ cs hcs
  · split_ifs with h
    · exact Int.ediv_nonneg (le_max_left _ _) (le_of_lt h)
    · exact le_refl _
  · split_ifs with h
    · exact Int.emod_nonneg _ (ne_of_gt h)
    · exact le_refl _

/-- The extents sum to the fixed sizes, the unit times the total weight, and the rounding
remainder when there is a weighted child to take it. -/
theorem allot_sum (u e : Int) (cs : List Box) :
    (allot u e cs).sum
      = reservedSize cs + u * totalWeight cs
        + (if cs.all (fun b => !b.isWeighted) then 0 else e) := by
  induction cs with
  | nil => simp [allot, reservedSize, totalWeight]
  | cons c rest ih =>
    simp only [allot, List.sum_cons, ih, reservedSize, totalWeight, List.map_cons,
      List.all_cons]
    by_cases hf : c.isFixed = true
    · have hnw : c.isWeighted = false := by simp [Box.isWeighted, hf]
      simp only [hf, hnw, Bool.false_eq_true, if_false, if_true, Bool.not_false,
        Bool.true_and]
      ring
    · have hf' : c.isFixed = false := by simpa using hf
      by_cases hw : c.isWeighted = true
      · simp only [hf', hw, Bool.false_eq_true, if_false, if_true, Bool.not_true,
          Bool.false_and]
        split_ifs <;> ring
      · have hw' : c.isWeighted = false := by simpa using hw
        simp only [hf', hw', Bool.false_eq_true, if_false, Bool.not_false, Bool.true_and]
        ring

/-- With a weighted child and fixed sizes that fit, the extents sum to the extent of the
parent. -/
theorem childExtents_sum (a : Int) (cs : List Box) (hw : ∃ c ∈ cs, c.isWeighted = true)
    (hfit : reservedSize cs ≤ a) : (childExtents a cs).sum = a := by
  have hpos := totalWeight_pos cs hw
  have hall : cs.all (fun b => !b.isWeighted) = false := by
    obtain ⟨c, hc, hcw⟩ := hw
    rw [Bool.eq_false_iff]
    intro hall
    rw [List.all_eq_true] at hall
    have := hall c hc
    simp [hcw] at this
  unfold childExtents
  rw [allot_sum]
  simp only [hpos, if_true, hall, Bool.false_eq_true, if_false]
  have hmax : max 0 (a - reservedSize cs) = a - reservedSize cs :=
    max_eq_right (by omega)
  rw [hmax]
  have := Int.ediv_add_emod (a - reservedSize cs) (totalWeight cs)
  rw [mul_comm] at this
  omega

/-- The extent of the child at index `i`. -/
theorem allot_getElem? (u e : Int) (cs : List Box) (i : Nat) (c : Box)
    (hc : cs[i]? = some c) :
    (allot u e cs)[i]?
      = some (if c.isFixed then c.Size
          else if c.isWeighted then
            if (cs.drop (i + 1)).all (fun b => !b.isWeighted) then u * c.Weight + e
            else u * c.Weight
          else 0) := by
  induction cs generalizing i with
  | nil => simp at hc
  | cons d rest ih =>
    cases i with
    | zero =>
      simp only [List.getElem?_cons_zero, Option.some.injEq] at hc
      subst hc
      simp [allot]
    | succ i =>
      simp only [List.getElem?_cons_succ] at hc
      simp only [allot, List.getElem?_cons_succ, List.drop_succ_cons]
      exact ih i hc

/-- Every child has one sub-rectangle. -/
theorem placeChildren_length (dir : Direction) (x y w h : Int) (cs : List Box)
    (exts : List Int) : (placeChildren dir x y w h cs exts).length = cs.length := by
  induction cs generalizing x y exts with
  | nil => rfl
  | cons c rest ih =>
    simp only [placeChildren]
    split_ifs <;> simp [ih]

/-- The sub-rectangle of the child at index `i`: it starts where the extents of the
children before it end, has the extent of its slot along the split axis, and spans the
parent across it. -/
theorem placeChildren_getElem? (dir : Direction) (x y w h : Int) (cs : List Box)
    (exts : List Int) (hlen : exts.length = cs.length) (i : Nat) (r : Rectangle)
    (hr : (placeChildren dir x y w h cs exts)[i]? = some r) :
    r.start dir = (if dir = .ROW then x else y) + (exts.take i).sum ∧
    some (r.extent dir) = exts[i]? ∧
    r.crossStart dir = (if dir = .ROW then y else x) ∧
    r.crossExtent dir = (if dir = .ROW then h else w) ∧
    some r.window = cs[i]?.map Box.Window := by
  induction cs generalizing x y exts i with
  | nil => simp [placeChildren] at hr
  | cons c rest ih =>
    cases exts with
    | nil => simp at hlen
    | cons e es =>
      have hl : es.length = rest.length := by simpa using hlen
      cases i with
      | zero =>
        by_cases hd : dir = .ROW
        · simp only [placeChildren, hd, if_true, List.headD_cons, List.getElem?_cons_zero,
            Option.some.injEq] at hr
          subst hr
          simp [Rectangle.start, Rectangle.extent, Rectangle.crossStart,
            Rectangle.crossExtent, hd]
        · simp only [placeChildren, hd, if_false, List.headD_cons, List.getElem?_cons_zero,
            Option.some.injEq] at hr
          subst hr
          simp [Rectangle.start, Rectangle.extent, Rectangle.crossStart,
            Rectangle.crossExtent, hd]
      | succ i =>
        by_cases hd : dir = .ROW
        · simp only [placeChildren, hd, if_true, List.headD_cons, List.tail_cons,
            List.getElem?_cons_succ] at hr
          have := ih (x + e) y es hl i (by rw [hd]; exact hr)
          simp only [hd, if_true] at this ⊢
          simp only [List.take_succ_cons, List.sum_cons, List.getElem?_cons_succ]
          refine ⟨by rw [this.1]; ring, this.2.1, this.2.2.1, this.2.2.2.1, this.2.2.2.2⟩
        · simp only [placeChildren, hd, if_false, List.headD_cons, List.tail_cons,
            List.getElem?_cons_succ] at hr
          have := ih x (y + e) es hl i (by simpa [hd] using hr)
          simp only [hd, if_false] at this ⊢
          simp only [List.take_succ_cons, List.sum_cons, List.getElem?_cons_succ]
          refine ⟨by rw [this.1]; ring, this.2.1, this.2.2.1, this.2.2.2.1, this.2.2.2.2⟩

/-- The sub-rectangles of the children have no negative width or height when the parent
has none and no extent is negative. -/
theorem placeChildren_nonneg (dir : Direction) (x y w h : Int) (cs : List Box)
    (exts : List Int) (hlen : exts.length = cs.length) (hw : 0 ≤ w) (hh : 0 ≤ h)
    (hexts : ∀ e ∈ exts, 0 ≤ e) :
    ∀ r ∈ placeChildren dir x y w h cs exts, 0 ≤ r.width ∧ 0 ≤ r.height := by
  intro r hr
  obtain ⟨i, hi, hri⟩ := List.mem_iff_getElem.mp hr
  have hget : (placeChildren dir x y w h cs exts)[i]? = some r := by
    rw [List.getElem?_eq_getElem hi, hri]
  obtain ⟨_, hext, _, hcross, _⟩ := placeChildren_getElem? dir x y w h cs exts hlen i r hget
  have hi' : i < exts.length := by
    rw [placeChildren_length] at hi; omega
  rw [List.getElem?_eq_getElem hi', Option.some.injEq] at hext
  have hnn : 0 ≤ r.extent dir := by
    rw [hext]; exact hexts _ (List.getElem_mem _)
  cases dir with
  | ROW =>
    simp only [Rectangle.extent, Rectangle.crossExtent, if_true] at hnn hcross
    exact ⟨hnn, by rw [hcross]; exact hh⟩
  | COLUMN =>
    simp only [Rectangle.extent, Rectangle.crossExtent, reduceCtorEq, if_false] at hnn hcross
    exact ⟨by rw [hcross]; exact hw, hnn⟩

/-- The leaves under a list of children have no negative width or height when those of
each child have none in any rectangle without negative width or height. -/
theorem ArrangeChildren_nonneg (cs : List Box) (rects : List Rectangle)
    (hcs : ∀ c ∈ cs, ∀ x y w h : Int, 0 ≤ w → 0 ≤ h →
      ∀ r ∈ Arrange c x y w h, 0 ≤ r.width ∧ 0 ≤ r.height)
    (hrects : ∀ r ∈ rects, 0 ≤ r.width ∧ 0 ≤ r.height) :
    ∀ r ∈ ArrangeChildren cs rects, 0 ≤ r.width ∧ 0 ≤ r.height := by
  induction cs generalizing rects with
  | nil => intro r hr; rw [ArrangeChildren] at hr; simp at hr
  | cons c rest ih =>
    intro r hr
    rw [ArrangeChildren_cons, List.mem_append] at hr
    have hhead : 0 ≤ (rects.headD ⟨"", 0, 0, 0, 0⟩).width ∧
        0 ≤ (rects.headD ⟨"", 0, 0, 0, 0⟩).height := by
      cases rects with
      | nil => simp
      | cons r0 rs => exact hrects r0 (List.mem_cons_self _ _)
    rcases hr with hr | hr
    · exact hcs c (List.mem_cons_self _ _) _ _ _ _ hhead.1 hhead.2 r hr
    · exact ih rects.tail (fun c hc => hcs c (List.mem_cons_of_mem _ hc))
        (fun r hr => hrects r (List.mem_of_mem_tail hr)) r hr

/-- The children of a well-formed box get sub-rectangles without negative width or
height. -/
theorem childRects_nonneg (b : Box) (hwf : b.WellFormed) (x y w h : Int) (hw : 0 ≤ w)
    (hh : 0 ≤ h) : ∀ r ∈ b.childRects x y w h, 0 ≤ r.width ∧ 0 ≤ r.height := by
  unfold Box.childRects
  apply placeChildren_nonneg _ _ _ _ _ _ _ (childExtents_length _ _) hw hh
  exact childExtents_nonneg _ _ (fun c hc => (hwf.materialize w h c hc).size_weight.1)

/-- Every leaf of a well-formed box gets a rectangle without negative width or height. -/
theorem Arrange_nonneg (b : Box) (hwf : b.WellFormed) :
    ∀ x y w h : Int, 0 ≤ w → 0 ≤ h →
      ∀ r ∈ Arrange b x y w h, 0 ≤ r.width ∧ 0 ≤ r.height := by
  induction hwf with
  | mk dir children cond window size weight hsize hweight hchildren hcond ih1 ih2 =>
    intro x y w h hw hh r hr
    have hwf : (Box.mk dir children cond window size weight).WellFormed :=
      .mk dir children cond window size weight hsize hweight hchildren hcond
    rw [Arrange_eq] at hr
    split_ifs at hr with hempty hwin
    · simp only [List.mem_singleton] at hr
      subst hr
      exact ⟨hw, hh⟩
    · simp at hr
    · refine ArrangeChildren_nonneg _ _ ?_ (childRects_nonneg _ hwf x y w h hw hh) r hr
      intro c hc
      cases cond with
      | none => exact ih1 c hc
      | some f => exact ih2 f rfl w h c hc

/-- Every box laid out under a well-formed root, in a rectangle without negative width
or height, is well-formed and gets a rectangle without negative width or height. -/
theorem LaidOut.wellFormed {root : Box} {x y w h : Int} (hwf : root.WellFormed)
    (hw : 0 ≤ w) (hh : 0 ≤ h) {p : Box} {pr : Rectangle}
    (hp : LaidOut root x y w h p pr) :
    p.WellFormed ∧ 0 ≤ pr.width ∧ 0 ≤ pr.height := by
  induction hp with
  | root => exact ⟨hwf, hw, hh⟩
  | child p pr i c r hp hc hr ih =>
    obtain ⟨hpwf, hpw, hph⟩ := ih
    refine ⟨hpwf.materialize _ _ c (List.getElem?_mem hc), ?_⟩
    exact childRects_nonneg p hpwf _ _ _ _ hpw hph r (List.getElem?_mem hr)

/-- The extents of the sub-rectangles along the split axis are the extents allotted. -/
theorem placeChildren_extents (dir : Direction) (x y w h : Int) (cs : List Box)
    (exts : List Int) (hlen : exts.length = cs.length) :
    (placeChildren dir x y w h cs exts).map (Rectangle.extent dir) = exts := by
  induction cs generalizing x y exts with
  | nil =>
    have : exts = [] := List.length_eq_zero.mp (by simpa using hlen)
    simp [placeChildren, this]
  | cons c rest ih =>
    cases exts with
    | nil => simp at hlen
    | cons e es =>
      have hl : es.length = rest.length := by simpa using hlen
      by_cases hd : dir = .ROW
      · simp only [placeChildren, hd, if_true, List.headD_cons, List.tail_cons, List.map_cons]
        rw [← hd, ih _ _ es hl]
        simp [Rectangle.extent, hd]
      · simp only [placeChildren, hd, if_false, List.headD_cons, List.tail_cons,
          List.map_cons]
        rw [ih _ _ es hl]
        simp [Rectangle.extent, hd]

/-- The extents of the sub-rectangles of the children of a box laid out in `pr`. -/
theorem rectsIn_extents (p : Box) (pr : Rectangle) :
    (p.rectsIn pr).map (Rectangle.extent p.Direction)
      = childExtents (pr.extent p.Direction) (p.childrenIn pr) := by
  unfold Box.rectsIn Box.childRects
  rw [placeChildren_extents _ _ _ _ _ _ _ (childExtents_length _ _)]
  rfl

/-- A box laid out under a box laid out under the root is laid out under the root. -/
theorem LaidOut.trans {root : Box} {x y w h : Int} {c : Box} {r : Rectangle} {p : Box}
    {pr : Rectangle} (h1 : LaidOut root x y w h c r) (hwin : r.window = c.Window)
    (h2 : LaidOut c r.x r.y r.width r.height p pr) : LaidOut root x y w h p pr := by
  induction h2 with
  | root =>
    have : (⟨c.Window, r.x, r.y, r.width, r.height⟩ : Rectangle) = r := by
      rw [← hwin]
    rw [this]
    exact h1
  | child p pr i d s _ hc hr ih => exact LaidOut.child p pr i d s ih hc hr

/-- The sub-rectangle of a child carries the window name of the child. -/
theorem childRects_window (b : Box) (x y w h : Int) (i : Nat) (c : Box) (r : Rectangle)
    (hc : (b.materialize w h)[i]? = some c) (hr : (b.childRects x y w h)[i]? = some r) :
    r.window = c.Window := by
  obtain ⟨_, _, _, _, hwin⟩ := placeChildren_getElem? b.Direction x y w h (b.materialize w h)
    (childExtents (b.available w h) (b.materialize w h)) (childExtents_length _ _) i r hr
  rw [hc] at hwin
  simpa using hwin

/-- A box laid out under `b` is `b` itself or is laid out under one of its children. -/
theorem LaidOut.head {b : Box} {x y w h : Int} {p : Box} {pr : Rectangle}
    (hp : LaidOut b x y w h p pr) :
    (p = b ∧ pr = ⟨b.Window, x, y, w, h⟩) ∨
    ∃ (i : Nat) (c : Box) (r : Rectangle), (b.materialize w h)[i]? = some c ∧
      (b.childRects x y w h)[i]? = some r ∧ LaidOut c r.x r.y r.width r.height p pr := by
  induction hp with
  | root => exact Or.inl ⟨rfl, rfl⟩
  | child p pr i c r hp hc hr ih =>
    right
    rcases ih with ⟨hpb, hpr⟩ | ⟨i0, c0, r0, hc0, hr0, h0⟩
    · subst hpb
      subst hpr
      refine ⟨i, c, r, hc, hr, ?_⟩
      have hwin := childRects_window p x y w h i c r hc hr
      have : (⟨c.Window, r.x, r.y, r.width, r.height⟩ : Rectangle) = r := by
        rw [← hwin]
      rw [← this]
      exact LaidOut.root
    · exact ⟨i0, c0, r0, hc0, hr0, LaidOut.child p pr i c r h0 hc hr⟩

/-- The leaves under a list of children are the leaves of each child in its slot. -/
theorem ArrangeChildren_mem (cs : List Box) (rects : List Rectangle)
    (hlen : rects.length = cs.length) (r : Rectangle) :
    r ∈ ArrangeChildren cs rects ↔
      ∃ (i : Nat) (c : Box) (ri : Rectangle), cs[i]? = some c ∧ rects[i]? = some ri ∧
        r ∈ Arrange c ri.x ri.y ri.width ri.height := by
  induction cs generalizing rects with
  | nil =>
    rw [ArrangeChildren]
    simp
  | cons c rest ih =>
    cases rects with
    | nil => simp at hlen
    | cons r0 rs =>
      have hl : rs.length = rest.length := by simpa using hlen
      rw [ArrangeChildren_cons, List.mem_append]
      simp only [List.headD_cons, List.tail_cons]
      rw [ih rs hl]
      constructor
      · rintro (h0 | ⟨i, d, ri, hd, hri, hmem⟩)
        · exact ⟨0, c, r0, by simp, by simp, h0⟩
        · exact ⟨i + 1, d, ri, by simpa using hd, by simpa using hri, hmem⟩
      · rintro ⟨i, d, ri, hd, hri, hmem⟩
        cases i with
        | zero =>
          simp only [List.getElem?_cons_zero, Option.some.injEq] at hd hri
          subst hd
          subst hri
          exact Or.inl hmem
        | succ i =>
          exact Or.inr ⟨i, d, ri, by simpa using hd, by simpa using hri, hmem⟩

/-- The rectangles `Arrange` returns are those of the boxes it lays out that have no
children in their rectangle and name a window. -/
theorem Arrange_mem_iff (b : Box) (hwf : b.WellFormed) :
    ∀ (x y w h : Int) (r : Rectangle),
      r ∈ Arrange b x y w h ↔
        ∃ (p : Box) (pr : Rectangle), LaidOut b x y w h p pr ∧ p.childrenIn pr = [] ∧
          p.Window ≠ "" ∧ r = ⟨p.Window, pr.x, pr.y, pr.width, pr.height⟩ := by
  induction hwf with
  | mk dir children cond window size weight hsize hweight hchildren hcond ih1 ih2 =>
    intro x y w h r
    have ih : ∀ c ∈ (Box.mk dir children cond window size weight).materialize w h,
        ∀ (x y w h : Int) (r : Rectangle),
          r ∈ Arrange c x y w h ↔
            ∃ (p : Box) (pr : Rectangle), LaidOut c x y w h p pr ∧ p.childrenIn pr = [] ∧
              p.Window ≠ "" ∧ r = ⟨p.Window, pr.x, pr.y, pr.width, pr.height⟩ := by
      intro c hc
      cases cond with
      | none => exact ih1 c hc
      | some f => exact ih2 f rfl w h c hc
    generalize Box.mk dir children cond window size weight = b at ih ⊢
    have hlen : (b.childRects x y w h).length = (b.materialize w h).length := by
      unfold Box.childRects
      rw [placeChildren_length]
    rw [Arrange_eq]
    constructor
    · intro hr
      split_ifs at hr with hempty hwin
      · simp only [List.mem_singleton] at hr
        exact ⟨b, ⟨b.Window, x, y, w, h⟩, LaidOut.root, by simpa [Box.childrenIn] using hempty,
          hwin, hr⟩
      · simp at hr
      · obtain ⟨i, c, ri, hc, hri, hmem⟩ := (ArrangeChildren_mem _ _ hlen r).mp hr
        obtain ⟨p, pr, hp, hleaf, hwin, hreq⟩ :=
          (ih c (List.getElem?_mem hc) ri.x ri.y ri.width ri.height r).mp hmem
        have hci : LaidOut b x y w h c ri :=
          LaidOut.child b ⟨b.Window, x, y, w, h⟩ i c ri LaidOut.root hc hri
        exact ⟨p, pr, hci.trans (childRects_window b x y w h i c ri hc hri) hp, hleaf, hwin,
          hreq⟩
    · rintro ⟨p, pr, hp, hleaf, hwin, hreq⟩
      rcases hp.head with ⟨hpb, hpr⟩ | ⟨i, c, ri, hc, hri, hci⟩
      · subst hpb
        subst hpr
        have hempty : (p.materialize w h).isEmpty = true := by
          simpa [Box.childrenIn] using hleaf
        rw [if_pos hempty, if_pos hwin, hreq]
        exact List.mem_singleton.mpr rfl
      · have hne : ¬ (b.materialize w h).isEmpty = true := by
          intro hempty
          rw [List.isEmpty_iff] at hempty
          rw [hempty] at hc
          simp at hc
        rw [if_neg hne]
        refine (ArrangeChildren_mem _ _ hlen r).mpr ⟨i, c, ri, hc, hri, ?_⟩
        exact (ih c (List.getElem?_mem hc) ri.x ri.y ri.width ri.height r).mpr
          ⟨p, pr, hci, hleaf, hwin, hreq⟩

/-- C7 (as amended): for every box tree without negative size or weight and every width
and height `≥ 0`, the layout gives every leaf window a rectangle of non-negative width
and height, the rectangles it returns being those of the childless window boxes it lays
out; every box it lays out has a rectangle of non-negative width and height, whose
children are packed in declared order from its origin with no gap or overlap, each
spanning it across the split axis; and when the box has a weighted child and its fixed
sizes total at most its extent, the children's extents along the split axis sum exactly
to that extent, each weighted child having the unit size times its weight and the last
weighted child the rounding remainder in addition. -/
theorem arrange_layout (root : Box) (x y w h : Int) (hwf : root.WellFormed) (hw : 0 ≤ w)
    (hh : 0 ≤ h) :
    (∀ r ∈ Arrange root x y w h, 0 ≤ r.width ∧ 0 ≤ r.height) ∧
    (∀ r : Rectangle, r ∈ Arrange root x y w h ↔
      ∃ (p : Box) (pr : Rectangle), LaidOut root x y w h p pr ∧ p.childrenIn pr = [] ∧
        p.Window ≠ "" ∧ r = ⟨p.Window, pr.x, pr.y, pr.width, pr.height⟩) ∧
    ∀ (p : Box) (pr : Rectangle), LaidOut root x y w h p pr →
      0 ≤ pr.width ∧ 0 ≤ pr.height ∧
      (p.rectsIn pr).length = (p.childrenIn pr).length ∧
      (∀ (i : Nat) (r : Rectangle), (p.rectsIn pr)[i]? = some r →
        0 ≤ r.width ∧ 0 ≤ r.height ∧
        r.start p.Direction = pr.start p.Direction
          + (((p.rectsIn pr).take i).map (Rectangle.extent p.Direction)).sum ∧
        r.crossStart p.Direction = pr.crossStart p.Direction ∧
        r.crossExtent p.Direction = pr.crossExtent p.Direction) ∧
      ((∃ c ∈ p.childrenIn pr, c.isWeighted = true) →
        reservedSize (p.childrenIn pr) ≤ pr.extent p.Direction →
        ((p.rectsIn pr).map (Rectangle.extent p.Direction)).sum = pr.extent p.Direction ∧
        ∀ (i : Nat) (c : Box) (r : Rectangle), (p.childrenIn pr)[i]? = some c →
          (p.rectsIn pr)[i]? = some r → c.isWeighted = true →
          r.extent p.Direction
            = p.remainingIn pr / totalWeight (p.childrenIn pr) * c.Weight
              + (if ((p.childrenIn pr).drop (i + 1)).all (fun b => !b.isWeighted) then
                  p.remainingIn pr % totalWeight (p.childrenIn pr)
                else 0)) := by
  refine ⟨Arrange_nonneg root hwf x y w h hw hh, Arrange_mem_iff root hwf x y w h, ?_⟩
  intro p pr hp
  obtain ⟨hpwf, hpw, hph⟩ := hp.wellFormed hwf hw hh
  have hlen : (p.rectsIn pr).length = (p.childrenIn pr).length := by
    unfold Box.rectsIn Box.childRects
    rw [placeChildren_length]
    rfl
  refine ⟨hpw, hph, hlen, ?_, ?_⟩
  · intro i r hr
    have hnn := childRects_nonneg p hpwf pr.x pr.y pr.width pr.height hpw hph r
      (List.getElem?_mem hr)
    obtain ⟨hstart, _, hcs, hce, _⟩ := placeChildren_getElem? p.Direction pr.x pr.y pr.width
      pr.height (p.materialize pr.width pr.height)
      (childExtents (p.available pr.width pr.height) (p.materialize pr.width pr.height))
      (childExtents_length _ _) i r hr
    refine ⟨hnn.1, hnn.2, ?_, ?_, ?_⟩
    · rw [List.map_take, rectsIn_extents, hstart]
      rfl
    · rw [hcs]; rfl
    · rw [hce]; rfl
  · intro hweighted hfit
    have hsum := childExtents_sum (pr.extent p.Direction) (p.childrenIn pr) hweighted hfit
    refine ⟨by rw [rectsIn_extents, hsum], ?_⟩
    intro i c r hc hr hcw
    have hmap : ((p.rectsIn pr).map (Rectangle.extent p.Direction))[i]?
        = some (r.extent p.Direction) := by
      rw [List.getElem?_map, hr]
      rfl
    rw [rectsIn_extents] at hmap
    have hpos := totalWeight_pos (p.childrenIn pr) hweighted
    have hfixed : c.isFixed = false := by
      simp only [Box.isWeighted, Bool.and_eq_true, Bool.not_eq_true'] at hcw
      exact hcw.1
    have hmax : max 0 (pr.extent p.Direction - reservedSize (p.childrenIn pr))
        = pr.extent p.Direction - reservedSize (p.childrenIn pr) :=
      max_eq_right (by omega)
    unfold childExtents at hmap
    rw [allot_getElem? _ _ _ i c hc] at hmap
    simp only [hpos, if_true, hfixed, hcw, Bool.false_eq_true, if_false, hmax,
      Option.some.injEq] at hmap
    rw [← hmap]
    unfold Box.remainingIn
    split_ifs <;> simp

/-- A window box without negative size or weight is well-formed. -/
theorem Box.window_wellFormed (window : String) (size weight : Int) (hs : 0 ≤ size)
    (hwt : 0 ≤ weight) : (Box.window window size weight).WellFormed :=
  .mk .ROW [] none window size weight hs hwt (fun _ hc => by simp at hc)
    (fun _ hf => by simp at hf)

/-- The example of the spec: a row of a box of weight 1 and a box of weight 3, at width 40
and height 10, gives widths 10 and 30, both of height 10, at x-origins 0 and 10. -/
theorem arrange_row_example :
    Arrange (.mk .ROW [Box.window "a" 0 1, Box.window "b" 0 3] none "" 0 0) 0 0 40 10
      = [⟨"a", 0, 0, 10, 10⟩, ⟨"b", 10, 0, 30, 10⟩] := by
  decide

/-- C7 (as amended), at the row of the spec's example. -/
theorem arrange_layout_witness :
    (0 : Int) ≤ 40 ∧ (0 : Int) ≤ 10 ∧
    (∀ r ∈ Arrange (.mk .ROW [Box.window "a" 0 1, Box.window "b" 0 3] none "" 0 0) 0 0 40 10,
      0 ≤ r.width ∧ 0 ≤ r.height) :=
  ⟨by decide, by decide,
    (arrange_layout (.mk .ROW [Box.window "a" 0 1, Box.window "b" 0 3] none "" 0 0) 0 0 40 10
      (.mk .ROW _ none "" 0 0 (le_refl _) (le_refl _)
        (fun c hc => by
          simp only [List.mem_cons, List.mem_singleton, List.not_mem_nil, or_false] at hc
          rcases hc with hc | hc <;> subst hc <;>
            exact Box.window_wellFormed _ _ _ (by decide) (by decide))
        (fun _ hf => by simp at hf))
      (by decide) (by decide)).1⟩

/-- C7 as stated fails: a row whose only child has the fixed size 3, laid out at width 10
and height 10, gives that child the width 3, so the extents of the children sum to 3 and
not to the extent 10 of the parent; and a row of a child of fixed size 7 and a child of
weight 1, laid out at width 5, gives them the widths 7 and 0, which sum to 7 and not
to 5. -/
theorem arrange_layout_counterexample :
    Arrange (.mk .ROW [Box.window "a" 3 0] none "" 0 0) 0 0 10 10
      = [⟨"a", 0, 0, 3, 10⟩] ∧
    ((Box.rectsIn (.mk .ROW [Box.window "a" 3 0] none "" 0 0) ⟨"", 0, 0, 10, 10⟩).map
        (Rectangle.extent .ROW)).sum
      ≠ Rectangle.extent .ROW ⟨"", 0, 0, 10, 10⟩ ∧
    Arrange (.mk .ROW [Box.window "a" 7 0, Box.window "b" 0 1] none "" 0 0) 0 0 5 10
      = [⟨"a", 0, 0, 7, 10⟩, ⟨"b", 7, 0, 0, 10⟩] ∧
    ((Box.rectsIn (.mk .ROW [Box.window "a" 7 0, Box.window "b" 0 1] none "" 0 0)
        ⟨"", 0, 0, 5, 10⟩).map (Rectangle.extent .ROW)).sum
      ≠ Rectangle.extent .ROW ⟨"", 0, 0, 5, 10⟩ := by
  decide

/-! ## Main panel scrolling -/

/-- C11 (as amended): `scrollUpMain` and `scrollDownMain` set the user-scrolling flag when
`canScrollMergePanel()` holds and leave it as it was otherwise; so after either the flag
is true when the merge panel can be scrolled or the flag was true before, and neither
ever resets it to false. -/
theorem scrollMain_userScrolling (cfg : GuiConfig) (managers : List String)
    (canScrollMergePanel : Bool) (s : MainScroll) :
    (scrollUpMain cfg canScrollMergePanel s).1.UserScrolling
      = (canScrollMergePanel || s.UserScrolling) ∧
    (scrollDownMain cfg managers canScrollMergePanel s).1.UserScrolling
      = (canScrollMergePanel || s.UserScrolling) ∧
    (s.UserScrolling = true →
      (scrollUpMain cfg canScrollMergePanel s).1.UserScrolling = true ∧
      (scrollDownMain cfg managers canScrollMergePanel s).1.UserScrolling = true) := by
  have hup : (scrollUpMain cfg canScrollMergePanel s).1.UserScrolling
      = (canScrollMergePanel || s.UserScrolling) := by
    unfold scrollUpMain
    cases canScrollMergePanel <;> simp only [] <;> split <;> simp
  have hdown : (scrollDownMain cfg managers canScrollMergePanel s).1.UserScrolling
      = (canScrollMergePanel || s.UserScrolling) := by
    unfold scrollDownMain
    cases canScrollMergePanel <;> simp only [] <;> split <;> simp
  refine ⟨hup, hdown, fun h => ?_⟩
  rw [hup, hdown, h]
  simp

/-- C11 (as amended), at a concrete state: the flag is already set, the merge panel cannot
be scrolled. -/
theorem scrollMain_userScrolling_witness :
    (scrollUpMain ⟨2, false, false, ""⟩ false
        ⟨true, ⟨"main", 0, 3, 80, 4, 10⟩⟩).1.UserScrolling = true ∧
    (scrollDownMain ⟨2, false, false, ""⟩ [] false
        ⟨true, ⟨"main", 0, 3, 80, 4, 10⟩⟩).1.UserScrolling = true :=
  (scrollMain_userScrolling ⟨2, false, false, ""⟩ [] false
    ⟨true, ⟨"main", 0, 3, 80, 4, 10⟩⟩).2.2 rfl

/-- C11 as stated fails: when `canScrollMergePanel()` is false and the flag is not set,
the flag is still not set after `scrollUpMain` and after `scrollDownMain`. -/
theorem scrollMain_userScrolling_counterexample :
    (scrollUpMain ⟨2, false, false, ""⟩ false
        ⟨false, ⟨"main", 0, 3, 80, 4, 10⟩⟩).1.UserScrolling = false ∧
    (scrollDownMain ⟨2, false, false, ""⟩ [] false
        ⟨false, ⟨"main", 0, 3, 80, 4, 10⟩⟩).1.UserScrolling = false := by
  decide

/-! ## Arrangement: split, stash box, accordion, main section -/

/-- C12: `splitMainPanelSideBySide` is false when the main panel is not split; when it is
split it is false for the mode "vertical", true for "horizontal", and for any other mode
true exactly when `width ≥ 200` or `height ≤ 30`. -/
theorem splitMainPanelSideBySide_cases (gui : Gui) :
    (gui.isMainPanelSplit = false → splitMainPanelSideBySide gui = false) ∧
    (gui.isMainPanelSplit = true → gui.Config.MainPanelSplitMode = "vertical" →
      splitMainPanelSideBySide gui = false) ∧
    (gui.isMainPanelSplit = true → gui.Config.MainPanelSplitMode = "horizontal" →
      splitMainPanelSideBySide gui = true) ∧
    (gui.isMainPanelSplit = true → gui.Config.MainPanelSplitMode ≠ "vertical" →
      gui.Config.MainPanelSplitMode ≠ "horizontal" →
      (splitMainPanelSideBySide gui = true ↔ 200 ≤ gui.width ∨ gui.height ≤ 30)) := by
  refine ⟨?_, ?_, ?_, ?_⟩
  · intro h
    simp [splitMainPanelSideBySide, h]
  · intro h hm
    simp [splitMainPanelSideBySide, h, hm]
  · intro h hm
    simp [splitMainPanelSideBySide, h, hm]
  · intro h hv hh
    simp only [splitMainPanelSideBySide, h, hv, hh, Bool.not_true, Bool.false_eq_true,
      if_false]
    split_ifs with hc
    · simp only [Bool.false_eq_true, false_iff]
      omega
    · simp only [true_iff]
      omega

/-- C12, at concrete states: an unsplit panel, and a split panel in each of the modes. -/
theorem splitMainPanelSideBySide_cases_witness :
    splitMainPanelSideBySide
        ⟨.SCREEN_NORMAL, [], ⟨2, false, false, "horizontal"⟩, "main", false, false, false,
          250, 20⟩ = false ∧
    splitMainPanelSideBySide
        ⟨.SCREEN_NORMAL, [], ⟨2, false, false, "vertical"⟩, "main", true, false, false,
          250, 20⟩ = false ∧
    splitMainPanelSideBySide
        ⟨.SCREEN_NORMAL, [], ⟨2, false, false, "horizontal"⟩, "main", true, false, false,
          100, 40⟩ = true ∧
    (splitMainPanelSideBySide
        ⟨.SCREEN_NORMAL, [], ⟨2, false, false, "auto"⟩, "main", true, false, false,
          100, 40⟩ = true ↔ (200 : Int) ≤ 100 ∨ (40 : Int) ≤ 30) :=
  ⟨(splitMainPanelSideBySide_cases
      ⟨.SCREEN_NORMAL, [], ⟨2, false, false, "horizontal"⟩, "main", false, false, false,
        250, 20⟩).1 rfl,
   (splitMainPanelSideBySide_cases
      ⟨.SCREEN_NORMAL, [], ⟨2, false, false, "vertical"⟩, "main", true, false, false,
        250, 20⟩).2.1 rfl rfl,
   (splitMainPanelSideBySide_cases
      ⟨.SCREEN_NORMAL, [], ⟨2, false, false, "horizontal"⟩, "main", true, false, false,
        100, 40⟩).2.2.1 rfl rfl,
   (splitMainPanelSideBySide_cases
      ⟨.SCREEN_NORMAL, [], ⟨2, false, false, "auto"⟩, "main", true, false, false,
        100, 40⟩).2.2.2 rfl (by decide) (by decide)⟩

/-- The loop of `getDefaultStashWindowBox` finds whether some context has the window. -/
theorem stashAccessed_foldl (stack : List Context) (init : Bool) :
    stack.foldl
        (fun accessed context => if context.windowName = "stash" then true else accessed)
        init
      = (init || stack.any (fun c => decide (c.windowName = "stash"))) := by
  induction stack generalizing init with
  | nil => simp
  | cons c rest ih =>
    simp only [List.foldl_cons, List.any_cons, ih]
    by_cases hc : c.windowName = "stash"
    · simp [hc]
    · simp [hc]

/-- C13: for every context stack, `getDefaultStashWindowBox` returns a leaf box for the
window "stash", with weight 1 and size 0 if some context of the stack has the window name
"stash", and with size 3 and weight 0 otherwise. -/
theorem getDefaultStashWindowBox_cases (gui : Gui) :
    ((∃ c ∈ gui.ContextStack, c.windowName = "stash") →
      getDefaultStashWindowBox gui = Box.window "stash" 0 1) ∧
    ((∀ c ∈ gui.ContextStack, c.windowName ≠ "stash") →
      getDefaultStashWindowBox gui = Box.window "stash" 3 0) ∧
    (getDefaultStashWindowBox gui).Window = "stash" ∧
    (getDefaultStashWindowBox gui).Children = [] ∧
    (getDefaultStashWindowBox gui).ConditionalChildren.isNone = true := by
  have hfold := stashAccessed_foldl gui.ContextStack false
  simp only [Bool.false_or] at hfold
  refine ⟨?_, ?_, ?_, ?_, ?_⟩
  · rintro ⟨c, hc, hw⟩
    have hany : gui.ContextStack.any (fun c => decide (c.windowName = "stash")) = true :=
      List.any_eq_true.mpr ⟨c, hc, by simpa using hw⟩
    unfold getDefaultStashWindowBox
    simp only [hfold, hany, if_true]
  · intro hall
    have hany : gui.ContextStack.any (fun c => decide (c.windowName = "stash")) = false := by
      rw [Bool.eq_false_iff]
      intro h
      obtain ⟨c, hc, hw⟩ := List.any_eq_true.mp h
      exact hall c hc (by simpa using hw)
    unfold getDefaultStashWindowBox
    simp only [hfold, hany, Bool.false_eq_true, if_false]
  · unfold getDefaultStashWindowBox
    simp only []
    split_ifs <;> rfl
  · unfold getDefaultStashWindowBox
    simp only []
    split_ifs <;> rfl
  · unfold getDefaultStashWindowBox
    simp only []
    split_ifs <;> rfl

/-- C13, at concrete stacks: the stash panel under a menu, and the files panel alone. -/
theorem getDefaultStashWindowBox_cases_witness :
    (getDefaultStashWindowBox
        ⟨.SCREEN_NORMAL, [⟨"stash", .SIDE_CONTEXT, "stash"⟩,
            ⟨"menu", .TEMPORARY_POPUP, "menu"⟩],
          ⟨2, false, false, "auto"⟩, "menu", false, false, false, 120, 40⟩).Weight = 1 ∧
    (getDefaultStashWindowBox
        ⟨.SCREEN_NORMAL, [⟨"files", .SIDE_CONTEXT, "files"⟩],
          ⟨2, false, false, "auto"⟩, "files", false, false, false, 120, 40⟩).Size = 3 :=
  ⟨congrArg Box.Weight
      ((getDefaultStashWindowBox_cases
        ⟨.SCREEN_NORMAL, [⟨"stash", .SIDE_CONTEXT, "stash"⟩,
            ⟨"menu", .TEMPORARY_POPUP, "menu"⟩],
          ⟨2, false, false, "auto"⟩, "menu", false, false, false, 120, 40⟩).1
        ⟨⟨"stash", .SIDE_CONTEXT, "stash"⟩, by simp, rfl⟩),
   congrArg Box.Size
      ((getDefaultStashWindowBox_cases
        ⟨.SCREEN_NORMAL, [⟨"files", .SIDE_CONTEXT, "files"⟩],
          ⟨2, false, false, "auto"⟩, "files", false, false, false, 120, 40⟩).2.1
        (by decide))⟩

/-- C15: `mainSectionChildren` returns the single box of window "main" with weight 1
exactly when the main panel is not split or the mode is Full with current window "main";
otherwise it returns two boxes of weight 1, for "main" and "secondary", with "secondary"
first exactly when the secondary view is focused; a box for "main" is there in every
case. -/
theorem mainSectionChildren_cases (gui : Gui) :
    (mainSectionChildren gui = [Box.window "main" 0 1] ↔
      (gui.isMainPanelSplit = false ∨
        (gui.ScreenMode = .SCREEN_FULL ∧ gui.currentWindow = "main"))) ∧
    (¬ (gui.isMainPanelSplit = false ∨
        (gui.ScreenMode = .SCREEN_FULL ∧ gui.currentWindow = "main")) →
      (gui.secondaryViewFocused = true →
        mainSectionChildren gui = [Box.window "secondary" 0 1, Box.window "main" 0 1]) ∧
      (gui.secondaryViewFocused = false →
        mainSectionChildren gui = [Box.window "main" 0 1, Box.window "secondary" 0 1])) ∧
    (∃ b ∈ mainSectionChildren gui, b = Box.window "main" 0 1) := by
  by_cases hc : gui.isMainPanelSplit = false ∨
      (gui.ScreenMode = .SCREEN_FULL ∧ gui.currentWindow = "main")
  · have hc' : (!gui.isMainPanelSplit) = true ∨
        (gui.ScreenMode = .SCREEN_FULL ∧ gui.currentWindow = "main") := by
      rcases hc with h | h
      · exact Or.inl (by simp [h])
      · exact Or.inr h
    have h1 : mainSectionChildren gui = [Box.window "main" 0 1] := by
      unfold mainSectionChildren
      simp only [hc', if_true]
    refine ⟨⟨fun _ => hc, fun _ => h1⟩, fun hn => absurd hc hn, ?_⟩
    rw [h1]
    exact ⟨_, List.mem_singleton.mpr rfl, rfl⟩
  · have hc' : ¬ ((!gui.isMainPanelSplit) = true ∨
        (gui.ScreenMode = .SCREEN_FULL ∧ gui.currentWindow = "main")) := by
      intro h
      apply hc
      rcases h with h | h
      · exact Or.inl (by simpa using h)
      · exact Or.inr h
    have h2 : mainSectionChildren gui
        = [Box.window (if gui.secondaryViewFocused then "secondary" else "main") 0 1,
            Box.window (if gui.secondaryViewFocused then "main" else "secondary") 0 1] := by
      unfold mainSectionChildren
      simp only [hc', if_false]
    refine ⟨⟨fun h => ?_, fun h => absurd h hc⟩, fun _ => ⟨fun hf => ?_, fun hf => ?_⟩, ?_⟩
    · rw [h2] at h
      have := congrArg List.length h
      simp at this
    · rw [h2, hf]; rfl
    · rw [h2, hf]; rfl
    · rw [h2]
      cases hf : gui.secondaryViewFocused
      · exact ⟨_, List.mem_cons_self _ _, by simp⟩
      · exact ⟨_, List.mem_cons_of_mem _ (List.mem_singleton.mpr rfl), by simp⟩

/-- C15, at a concrete state: a split main panel with the secondary view focused. -/
theorem mainSectionChildren_cases_witness :
    mainSectionChildren
        ⟨.SCREEN_NORMAL, [], ⟨2, false, false, "auto"⟩, "main", true, true, false, 120, 40⟩
      = [Box.window "secondary" 0 1, Box.window "main" 0 1] :=
  ((mainSectionChildren_cases
      ⟨.SCREEN_NORMAL, [], ⟨2, false, false, "auto"⟩, "main", true, true, false, 120,
        40⟩).2.1 (by decide)).1 rfl

/-- The default stash box is a box of the window "stash". -/
theorem getDefaultStashWindowBox_window (gui : Gui) :
    (getDefaultStashWindowBox gui).Window = "stash" := by
  unfold getDefaultStashWindowBox
  simp only []
  split_ifs <;> rfl

/-- The default stash box has weight 1 or 0. -/
theorem getDefaultStashWindowBox_weight (gui : Gui) :
    (getDefaultStashWindowBox gui).Weight = 1 ∨ (getDefaultStashWindowBox gui).Weight = 0 := by
  unfold getDefaultStashWindowBox
  simp only []
  split_ifs
  · exact Or.inl rfl
  · exact Or.inr rfl

/-- C14: in Normal screen mode with `height ≥ 28`, `sidePanelChildren` returns the status
box with fixed size 3 followed by the boxes of files, branches, commits and stash; with
the expand-focused-side-panel flag on, the box among these four whose window is the
current side window has weight 2 and every other box is its default; with the flag off
every box is its default and none has weight 2; the status box has size 3 whatever the
current side window. -/
theorem sidePanelChildren_accordion (gui : Gui) (width height : Int)
    (hmode : gui.ScreenMode = .SCREEN_NORMAL) (hheight : 28 ≤ height) :
    (sidePanelChildren gui width height).map Box.Window
      = ["status", "files", "branches", "commits", "stash"] ∧
    (sidePanelChildren gui width height)[0]? = some (Box.window "status" 3 0) ∧
    (gui.Config.ExpandFocusedSidePanel = true →
      sidePanelChildren gui width height
        = [Box.window "status" 3 0,
            if currentSideWindowName gui = "files" then Box.window "files" 0 2
            else Box.window "files" 0 1,
            if currentSideWindowName gui = "branches" then Box.window "branches" 0 2
            else Box.window "branches" 0 1,
            if currentSideWindowName gui = "commits" then Box.window "commits" 0 2
            else Box.window "commits" 0 1,
            if currentSideWindowName gui = "stash" then Box.window "stash" 0 2
            else getDefaultStashWindowBox gui]) ∧
    (gui.Config.ExpandFocusedSidePanel = false →
      sidePanelChildren gui width height
        = [Box.window "status" 3 0, Box.window "files" 0 1, Box.window "branches" 0 1,
            Box.window "commits" 0 1, getDefaultStashWindowBox gui] ∧
      ∀ b ∈ sidePanelChildren gui width height, b.Weight ≠ 2) := by
  have hm : ¬ (gui.ScreenMode = .SCREEN_FULL ∨ gui.ScreenMode = .SCREEN_HALF) := by
    rw [hmode]; decide
  have hstash : (getDefaultStashWindowBox gui).Window = "stash" :=
    getDefaultStashWindowBox_window gui
  have hon : gui.Config.ExpandFocusedSidePanel = true →
      sidePanelChildren gui width height
        = [Box.window "status" 3 0,
            if currentSideWindowName gui = "files" then Box.window "files" 0 2
            else Box.window "files" 0 1,
            if currentSideWindowName gui = "branches" then Box.window "branches" 0 2
            else Box.window "branches" 0 1,
            if currentSideWindowName gui = "commits" then Box.window "commits" 0 2
            else Box.window "commits" 0 1,
            if currentSideWindowName gui = "stash" then Box.window "stash" 0 2
            else getDefaultStashWindowBox gui] := by
    intro hflag
    unfold sidePanelChildren
    simp only [hm, if_false, hheight, ge_iff_le, if_true, hflag, true_and, hstash]
    simp only [Box.window, Box.Window, eq_comm]
  have hoff : gui.Config.ExpandFocusedSidePanel = false →
      sidePanelChildren gui width height
        = [Box.window "status" 3 0, Box.window "files" 0 1, Box.window "branches" 0 1,
            Box.window "commits" 0 1, getDefaultStashWindowBox gui] := by
    intro hflag
    unfold sidePanelChildren
    simp only [hm, if_false, hheight, ge_iff_le, if_true, hflag, Bool.false_eq_true,
      false_and]
  refine ⟨?_, ?_, hon, fun hflag => ⟨hoff hflag, ?_⟩⟩
  · cases hflag : gui.Config.ExpandFocusedSidePanel
    · rw [hoff hflag]
      simp only [List.map_cons, List.map_nil, hstash]
      rfl
    · rw [hon hflag]
      simp only [List.map_cons, List.map_nil]
      refine congrArg₂ _ rfl (congrArg₂ _ ?_ (congrArg₂ _ ?_ (congrArg₂ _ ?_
        (congrArg₂ _ ?_ rfl)))) <;> split_ifs <;> first | rfl | exact hstash
  · cases hflag : gui.Config.ExpandFocusedSidePanel
    · rw [hoff hflag]; rfl
    · rw [hon hflag]; rfl
  · intro b hb
    rw [hoff hflag] at hb
    simp only [List.mem_cons, List.mem_singleton, List.not_mem_nil, or_false] at hb
    rcases hb with hb | hb | hb | hb | hb
    · subst hb; simp [Box.window, Box.Weight]
    · subst hb; simp [Box.window, Box.Weight]
    · subst hb; simp [Box.window, Box.Weight]
    · subst hb; simp [Box.window, Box.Weight]
    · subst hb
      rcases getDefaultStashWindowBox_weight gui with h | h <;> rw [h] <;> decide

/-- C14, at a concrete state: the stash panel focused with the flag on, at height 40. -/
theorem sidePanelChildren_accordion_witness :
    (sidePanelChildren
        ⟨.SCREEN_NORMAL, [⟨"stash", .SIDE_CONTEXT, "stash"⟩],
          ⟨2, false, true, "auto"⟩, "stash", false, false, false, 120, 40⟩ 30 40).map
        Box.Window
      = ["status", "files", "branches", "commits", "stash"] ∧
    (sidePanelChildren
        ⟨.SCREEN_NORMAL, [⟨"stash", .SIDE_CONTEXT, "stash"⟩],
          ⟨2, false, true, "auto"⟩, "stash", false, false, false, 120, 40⟩ 30 40).map
        Box.Weight
      = [0, 1, 1, 1, 2] :=
  ⟨(sidePanelChildren_accordion
      ⟨.SCREEN_NORMAL, [⟨"stash", .SIDE_CONTEXT, "stash"⟩],
        ⟨2, false, true, "auto"⟩, "stash", false, false, false, 120, 40⟩ 30 40 rfl
      (by decide)).1,
   by
    rw [(sidePanelChildren_accordion
      ⟨.SCREEN_NORMAL, [⟨"stash", .SIDE_CONTEXT, "stash"⟩],
        ⟨2, false, true, "auto"⟩, "stash", false, false, false, 120, 40⟩ 30 40 rfl
      (by decide)).2.2.1 rfl]
    decide⟩

/-! ## Screen mode cycling: reverting undoes advancing -/

/-- The loop of `nextIntInCycle` returns the element after the first match. -/
theorem nextIntInCycle_loop_eq {α : Type} [DecidableEq α] (sl : List α) (c : α) (i : Nat)
    (rest : List α) :
    nextIntInCycle.loop sl c i rest
      = if c ∈ rest then
          (if i + rest.indexOf c + 1 = sl.length then sl[0]?
           else sl[i + rest.indexOf c + 1]?)
        else sl[0]? := by
  induction rest generalizing i with
  | nil => simp [nextIntInCycle.loop]
  | cons val rest ih =>
    rw [nextIntInCycle.loop]
    by_cases hv : val = c
    · simp [hv]
    · have hne : ¬ c = val := fun h => hv h.symm
      simp only [hv, if_false, ih, List.mem_cons, hne, false_or,
        List.indexOf_cons_ne _ hv]
      have : i + 1 + List.indexOf c rest = i + (List.indexOf c rest).succ := by omega
      rw [this]

/-- The loop of `prevIntInCycle` returns the element before the first match. -/
theorem prevIntInCycle_loop_eq {α : Type} [DecidableEq α] (sl : List α) (c : α) (i : Nat)
    (rest : List α) :
    prevIntInCycle.loop sl c i rest
      = if c ∈ rest then
          (if i + rest.indexOf c > 0 then sl[i + rest.indexOf c - 1]?
           else sl[sl.length - 1]?)
        else sl[sl.length - 1]? := by
  induction rest generalizing i with
  | nil => simp [prevIntInCycle.loop]
  | cons val rest ih =>
    rw [prevIntInCycle.loop]
    by_cases hv : val = c
    · simp [hv]
    · have hne : ¬ c = val := fun h => hv h.symm
      simp only [hv, if_false, ih, List.mem_cons, hne, false_or,
        List.indexOf_cons_ne _ hv]
      have : i + 1 + List.indexOf c rest = i + (List.indexOf c rest).succ := by omega
      rw [this]

/-- The element `nextIntInCycle` returns for an element of the list. -/
theorem nextIntInCycle_of_mem {α : Type} [DecidableEq α] (sl : List α) (c : α)
    (hc : c ∈ sl) :
    nextIntInCycle sl c
      = if sl.indexOf c + 1 = sl.length then sl[0]? else sl[sl.indexOf c + 1]? := by
  unfold nextIntInCycle
  rw [nextIntInCycle_loop_eq]
  simp [hc]

/-- The element `prevIntInCycle` returns for an element of the list. -/
theorem prevIntInCycle_of_mem {α : Type} [DecidableEq α] (sl : List α) (c : α)
    (hc : c ∈ sl) :
    prevIntInCycle sl c
      = if sl.indexOf c > 0 then sl[sl.indexOf c - 1]? else sl[sl.length - 1]? := by
  unfold prevIntInCycle
  rw [prevIntInCycle_loop_eq]
  simp [hc]

/-- C19: for every list `sl` without repeated elements and every element `c` of it,
`prevIntInCycle` applied to the result of `nextIntInCycle` gives back `c`, and
`nextIntInCycle` applied to the result of `prevIntInCycle` gives back `c`; so
`prevScreenMode` after `nextScreenMode`, and the reverse, restores the screen mode. -/
theorem cycle_prev_next {α : Type} [DecidableEq α] (sl : List α) (c : α)
    (hnodup : sl.Nodup) (hc : c ∈ sl) :
    (nextIntInCycle sl c).bind (prevIntInCycle sl) = some c ∧
    (prevIntInCycle sl c).bind (nextIntInCycle sl) = some c ∧
    (∀ m : WindowMaximisation, (nextScreenMode m).bind prevScreenMode = some m ∧
      (prevScreenMode m).bind nextScreenMode = some m) := by
  have hk : sl.indexOf c < sl.length := List.indexOf_lt_length.mpr hc
  have hget : sl[sl.indexOf c] = c := List.getElem_indexOf hk
  have hpos : 0 < sl.length := by omega
  refine ⟨?_, ?_, ?_⟩
  · rw [nextIntInCycle_of_mem sl c hc]
    by_cases hlast : sl.indexOf c + 1 = sl.length
    · rw [if_pos hlast, List.getElem?_eq_getElem hpos, Option.some_bind,
        prevIntInCycle_of_mem sl _ (List.getElem_mem _), List.indexOf_getElem hnodup 0 hpos]
      have hidx : sl.length - 1 = sl.indexOf c := by omega
      simp only [gt_iff_lt, lt_self_iff_false, if_false]
      rw [List.getElem?_eq_getElem (by omega)]
      simp only [hidx, hget]
    · have hlt : sl.indexOf c + 1 < sl.length := by omega
      rw [if_neg hlast, List.getElem?_eq_getElem hlt, Option.some_bind,
        prevIntInCycle_of_mem sl _ (List.getElem_mem _),
        List.indexOf_getElem hnodup _ hlt]
      simp only [gt_iff_lt, Nat.zero_lt_succ, if_true, Nat.add_sub_cancel]
      rw [List.getElem?_eq_getElem hk, hget]
  · rw [prevIntInCycle_of_mem sl c hc]
    by_cases hfirst : sl.indexOf c > 0
    · have hlt : sl.indexOf c - 1 < sl.length := by omega
      rw [if_pos hfirst, List.getElem?_eq_getElem hlt, Option.some_bind,
        nextIntInCycle_of_mem sl _ (List.getElem_mem _),
        List.indexOf_getElem hnodup _ hlt]
      have h1 : sl.indexOf c - 1 + 1 = sl.indexOf c := by omega
      have h2 : ¬ sl.indexOf c = sl.length := by omega
      simp only [h1, h2, if_false]
      rw [List.getElem?_eq_getElem hk, hget]
    · have h0 : sl.indexOf c = 0 := by omega
      have hlt : sl.length - 1 < sl.length := by omega
      rw [if_neg hfirst, List.getElem?_eq_getElem hlt, Option.some_bind,
        nextIntInCycle_of_mem sl _ (List.getElem_mem _),
        List.indexOf_getElem hnodup _ hlt]
      have h1 : sl.length - 1 + 1 = sl.length := by omega
      simp only [h1, if_true]
      rw [List.getElem?_eq_getElem hpos]
      simp only [← h0, hget]
  · intro m
    cases m <;> decide

/-- C19, at the list of screen modes and the mode Full. -/
theorem cycle_prev_next_witness :
    (nextIntInCycle [WindowMaximisation.SCREEN_NORMAL, .SCREEN_HALF, .SCREEN_FULL]
        .SCREEN_FULL).bind
        (prevIntInCycle [WindowMaximisation.SCREEN_NORMAL, .SCREEN_HALF, .SCREEN_FULL])
      = some .SCREEN_FULL :=
  (cycle_prev_next [WindowMaximisation.SCREEN_NORMAL, .SCREEN_HALF, .SCREEN_FULL]
    .SCREEN_FULL (by decide) (by decide)).1

/-! ## Scroll controller: direction of `scrollDownView` -/

/-- C20 (as amended): for every view with `oy ≥ 0`, every content height and view height,
either setting of scroll-past-bottom and every non-negative step, `scrollDownView` leaves
the horizontal origin as it was and does not move the vertical origin upward, except
that with scroll-past-bottom enabled and exactly one line of content at or below the
origin it moves the origin up by one line, to keep its two-line margin. -/
theorem scrollDownView_direction (cfg : GuiConfig) (managers : List String) (v : View)
    (_hoy : 0 ≤ v.oy) (hstep : 0 ≤ cfg.ScrollHeight) :
    (scrollDownViewState cfg managers v).ox = v.ox ∧
    ((cfg.ScrollPastBottom = false ∨ v.linesHeight - v.oy ≠ 1) →
      v.oy ≤ (scrollDownViewState cfg managers v).oy) ∧
    ((scrollDownViewState cfg managers v).oy < v.oy →
      cfg.ScrollPastBottom = true ∧ v.linesHeight - v.oy = 1 ∧
      (scrollDownViewState cfg managers v).oy = v.oy - 1) ∧
    (cfg.ScrollPastBottom = true → v.linesHeight - v.oy = 1 → 1 ≤ v.oy → 0 ≤ v.ox →
      (scrollDownViewState cfg managers v).oy = v.oy - 1) := by
  refine ⟨(scrollDownViewState_frame cfg managers v).2.1, ?_, ?_, ?_⟩
  · intro h
    unfold scrollDownViewState scrollDownView View.SetOrigin
    cases hp : cfg.ScrollPastBottom
    · simp only [Bool.not_false, if_true, Bool.false_eq_true, if_false]
      split_ifs <;> dsimp only <;> omega
    · have h1 : v.linesHeight - v.oy ≠ 1 := by
        rcases h with h | h
        · rw [hp] at h; exact absurd h (by decide)
        · exact h
      simp only [Bool.not_true, Bool.false_eq_true, if_false, if_true]
      split_ifs <;> dsimp only <;> omega
  · unfold scrollDownViewState scrollDownView View.SetOrigin
    cases hp : cfg.ScrollPastBottom
    · simp only [Bool.not_false, if_true, Bool.false_eq_true, if_false, false_and,
        imp_false, not_lt]
      split_ifs <;> dsimp only <;> omega
    · simp only [Bool.not_true, Bool.false_eq_true, if_false, if_true, true_and]
      split_ifs <;> dsimp only <;> omega
  · intro hp h1 hoy1 hox
    unfold scrollDownViewState scrollDownView View.SetOrigin
    simp only [hp, Bool.not_true, Bool.false_eq_true, if_false, if_true]
    split_ifs <;> dsimp only <;> omega

/-- C20 (as amended), at a concrete view: origin 2 in 10 lines of content, step 3. -/
theorem scrollDownView_direction_witness :
    (scrollDownViewState ⟨3, true, false, ""⟩ [] ⟨"main", 0, 2, 80, 4, 10⟩).ox = 0 ∧
    (2 : Int) ≤ (scrollDownViewState ⟨3, true, false, ""⟩ [] ⟨"main", 0, 2, 80, 4, 10⟩).oy :=
  ⟨(scrollDownView_direction ⟨3, true, false, ""⟩ [] ⟨"main", 0, 2, 80, 4, 10⟩
      (by decide) (by decide)).1,
   (scrollDownView_direction ⟨3, true, false, ""⟩ [] ⟨"main", 0, 2, 80, 4, 10⟩
      (by decide) (by decide)).2.1 (Or.inr (by decide))⟩

/-- C20 as stated fails: with scroll-past-bottom enabled, 5 lines of content, step 1 and
the origin at line 4, `scrollDownView` returns no error and moves the origin up to
line 3. -/
theorem scrollDownView_direction_counterexample :
    scrollDownView ⟨1, true, false, ""⟩ [] ⟨"main", 0, 4, 80, 4, 5⟩
      = .ok (⟨"main", 0, 3, 80, 4, 5⟩, none) ∧
    (scrollDownViewState ⟨1, true, false, ""⟩ [] ⟨"main", 0, 4, 80, 4, 5⟩).oy = 3 ∧
    ¬ ((4 : Int) ≤
      (scrollDownViewState ⟨1, true, false, ""⟩ [] ⟨"main", 0, 4, 80, 4, 5⟩).oy) :=
  ⟨rfl, by decide, by decide⟩

/-! ## The window tree: shape of its boxes -/

/-- A leaf box that names a window has exactly one of the three. -/
theorem Box.window_shapeCount (window : String) (size weight : Int) (hw : window ≠ "") :
    (Box.window window size weight).shapeCount = 1 := by
  simp [Box.shapeCount, Box.window, Box.Window, Box.Children, Box.ConditionalChildren, hw]

/-- Every box `sidePanelChildren` returns is a leaf box of a named window. -/
theorem sidePanelChildren_leaves (gui : Gui) (width height : Int) :
    ∀ c ∈ sidePanelChildren gui width height,
      ∃ (window : String) (size weight : Int), window ≠ "" ∧
        c = Box.window window size weight := by
  intro c hc
  have hstash : getDefaultStashWindowBox gui = Box.window "stash" 0 1 ∨
      getDefaultStashWindowBox gui = Box.window "stash" 3 0 := by
    unfold getDefaultStashWindowBox
    simp only []
    split_ifs
    · exact Or.inl rfl
    · exact Or.inr rfl
  unfold sidePanelChildren at hc
  by_cases h1 : gui.ScreenMode = .SCREEN_FULL ∨ gui.ScreenMode = .SCREEN_HALF
  · simp only [h1, if_true, List.mem_cons, List.mem_singleton, List.not_mem_nil,
      or_false] at hc
    rcases hc with hc | hc | hc | hc | hc <;> subst hc <;> split_ifs <;>
      exact ⟨_, _, _, by decide, rfl⟩
  · by_cases h2 : height ≥ 28
    · simp only [h1, if_false, h2, if_true, List.mem_cons, List.mem_singleton,
        List.not_mem_nil, or_false] at hc
      rcases hc with hc | hc | hc | hc | hc
      · subst hc; exact ⟨_, _, _, by decide, rfl⟩
      · subst hc; split_ifs <;> exact ⟨_, _, _, by decide, rfl⟩
      · subst hc; split_ifs <;> exact ⟨_, _, _, by decide, rfl⟩
      · subst hc; split_ifs <;> exact ⟨_, _, _, by decide, rfl⟩
      · subst hc
        rcases hstash with hs | hs <;> rw [hs] <;> split_ifs <;>
          exact ⟨_, _, _, by decide, rfl⟩
    · simp only [h1, if_false, h2, List.mem_cons, List.mem_singleton, List.not_mem_nil,
        or_false] at hc
      rcases hc with hc | hc | hc | hc | hc <;> subst hc <;> split_ifs <;>
        exact ⟨_, _, _, by decide, rfl⟩

/-- The list `mainSectionChildren` returns is not empty and holds leaf boxes of named
windows. -/
theorem mainSectionChildren_leaves (gui : Gui) :
    mainSectionChildren gui ≠ [] ∧
    ∀ c ∈ mainSectionChildren gui,
      ∃ (window : String) (size weight : Int), window ≠ "" ∧
        c = Box.window window size weight := by
  unfold mainSectionChildren
  simp only []
  split_ifs
  · refine ⟨by simp, fun c hc => ?_⟩
    simp only [List.mem_singleton] at hc
    subst hc
    exact ⟨_, _, _, by decide, rfl⟩
  · refine ⟨by simp, fun c hc => ?_⟩
    simp only [List.mem_cons, List.mem_singleton, List.not_mem_nil, or_false] at hc
    rcases hc with hc | hc <;> subst hc <;> exact ⟨_, _, _, by decide, rfl⟩
  · refine ⟨by simp, fun c hc => ?_⟩
    simp only [List.mem_cons, List.mem_singleton, List.not_mem_nil, or_false] at hc
    rcases hc with hc | hc <;> subst hc <;> exact ⟨_, _, _, by decide, rfl⟩

/-- The list `infoSectionChildren` returns is not empty and holds leaf boxes of named
windows. -/
theorem infoSectionChildren_leaves (env : InfoSection) (gui : Gui)
    (informationStr appStatus : String) :
    infoSectionChildren env gui informationStr appStatus ≠ [] ∧
    ∀ c ∈ infoSectionChildren env gui informationStr appStatus,
      ∃ (window : String) (size weight : Int), window ≠ "" ∧
        c = Box.window window size weight := by
  unfold infoSectionChildren
  simp only []
  split_ifs
  · refine ⟨by simp, fun c hc => ?_⟩
    simp only [List.mem_cons, List.mem_singleton, List.not_mem_nil, or_false] at hc
    rcases hc with hc | hc <;> subst hc <;> exact ⟨_, _, _, by decide, rfl⟩
  · refine ⟨by simp, fun c hc => ?_⟩
    simp only [List.nil_append, List.cons_append, List.mem_cons, List.mem_singleton,
      List.not_mem_nil, or_false] at hc
    rcases hc with hc | hc | hc <;> subst hc <;> exact ⟨_, _, _, by decide, rfl⟩
  · refine ⟨by simp, fun c hc => ?_⟩
    simp only [List.nil_append, List.mem_cons, List.mem_singleton, List.not_mem_nil,
      or_false] at hc
    rcases hc with hc | hc <;> subst hc <;> exact ⟨_, _, _, by decide, rfl⟩

/-- In a tree of the shape `getWindowDimensions` builds, every box has exactly one of a
window name, a non-empty list of children and a conditional-children producer. -/
theorem windowTree_shapeCount (d1 d2 : Direction) (ws wm : Int)
    (side : Int → Int → List Box) (mainCs infoCs : List Box)
    (hside : ∀ w h : Int, ∀ c ∈ side w h,
      ∃ (window : String) (size weight : Int), window ≠ "" ∧
        c = Box.window window size weight)
    (hmain : ∀ c ∈ mainCs,
      ∃ (window : String) (size weight : Int), window ≠ "" ∧
        c = Box.window window size weight)
    (hinfo : ∀ c ∈ infoCs,
      ∃ (window : String) (size weight : Int), window ≠ "" ∧
        c = Box.window window size weight)
    (hmne : mainCs ≠ []) (hine : infoCs ≠ []) (b : Box)
    (hb : Box.Descendant
      (.mk .ROW
        [.mk d1 [.mk .ROW [] (some side) "" 0 ws, .mk d2 mainCs none "" 0 wm] none "" 0 1,
          .mk .COLUMN infoCs none "" 1 0]
        none "" 0 0) b) :
    b.shapeCount = 1 := by
  have key : b = .mk .ROW
        [.mk d1 [.mk .ROW [] (some side) "" 0 ws, .mk d2 mainCs none "" 0 wm] none "" 0 1,
          .mk .COLUMN infoCs none "" 1 0]
        none "" 0 0 ∨
      b = .mk d1 [.mk .ROW [] (some side) "" 0 ws, .mk d2 mainCs none "" 0 wm] none "" 0 1 ∨
      b = .mk .ROW [] (some side) "" 0 ws ∨
      b = .mk d2 mainCs none "" 0 wm ∨
      b = .mk .COLUMN infoCs none "" 1 0 ∨
      ∃ (window : String) (size weight : Int), window ≠ "" ∧
        b = Box.window window size weight := by
    induction hb with
    | self => exact Or.inl rfl
    | child p c hp hc ih =>
      rcases ih with h | h | h | h | h | ⟨w, s, wt, _, h⟩ <;> subst h <;>
        simp only [Box.Children, Box.window, List.mem_cons, List.mem_singleton,
          List.not_mem_nil, or_false] at hc
      · rcases hc with hc | hc
        · exact Or.inr (Or.inl hc)
        · exact Or.inr (Or.inr (Or.inr (Or.inr (Or.inl hc))))
      · rcases hc with hc | hc
        · exact Or.inr (Or.inr (Or.inl hc))
        · exact Or.inr (Or.inr (Or.inr (Or.inl hc)))
      · exact Or.inr (Or.inr (Or.inr (Or.inr (Or.inr (hmain c hc)))))
      · exact Or.inr (Or.inr (Or.inr (Or.inr (Or.inr (hinfo c hc)))))
    | conditional p c f w h hp hf hc ih =>
      rcases ih with h | h | h | h | h | ⟨w, s, wt, _, h⟩ <;> subst h <;>
        simp only [Box.ConditionalChildren, Box.window, reduceCtorEq,
          Option.some.injEq] at hf
      subst hf
      exact Or.inr (Or.inr (Or.inr (Or.inr (Or.inr (hside w h c hc)))))
  rcases key with h | h | h | h | h | ⟨w, s, wt, hw, h⟩
  · subst h; simp [Box.shapeCount, Box.Window, Box.Children, Box.ConditionalChildren]
  · subst h; simp [Box.shapeCount, Box.Window, Box.Children, Box.ConditionalChildren]
  · subst h; simp [Box.shapeCount, Box.Window, Box.Children, Box.ConditionalChildren]
  · subst h
    simp [Box.shapeCount, Box.Window, Box.Children, Box.ConditionalChildren, hmne]
  · subst h
    simp [Box.shapeCount, Box.Window, Box.Children, Box.ConditionalChildren, hine]
  · subst h; exact Box.window_shapeCount w s wt hw

/-- C17: every box of the tree `getWindowDimensions` builds, for every GUI state and
terminal size and including the boxes `sidePanelChildren` produces at any width and
height, has exactly one of: a window name, a non-empty list of children, a
conditional-children producer. -/
theorem getWindowDimensions_shape (invRatio : Int) (env : InfoSection) (gui : Gui)
    (informationStr appStatus : String) :
    ∀ b : Box,
      Box.Descendant (getWindowDimensions.root invRatio env gui informationStr appStatus) b →
      b.shapeCount = 1 := by
  intro b hb
  exact windowTree_shapeCount _ _ _ _ (sidePanelChildren gui) (mainSectionChildren gui)
    (infoSectionChildren env gui informationStr appStatus)
    (fun w h => sidePanelChildren_leaves gui w h) (mainSectionChildren_leaves gui).2
    (infoSectionChildren_leaves env gui informationStr appStatus).2
    (mainSectionChildren_leaves gui).1
    (infoSectionChildren_leaves env gui informationStr appStatus).1 b hb

/-- C17, at a concrete state: the root of the tree, and the files box that
`sidePanelChildren` produces at width 30 and height 38 in half-screen mode. -/
theorem getWindowDimensions_shape_witness :
    (getWindowDimensions.root 3 ⟨"search: ", " ", id⟩
        ⟨.SCREEN_HALF, [⟨"files", .SIDE_CONTEXT, "files"⟩], ⟨2, false, false, "auto"⟩,
          "files", false, false, false, 120, 40⟩ "" "").shapeCount = 1 ∧
    (Box.window "files" 0 1).shapeCount = 1 :=
  ⟨getWindowDimensions_shape 3 ⟨"search: ", " ", id⟩
      ⟨.SCREEN_HALF, [⟨"files", .SIDE_CONTEXT, "files"⟩], ⟨2, false, false, "auto"⟩,
        "files", false, false, false, 120, 40⟩ "" "" _ .self,
   getWindowDimensions_shape 3 ⟨"search: ", " ", id⟩
      ⟨.SCREEN_HALF, [⟨"files", .SIDE_CONTEXT, "files"⟩], ⟨2, false, false, "auto"⟩,
        "files", false, false, false, 120, 40⟩ "" "" _
      (.conditional (.mk .ROW [] (some (sidePanelChildren
          ⟨.SCREEN_HALF, [⟨"files", .SIDE_CONTEXT, "files"⟩], ⟨2, false, false, "auto"⟩,
            "files", false, false, false, 120, 40⟩)) "" 0 1) _ _ 30 38
        (.child (.mk .COLUMN _ none "" 0 1) _
          (.child _ _ .self (List.mem_cons_self _ _)) (List.mem_cons_self _ _))
        rfl (List.mem_cons_of_mem _ (List.mem_cons_self _ _)))⟩

/-! ## Go `float64` arithmetic: the rounding primitives -/

/-- With enough fuel, the iteration of `floorLog2` brackets `n` between two powers
of 2. -/
theorem floorLog2_go_spec (fuel n : Nat) (hn : 1 ≤ n) (hfuel : n ≤ fuel) :
    2 ^ floorLog2.go fuel n ≤ n ∧ n < 2 ^ (floorLog2.go fuel n + 1) := by
  induction fuel generalizing n with
  | zero => omega
  | succ fuel ih =>
    rw [floorLog2.go]
    by_cases h2 : n ≥ 2
    · rw [if_pos h2]
      obtain ⟨h1, h3⟩ := ih (n / 2) (by omega) (by omega)
      rw [pow_succ] at h3 ⊢
      rw [pow_succ]
      constructor <;> omega
    · rw [if_neg h2]
      have : n = 1 := by omega
      subst this
      simp

/-- The function `floorLog2` gives the floor of the binary logarithm. -/
theorem floorLog2_spec (n : Nat) (hn : 1 ≤ n) :
    2 ^ floorLog2 n ≤ n ∧ n < 2 ^ (floorLog2 n + 1) :=
  floorLog2_go_spec n n hn (le_refl n)

/-- The function `roundHalfEven` gives an integer within one half of `n / d`. -/
theorem roundHalfEven_spec (n d : Nat) (hd : 0 < d) :
    2 * (d * roundHalfEven n d) ≤ 2 * n + d ∧ 2 * n ≤ 2 * (d * roundHalfEven n d) + d := by
  have hdiv := Nat.div_add_mod n d
  have hmod := Nat.mod_lt n hd
  unfold roundHalfEven
  simp only []
  split_ifs <;> (try simp only [Nat.mul_add, Nat.mul_one]) <;> omega

/-! ## Mid-section weights and the side-panel width ratio -/

/-- C16: in Normal mode without a side-by-side main split, `getMidSectionWeights` returns
side weight 1 against main weight `int(1/r) - 1` for the side-panel width ratio `r`, so
that the ratio 0.20 gives 1 against 4; with a side-by-side main split the main weight is 5
whatever the ratio. -/
theorem getMidSectionWeights_ratio (gui : Gui)
    (hmode : gui.ScreenMode = .SCREEN_NORMAL) :
    (splitMainPanelSideBySide gui = false →
      (∀ invRatio : Int, getMidSectionWeights invRatio gui = (1, invRatio - 1)) ∧
      (∀ r : Float64, getMidSectionWeights.ofRatio r gui
        = (r.inv.toInt).map (fun invRatio => (1, invRatio - 1))) ∧
      getMidSectionWeights.ofRatio (Float64.round false 1 5) gui = some (1, 4)) ∧
    (splitMainPanelSideBySide gui = true →
      ∀ invRatio : Int, getMidSectionWeights invRatio gui = (1, 5)) ∧
    Float64.round false 1 5 = .finite false 7205759403792794 (-55) ∧
    (Float64.round false 1 5).inv = .finite false 5629499534213120 (-50) ∧
    (Float64.round false 1 5).inv.toInt = some 5 := by
  have hweights : ∀ invRatio : Int, getMidSectionWeights invRatio gui
      = (1, if splitMainPanelSideBySide gui then 5 else invRatio - 1) := by
    intro invRatio
    unfold getMidSectionWeights
    simp only [hmode]
    split_ifs <;> simp_all
  have hfive : (Float64.round false 1 5).inv.toInt = some 5 := by decide
  refine ⟨fun hs => ⟨?_, ?_, ?_⟩, fun hs => ?_, by decide, by decide, hfive⟩
  · intro invRatio
    rw [hweights, hs]
    rfl
  · intro r
    unfold getMidSectionWeights.ofRatio
    cases r.inv.toInt with
    | none => rfl
    | some k => simp only [Option.map_some', hweights, hs]; rfl
  · unfold getMidSectionWeights.ofRatio
    rw [hfive]
    simp only [Option.map_some', hweights, hs]
    rfl
  · intro invRatio
    rw [hweights, hs]
    rfl

/-- C16, at a concrete state: the files panel in Normal mode with an unsplit main panel,
and with a main panel split side by side. -/
theorem getMidSectionWeights_ratio_witness :
    getMidSectionWeights.ofRatio (Float64.round false 1 5)
        ⟨.SCREEN_NORMAL, [], ⟨2, false, false, "auto"⟩, "files", false, false, false, 120,
          40⟩ = some (1, 4) ∧
    getMidSectionWeights 3
        ⟨.SCREEN_NORMAL, [], ⟨2, false, false, "horizontal"⟩, "files", true, false, false,
          120, 40⟩ = (1, 5) :=
  ⟨((getMidSectionWeights_ratio
      ⟨.SCREEN_NORMAL, [], ⟨2, false, false, "auto"⟩, "files", false, false, false, 120,
        40⟩ rfl).1 rfl).2.2,
   (getMidSectionWeights_ratio
      ⟨.SCREEN_NORMAL, [], ⟨2, false, false, "horizontal"⟩, "files", true, false, false,
        120, 40⟩ rfl).2.1 rfl 3⟩

/-! ## Arrangement: squashed side panels and the info section -/

/-- C21: in Normal screen mode with `height < 28`, `sidePanelChildren` returns five boxes
for status, files, branches, commits, stash in that order, in which the box of the
current side window has weight 1 and every other box has the fixed size 3 when
`21 ≤ height` and 1 when `height < 21`; the result does not depend on the width. -/
theorem sidePanelChildren_squashed (gui : Gui) (width height : Int)
    (hmode : gui.ScreenMode = .SCREEN_NORMAL) (hheight : height < 28) :
    sidePanelChildren gui width height
      = ["status", "files", "branches", "commits", "stash"].map (fun window =>
          if window = currentSideWindowName gui then Box.window window 0 1
          else Box.window window (if 21 ≤ height then 3 else 1) 0) ∧
    (sidePanelChildren gui width height).map Box.Window
      = ["status", "files", "branches", "commits", "stash"] ∧
    (∀ b ∈ sidePanelChildren gui width height,
      (b.Window = currentSideWindowName gui → b.Weight = 1 ∧ b.Size = 0) ∧
      (b.Window ≠ currentSideWindowName gui →
        b.Weight = 0 ∧ (21 ≤ height → b.Size = 3) ∧ (height < 21 → b.Size = 1))) ∧
    (∀ width' : Int, sidePanelChildren gui width' height = sidePanelChildren gui width height) := by
  have hm : ¬ (gui.ScreenMode = .SCREEN_FULL ∨ gui.ScreenMode = .SCREEN_HALF) := by
    rw [hmode]; decide
  have h28 : ¬ height ≥ 28 := by omega
  have h : ∀ width' : Int, sidePanelChildren gui width' height
      = ["status", "files", "branches", "commits", "stash"].map (fun window =>
          if window = currentSideWindowName gui then Box.window window 0 1
          else Box.window window (if 21 ≤ height then 3 else 1) 0) := by
    intro width'
    unfold sidePanelChildren
    simp only [hm, if_false, h28, ge_iff_le, List.map]
  refine ⟨h width, ?_, ?_, fun width' => (h width').trans (h width).symm⟩
  · rw [h width]
    simp only [List.map]
    refine congrArg₂ _ ?_ (congrArg₂ _ ?_ (congrArg₂ _ ?_ (congrArg₂ _ ?_
      (congrArg₂ _ ?_ rfl)))) <;> split_ifs <;> rfl
  · intro b hb
    rw [h width] at hb
    simp only [List.map, List.mem_cons, List.mem_singleton, List.not_mem_nil, or_false] at hb
    rcases hb with hb | hb | hb | hb | hb <;> subst hb <;> split_ifs with hc h21 <;>
      simp [Box.window, Box.Window, Box.Weight, Box.Size, hc] <;> omega

/-- C21, at a concrete state: the branches panel current, at height 24. -/
theorem sidePanelChildren_squashed_witness :
    (sidePanelChildren
        ⟨.SCREEN_NORMAL, [⟨"localBranches", .SIDE_CONTEXT, "branches"⟩],
          ⟨2, false, false, "auto"⟩, "branches", false, false, false, 120, 26⟩ 30 24).map
        Box.Window
      = ["status", "files", "branches", "commits", "stash"] :=
  (sidePanelChildren_squashed
    ⟨.SCREEN_NORMAL, [⟨"localBranches", .SIDE_CONTEXT, "branches"⟩],
      ⟨2, false, false, "auto"⟩, "branches", false, false, false, 120, 26⟩ 30 24 rfl
    (by decide)).2.1

/-- The byte length of a string is not negative. -/
theorem goLen_nonneg (s : String) : 0 ≤ goLen s := by
  unfold goLen
  exact Int.ofNat_nonneg _

/-- The byte length of a string is positive exactly when the string is not empty. -/
theorem goLen_pos_iff (s : String) : 0 < goLen s ↔ s ≠ "" := by
  unfold goLen
  cases s with
  | mk cs =>
    have h0 : (String.mk cs).utf8ByteSize = 0 ↔ cs = [] := by
      rw [String.utf8ByteSize_mk]
      exact String.utf8Len_eq_zero
    have h1 : (String.mk cs ≠ "") ↔ cs ≠ [] := by
      constructor
      · intro h hcs; exact h (by subst hcs; rfl)
      · intro h hs; exact h (congrArg String.data hs)
    rw [h1]
    constructor
    · intro hpos hcs
      rw [h0.mpr hcs] at hpos
      exact absurd hpos (by decide)
    · intro hne
      have : (String.mk cs).utf8ByteSize ≠ 0 := fun h => hne (h0.mp h)
      omega

/-- C24: `infoSectionChildren` returns, while searching, the box searchPrefix of size
`len(SEARCH_PREFIX)` and the box search of weight 1; otherwise an appStatus box of size
`len(appStatus) + len(INFO_SECTION_PADDING)` exactly when `appStatus` is not empty,
followed by the box options of weight 1 and the box information of size
`len(INFO_SECTION_PADDING)` plus the length of the decolorised information string; in
every case exactly one box has a positive weight, and every other box has weight 0 and a
size that is not negative, and positive when the two constants are not empty. -/
theorem infoSectionChildren_cases (env : InfoSection) (gui : Gui)
    (informationStr appStatus : String) :
    (gui.isSearching = true →
      infoSectionChildren env gui informationStr appStatus
        = [Box.window "searchPrefix" (goLen env.SEARCH_PREFIX) 0, Box.window "search" 0 1]) ∧
    (gui.isSearching = false → appStatus ≠ "" →
      infoSectionChildren env gui informationStr appStatus
        = [Box.window "appStatus" (goLen appStatus + goLen env.INFO_SECTION_PADDING) 0,
            Box.window "options" 0 1,
            Box.window "information"
              (goLen env.INFO_SECTION_PADDING + goLen (env.Decolorise informationStr)) 0]) ∧
    (gui.isSearching = false → appStatus = "" →
      infoSectionChildren env gui informationStr appStatus
        = [Box.window "options" 0 1,
            Box.window "information"
              (goLen env.INFO_SECTION_PADDING + goLen (env.Decolorise informationStr)) 0]) ∧
    ((infoSectionChildren env gui informationStr appStatus).map Box.Weight).count 1 = 1 ∧
    (∀ b ∈ infoSectionChildren env gui informationStr appStatus,
      (b.Weight = 1 ∨ b.Weight = 0) ∧ 0 ≤ b.Size ∧
      (env.SEARCH_PREFIX ≠ "" → env.INFO_SECTION_PADDING ≠ "" → b.Weight = 0 →
        0 < b.Size)) := by
  have hsearch : gui.isSearching = true →
      infoSectionChildren env gui informationStr appStatus
        = [Box.window "searchPrefix" (goLen env.SEARCH_PREFIX) 0,
            Box.window "search" 0 1] := by
    intro hs
    unfold infoSectionChildren
    simp only [hs, if_true]
  have happ : gui.isSearching = false → appStatus ≠ "" →
      infoSectionChildren env gui informationStr appStatus
        = [Box.window "appStatus" (goLen appStatus + goLen env.INFO_SECTION_PADDING) 0,
            Box.window "options" 0 1,
            Box.window "information"
              (goLen env.INFO_SECTION_PADDING + goLen (env.Decolorise informationStr)) 0] := by
    intro hs ha
    have hpos : goLen appStatus > 0 := (goLen_pos_iff appStatus).mpr ha
    unfold infoSectionChildren
    simp only [hs, Bool.false_eq_true, if_false, hpos, if_true, List.nil_append,
      List.cons_append]
  have hnoapp : gui.isSearching = false → appStatus = "" →
      infoSectionChildren env gui informationStr appStatus
        = [Box.window "options" 0 1,
            Box.window "information"
              (goLen env.INFO_SECTION_PADDING + goLen (env.Decolorise informationStr)) 0] := by
    intro hs ha
    have hpos : ¬ goLen appStatus > 0 := fun h => (goLen_pos_iff appStatus).mp h ha
    unfold infoSectionChildren
    simp only [hs, Bool.false_eq_true, if_false, hpos, List.nil_append]
  have hpad := goLen_nonneg env.INFO_SECTION_PADDING
  have hinfo := goLen_nonneg (env.Decolorise informationStr)
  have hpre := goLen_nonneg env.SEARCH_PREFIX
  have hap := goLen_nonneg appStatus
  refine ⟨hsearch, happ, hnoapp, ?_, ?_⟩
  · cases hs : gui.isSearching
    · by_cases ha : appStatus = ""
      · rw [hnoapp hs ha]; simp [Box.window, Box.Weight]
      · rw [happ hs ha]; simp [Box.window, Box.Weight]
    · rw [hsearch hs]; simp [Box.window, Box.Weight]
  · intro b hb
    cases hs : gui.isSearching
    · by_cases ha : appStatus = ""
      · rw [hnoapp hs ha] at hb
        simp only [List.mem_cons, List.mem_singleton, List.not_mem_nil, or_false] at hb
        rcases hb with hb | hb <;> subst hb
        · exact ⟨Or.inl rfl, le_refl _, fun _ _ h => absurd h (by decide)⟩
        · refine ⟨Or.inr rfl, ?_, fun _ hp _ => ?_⟩
          · show 0 ≤ goLen env.INFO_SECTION_PADDING + goLen (env.Decolorise informationStr)
            omega
          · have := (goLen_pos_iff _).mpr hp
            show 0 < goLen env.INFO_SECTION_PADDING + goLen (env.Decolorise informationStr)
            omega
      · rw [happ hs ha] at hb
        simp only [List.mem_cons, List.mem_singleton, List.not_mem_nil, or_false] at hb
        have hapos := (goLen_pos_iff _).mpr ha
        rcases hb with hb | hb | hb <;> subst hb
        · refine ⟨Or.inr rfl, ?_, fun _ _ _ => ?_⟩
          · show 0 ≤ goLen appStatus + goLen env.INFO_SECTION_PADDING
            omega
          · show 0 < goLen appStatus + goLen env.INFO_SECTION_PADDING
            omega
        · exact ⟨Or.inl rfl, le_refl _, fun _ _ h => absurd h (by decide)⟩
        · refine ⟨Or.inr rfl, ?_, fun _ hp _ => ?_⟩
          · show 0 ≤ goLen env.INFO_SECTION_PADDING + goLen (env.Decolorise informationStr)
            omega
          · have := (goLen_pos_iff _).mpr hp
            show 0 < goLen env.INFO_SECTION_PADDING + goLen (env.Decolorise informationStr)
            omega
    · rw [hsearch hs] at hb
      simp only [List.mem_cons, List.mem_singleton, List.not_mem_nil, or_false] at hb
      rcases hb with hb | hb <;> subst hb
      · exact ⟨Or.inr rfl, hpre, fun hp _ _ => (goLen_pos_iff _).mpr hp⟩
      · exact ⟨Or.inl rfl, le_refl _, fun _ _ h => absurd h (by decide)⟩

/-- C24, at a concrete state: not searching, with the status "fetching". -/
theorem infoSectionChildren_cases_witness :
    infoSectionChildren ⟨"search: ", " ", id⟩
        ⟨.SCREEN_NORMAL, [], ⟨2, false, false, "auto"⟩, "files", false, false, false, 120,
          40⟩ "1.0" "fetching"
      = [Box.window "appStatus" (goLen "fetching" + goLen " ") 0,
          Box.window "options" 0 1,
          Box.window "information" (goLen " " + goLen (id "1.0")) 0] :=
  (infoSectionChildren_cases ⟨"search: ", " ", id⟩
    ⟨.SCREEN_NORMAL, [], ⟨2, false, false, "auto"⟩, "files", false, false, false, 120,
      40⟩ "1.0" "fetching").2.1 rfl (by decide)

/-! ## The window tree: names of its leaves -/

/-- The windows of the boxes `sidePanelChildren` returns are the five side windows, at
every width and height and in every mode. -/
theorem sidePanelChildren_windows (gui : Gui) (width height : Int) :
    (sidePanelChildren gui width height).map Box.Window
      = ["status", "files", "branches", "commits", "stash"] := by
  have hstash := getDefaultStashWindowBox_window gui
  unfold sidePanelChildren
  by_cases h1 : gui.ScreenMode = .SCREEN_FULL ∨ gui.ScreenMode = .SCREEN_HALF
  · simp only [h1, if_true, List.map_cons, List.map_nil]
    refine congrArg₂ _ ?_ (congrArg₂ _ ?_ (congrArg₂ _ ?_ (congrArg₂ _ ?_
      (congrArg₂ _ ?_ rfl)))) <;> split_ifs <;> rfl
  · by_cases h2 : height ≥ 28
    · simp only [h1, if_false, h2, if_true, List.map_cons, List.map_nil]
      refine congrArg₂ _ rfl (congrArg₂ _ ?_ (congrArg₂ _ ?_ (congrArg₂ _ ?_
        (congrArg₂ _ ?_ rfl)))) <;> split_ifs <;> first | rfl | exact hstash
    · simp only [h1, if_false, h2, List.map_cons, List.map_nil]
      refine congrArg₂ _ ?_ (congrArg₂ _ ?_ (congrArg₂ _ ?_ (congrArg₂ _ ?_
        (congrArg₂ _ ?_ rfl)))) <;> split_ifs <;> rfl

/-- The windows of the boxes `mainSectionChildren` returns. -/
theorem mainSectionChildren_windows (gui : Gui) :
    (mainSectionChildren gui).map Box.Window = ["main"] ∨
    (mainSectionChildren gui).map Box.Window = ["main", "secondary"] ∨
    (mainSectionChildren gui).map Box.Window = ["secondary", "main"] := by
  unfold mainSectionChildren
  simp only []
  split_ifs
  · exact Or.inl rfl
  · exact Or.inr (Or.inr rfl)
  · exact Or.inr (Or.inl rfl)

/-- The windows of the boxes `infoSectionChildren` returns. -/
theorem infoSectionChildren_windows (env : InfoSection) (gui : Gui)
    (informationStr appStatus : String) :
    (infoSectionChildren env gui informationStr appStatus).map Box.Window
      = ["searchPrefix", "search"] ∨
    (infoSectionChildren env gui informationStr appStatus).map Box.Window
      = ["appStatus", "options", "information"] ∨
    (infoSectionChildren env gui informationStr appStatus).map Box.Window
      = ["options", "information"] := by
  unfold infoSectionChildren
  simp only []
  split_ifs
  · exact Or.inl rfl
  · exact Or.inr (Or.inl rfl)
  · exact Or.inr (Or.inr rfl)

/-- The layout of a leaf box that names a window is its one rectangle. -/
theorem Arrange_window (window : String) (size weight : Int) (hw : window ≠ "")
    (x y w h : Int) :
    Arrange (Box.window window size weight) x y w h = [⟨window, x, y, w, h⟩] := by
  rw [Arrange_eq]
  simp [Box.window, Box.materialize, Box.ConditionalChildren, Box.Children, Box.Window, hw]

/-- The rectangles laid out under a list of leaf boxes carry the windows of the boxes,
in order. -/
theorem ArrangeChildren_windows (cs : List Box)
    (hleaf : ∀ c ∈ cs, ∃ (window : String) (size weight : Int), window ≠ "" ∧
      c = Box.window window size weight) (rects : List Rectangle) :
    (ArrangeChildren cs rects).map Rectangle.window = cs.map Box.Window := by
  induction cs generalizing rects with
  | nil => rw [ArrangeChildren]; rfl
  | cons c rest ih =>
    obtain ⟨window, size, weight, hw, hc⟩ := hleaf c (List.mem_cons_self _ _)
    rw [ArrangeChildren_cons, List.map_append,
      ih (fun d hd => hleaf d (List.mem_cons_of_mem _ hd)), hc, Arrange_window _ _ _ hw]
    rfl

/-- The rectangles `Arrange` returns for a tree of the shape `getWindowDimensions`
builds carry the windows of the side boxes, of the main boxes and of the info boxes, in
that order. -/
theorem windowTree_windows (d1 d2 : Direction) (ws wm : Int)
    (side : Int → Int → List Box) (mainCs infoCs : List Box)
    (hside : ∀ w h : Int, ∀ c ∈ side w h,
      ∃ (window : String) (size weight : Int), window ≠ "" ∧
        c = Box.window window size weight)
    (hmain : ∀ c ∈ mainCs,
      ∃ (window : String) (size weight : Int), window ≠ "" ∧
        c = Box.window window size weight)
    (hinfo : ∀ c ∈ infoCs,
      ∃ (window : String) (size weight : Int), window ≠ "" ∧
        c = Box.window window size weight)
    (hsne : ∀ w h : Int, side w h ≠ []) (hmne : mainCs ≠ []) (hine : infoCs ≠ [])
    (x y w h : Int) :
    ∃ w' h' : Int,
      (Arrange
        (.mk .ROW
          [.mk d1 [.mk .ROW [] (some side) "" 0 ws, .mk d2 mainCs none "" 0 wm] none "" 0 1,
            .mk .COLUMN infoCs none "" 1 0]
          none "" 0 0) x y w h).map Rectangle.window
        = (side w' h').map Box.Window ++ mainCs.map Box.Window ++ infoCs.map Box.Window := by
  have hsideBox : ∀ x y w h : Int,
      (Arrange (.mk .ROW [] (some side) "" 0 ws) x y w h).map Rectangle.window
        = (side w h).map Box.Window := by
    intro x y w h
    rw [Arrange_eq]
    have hne : ¬ ((Box.mk .ROW [] (some side) "" 0 ws).materialize w h).isEmpty = true := by
      simp [Box.materialize, Box.ConditionalChildren, hsne w h]
    rw [if_neg hne]
    exact ArrangeChildren_windows _ (hside w h) _
  have hmainBox : ∀ x y w h : Int,
      (Arrange (.mk d2 mainCs none "" 0 wm) x y w h).map Rectangle.window
        = mainCs.map Box.Window := by
    intro x y w h
    rw [Arrange_eq]
    have hne : ¬ ((Box.mk d2 mainCs none "" 0 wm).materialize w h).isEmpty = true := by
      simp [Box.materialize, Box.ConditionalChildren, Box.Children, hmne]
    rw [if_neg hne]
    exact ArrangeChildren_windows _ hmain _
  have hinfoBox : ∀ x y w h : Int,
      (Arrange (.mk .COLUMN infoCs none "" 1 0) x y w h).map Rectangle.window
        = infoCs.map Box.Window := by
    intro x y w h
    rw [Arrange_eq]
    have hne : ¬ ((Box.mk .COLUMN infoCs none "" 1 0).materialize w h).isEmpty = true := by
      simp [Box.materialize, Box.ConditionalChildren, Box.Children, hine]
    rw [if_neg hne]
    exact ArrangeChildren_windows _ hinfo _
  have hmidBox : ∀ x y w h : Int, ∃ w' h' : Int,
      (Arrange (.mk d1 [.mk .ROW [] (some side) "" 0 ws, .mk d2 mainCs none "" 0 wm]
          none "" 0 1) x y w h).map Rectangle.window
        = (side w' h').map Box.Window ++ mainCs.map Box.Window := by
    intro x y w h
    rw [Arrange_eq]
    have hmat : (Box.mk d1 [.mk .ROW [] (some side) "" 0 ws, .mk d2 mainCs none "" 0 wm]
        none "" 0 1).materialize w h
        = [.mk .ROW [] (some side) "" 0 ws, .mk d2 mainCs none "" 0 wm] := rfl
    rw [hmat]
    simp only [List.isEmpty_cons, Bool.false_eq_true, if_false]
    rw [ArrangeChildren_cons, ArrangeChildren_cons, List.map_append, List.map_append,
      hsideBox, hmainBox]
    rw [ArrangeChildren]
    simp only [List.map_nil, List.append_nil]
    exact ⟨_, _, rfl⟩
  rw [Arrange_eq]
  have hmat : (Box.mk .ROW
      [.mk d1 [.mk .ROW [] (some side) "" 0 ws, .mk d2 mainCs none "" 0 wm] none "" 0 1,
        .mk .COLUMN infoCs none "" 1 0] none "" 0 0).materialize w h
      = [.mk d1 [.mk .ROW [] (some side) "" 0 ws, .mk d2 mainCs none "" 0 wm] none "" 0 1,
          .mk .COLUMN infoCs none "" 1 0] := rfl
  rw [hmat]
  simp only [List.isEmpty_cons, Bool.false_eq_true, if_false]
  rw [ArrangeChildren_cons, ArrangeChildren_cons, List.map_append, List.map_append, hinfoBox]
  obtain ⟨w', h', hmid⟩ := hmidBox
    ((Box.childRects (.mk .ROW
      [.mk d1 [.mk .ROW [] (some side) "" 0 ws, .mk d2 mainCs none "" 0 wm] none "" 0 1,
        .mk .COLUMN infoCs none "" 1 0] none "" 0 0) x y w h).headD ⟨"", 0, 0, 0, 0⟩).x
    ((Box.childRects (.mk .ROW
      [.mk d1 [.mk .ROW [] (some side) "" 0 ws, .mk d2 mainCs none "" 0 wm] none "" 0 1,
        .mk .COLUMN infoCs none "" 1 0] none "" 0 0) x y w h).headD ⟨"", 0, 0, 0, 0⟩).y
    ((Box.childRects (.mk .ROW
      [.mk d1 [.mk .ROW [] (some side) "" 0 ws, .mk d2 mainCs none "" 0 wm] none "" 0 1,
        .mk .COLUMN infoCs none "" 1 0] none "" 0 0) x y w h).headD ⟨"", 0, 0, 0, 0⟩).width
    ((Box.childRects (.mk .ROW
      [.mk d1 [.mk .ROW [] (some side) "" 0 ws, .mk d2 mainCs none "" 0 wm] none "" 0 1,
        .mk .COLUMN infoCs none "" 1 0] none "" 0 0) x y w h).headD ⟨"", 0, 0, 0, 0⟩).height
  rw [hmid, ArrangeChildren]
  simp only [List.map_nil, List.append_nil]
  exact ⟨w', h', rfl⟩

/-- C23: for every GUI state and terminal size, the windows of the leaves of the tree
`getWindowDimensions` builds (the five side windows at any width and height, main and
possibly secondary, and the info-section windows) are pairwise distinct, and so are the
windows of the rectangles it returns: no window is assigned two rectangles. -/
theorem getWindowDimensions_windows_nodup (invRatio : Int) (env : InfoSection) (gui : Gui)
    (informationStr appStatus : String) :
    (∀ width height : Int,
      ((sidePanelChildren gui width height).map Box.Window
        ++ (mainSectionChildren gui).map Box.Window
        ++ (infoSectionChildren env gui informationStr appStatus).map Box.Window).Nodup) ∧
    (getWindowDimensions invRatio env gui informationStr appStatus).map Rectangle.window
      = ["status", "files", "branches", "commits", "stash"]
        ++ (mainSectionChildren gui).map Box.Window
        ++ (infoSectionChildren env gui informationStr appStatus).map Box.Window ∧
    ((getWindowDimensions invRatio env gui informationStr appStatus).map
      Rectangle.window).Nodup := by
  have hnodup : (["status", "files", "branches", "commits", "stash"]
      ++ (mainSectionChildren gui).map Box.Window
      ++ (infoSectionChildren env gui informationStr appStatus).map Box.Window).Nodup := by
    rcases mainSectionChildren_windows gui with hm | hm | hm <;>
      rcases infoSectionChildren_windows env gui informationStr appStatus with hi | hi | hi <;>
      rw [hm, hi] <;> decide
  have hnames : (getWindowDimensions invRatio env gui informationStr appStatus).map
      Rectangle.window
      = ["status", "files", "branches", "commits", "stash"]
        ++ (mainSectionChildren gui).map Box.Window
        ++ (infoSectionChildren env gui informationStr appStatus).map Box.Window := by
    obtain ⟨w', h', hw⟩ := windowTree_windows
      (if gui.width ≤ 84 ∧ gui.height > 45 then Direction.ROW else Direction.COLUMN)
      (if splitMainPanelSideBySide gui then Direction.COLUMN else Direction.ROW)
      (getMidSectionWeights invRatio gui).1 (getMidSectionWeights invRatio gui).2
      (sidePanelChildren gui) (mainSectionChildren gui)
      (infoSectionChildren env gui informationStr appStatus)
      (fun w h => sidePanelChildren_leaves gui w h) (mainSectionChildren_leaves gui).2
      (infoSectionChildren_leaves env gui informationStr appStatus).2
      (fun w h hnil => by
        have := sidePanelChildren_windows gui w h
        rw [hnil] at this
        simp at this)
      (mainSectionChildren_leaves gui).1
      (infoSectionChildren_leaves env gui informationStr appStatus).1 0 0 gui.width gui.height
    rw [sidePanelChildren_windows] at hw
    exact hw
  refine ⟨fun width height => ?_, hnames, ?_⟩
  · rw [sidePanelChildren_windows]
    exact hnodup
  · rw [hnames]
    exact hnodup

/-! ## Mid-section weights for a ratio between 0 and 1 -/

/-- The function `roundHalfEven` does not round below the quotient. -/
theorem roundHalfEven_ge (n d : Nat) : n / d ≤ roundHalfEven n d := by
  unfold roundHalfEven
  simp only []
  split_ifs <;> omega

/-- For `n ≥ d ≥ 1` the binary exponent of `n / d` is not negative and `2` to that power
is at most `n / d`. -/
theorem binExp_spec_ge (n d : Nat) (hd : 1 ≤ d) (hnd : d ≤ n) :
    ∃ K : Nat, binExp n d = (K : Int) ∧ d * 2 ^ K ≤ n := by
  obtain ⟨ha1, ha2⟩ := floorLog2_spec n (by omega)
  obtain ⟨hb1, hb2⟩ := floorLog2_spec d hd
  have hba : floorLog2 d ≤ floorLog2 n := by
    have : 2 ^ floorLog2 d < 2 ^ (floorLog2 n + 1) := by omega
    have := (Nat.pow_lt_pow_iff_right (by decide : 1 < 2)).mp this
    omega
  have hk : ((floorLog2 n : Int) - (floorLog2 d : Int)) = ((floorLog2 n - floorLog2 d : Nat) : Int) := by
    omega
  unfold binExp
  simp only [hk, Int.natCast_nonneg, ge_iff_le, if_true, Int.toNat_ofNat]
  by_cases hcheck : d * 2 ^ (floorLog2 n - floorLog2 d) ≤ n
  · exact ⟨floorLog2 n - floorLog2 d, by rw [if_pos hcheck], hcheck⟩
  · have hpos : 1 ≤ floorLog2 n - floorLog2 d := by
      by_contra h
      have h0 : floorLog2 n - floorLog2 d = 0 := by omega
      rw [h0] at hcheck
      simp at hcheck
      omega
    refine ⟨floorLog2 n - floorLog2 d - 1, by rw [if_neg hcheck]; omega, ?_⟩
    have hsplit : 2 ^ floorLog2 n
        = 2 ^ (floorLog2 d + 1) * 2 ^ (floorLog2 n - floorLog2 d - 1) := by
      rw [← pow_add]
      congr 1
      omega
    have : d * 2 ^ (floorLog2 n - floorLog2 d - 1)
        ≤ 2 ^ (floorLog2 d + 1) * 2 ^ (floorLog2 n - floorLog2 d - 1) :=
      Nat.mul_le_mul_right _ (le_of_lt hb2)
    omega

/-- The rounding of a fraction `n / d ≥ 1`, when it converts to an `int`, converts to one
that is at least 1. -/
theorem Float64.round_toInt_ge_one (n d : Nat) (hd : 1 ≤ d) (hnd : d ≤ n) (k : Int)
    (hk : (Float64.round false n d).toInt = some k) : 1 ≤ k := by
  obtain ⟨K, hK, hbound⟩ := binExp_spec_ge n d hd hnd
  have hn : n ≠ 0 := by omega
  unfold Float64.round at hk
  have hmax : max ((K : Int) - 52) (-1074) = (K : Int) - 52 := max_eq_left (by omega)
  simp only [hn, if_false, hK, hmax] at hk
  by_cases he : (K : Int) - 52 ≥ 0
  · have hK52 : 52 ≤ K := by omega
    have hto : ((K : Int) - 52).toNat = K - 52 := by omega
    simp only [he, if_true, hto] at hk
    split_ifs at hk with hover
    · simp [Float64.toInt] at hk
    · have hm : 1 ≤ roundHalfEven n (d * 2 ^ (K - 52)) := by
        have hq : 2 ^ 52 ≤ n / (d * 2 ^ (K - 52)) := by
          rw [Nat.le_div_iff_mul_le (Nat.mul_pos hd (Nat.two_pow_pos _))]
          have : 2 ^ 52 * (d * 2 ^ (K - 52)) = d * 2 ^ K := by
            have hKK : K = 52 + (K - 52) := by omega
            conv_rhs => rw [hKK, pow_add]
            ring
          omega
        have := roundHalfEven_ge n (d * 2 ^ (K - 52))
        have h252 : 1 ≤ 2 ^ 52 := Nat.one_le_two_pow
        omega
      simp only [Float64.toInt, he, if_true, hto, Bool.false_eq_true, if_false] at hk
      split_ifs at hk
      · cases hk
        have h2 : 1 ≤ 2 ^ (K - 52) := Nat.one_le_two_pow
        have : 1 ≤ roundHalfEven n (d * 2 ^ (K - 52)) * 2 ^ (K - 52) :=
          Nat.mul_le_mul hm h2
        exact_mod_cast this
  · have hK52 : K < 52 := by omega
    have hneg : (-((K : Int) - 52)).toNat = 52 - K := by omega
    have hne971 : ¬ ((K : Int) - 52 > 971 ∨
        ((K : Int) - 52 = 971 ∧ roundHalfEven (n * 2 ^ (52 - K)) d ≥ 2 ^ 53)) := by omega
    simp only [he, if_false, hneg, hne971] at hk
    simp only [Float64.toInt, he, if_false, hneg, Bool.false_eq_true] at hk
    split_ifs at hk
    · cases hk
      have hq : 2 ^ (52 - K) ≤ n * 2 ^ (52 - K) / d := by
        rw [Nat.le_div_iff_mul_le (by omega)]
        rw [Nat.mul_comm]
        exact Nat.mul_le_mul_right _ hnd
      have hm := roundHalfEven_ge (n * 2 ^ (52 - K)) d
      have hpos : 0 < 2 ^ (52 - K) := Nat.two_pow_pos _
      have : 1 ≤ roundHalfEven (n * 2 ^ (52 - K)) d / 2 ^ (52 - K) := by
        rw [Nat.le_div_iff_mul_le hpos]
        omega
      exact_mod_cast this

/-- A `float64` whose value lies strictly between 0 and 1 is positive with a negative
exponent, and its significand is below the power of two of that exponent. -/
theorem Float64.value_unit (r : Float64) (q : ℚ) (hval : r.value = some q) (h0 : 0 < q)
    (h1 : q < 1) :
    ∃ mant j : Nat, r = .finite false mant (-(j : Int)) ∧ 1 ≤ mant ∧ mant < 2 ^ j := by
  cases r with
  | nan => simp [Float64.value] at hval
  | inf neg => simp [Float64.value] at hval
  | finite neg mant exp =>
    simp only [Float64.value, Option.some.injEq] at hval
    have hpow : (0 : ℚ) < (2 : ℚ) ^ exp := zpow_pos (by norm_num) exp
    have hmant0 : (0 : ℚ) ≤ (mant : ℚ) := Nat.cast_nonneg mant
    cases neg with
    | true =>
      exfalso
      simp only [if_true] at hval
      have : (-1 : ℚ) * (mant : ℚ) * (2 : ℚ) ^ exp ≤ 0 := by
        have := mul_nonneg hmant0 (le_of_lt hpow)
        linarith
      linarith
    | false =>
      simp only [Bool.false_eq_true, if_false, one_mul] at hval
      have hmpos : 1 ≤ mant := by
        rcases Nat.eq_zero_or_pos mant with h | h
        · exfalso
          rw [h] at hval
          simp at hval
          linarith
        · exact h
      have hm1 : (1 : ℚ) ≤ (mant : ℚ) := by exact_mod_cast hmpos
      have hexp : exp < 0 := by
        by_contra hge
        have hge0 : 0 ≤ exp := by omega
        have h2 : (1 : ℚ) ≤ (2 : ℚ) ^ exp := one_le_zpow₀ (by norm_num) hge0
        have : (1 : ℚ) ≤ (mant : ℚ) * (2 : ℚ) ^ exp := by
          calc (1 : ℚ) = 1 * 1 := by norm_num
            _ ≤ (mant : ℚ) * (2 : ℚ) ^ exp := mul_le_mul hm1 h2 (by norm_num) hmant0
        linarith
      refine ⟨mant, (-exp).toNat, ?_, hmpos, ?_⟩
      · have : (((-exp).toNat : Nat) : Int) = -exp := by omega
        rw [this, neg_neg]
      · have hj : exp = -(((-exp).toNat : Nat) : Int) := by omega
        have hq : (mant : ℚ) * (2 : ℚ) ^ exp < 1 := by rw [hval]; exact h1
        rw [hj, zpow_neg, zpow_natCast] at hq
        have hp : (0 : ℚ) < (2 : ℚ) ^ (-exp).toNat := pow_pos (by norm_num) _
        have hlt : (mant : ℚ) < (2 : ℚ) ^ (-exp).toNat := by
          have := (mul_inv_lt_iff₀ hp).mp hq
          linarith
        exact_mod_cast hlt

/-- C22, amended: for every side-panel width ratio strictly between 0 and 1 for which Go
defines `int(1/ratio)`, that integer `k` is at least 1, and for every screen mode, current
window and split setting both weights returned by `getMidSectionWeights` are non-negative;
they are both zero exactly when the main window is focused in Half or Full screen mode,
the main panel is not split side by side, and `k = 1` (a ratio above one half). -/
theorem getMidSectionWeights_nonneg (r : Float64) (q : ℚ) (k : Int) (gui : Gui)
    (hval : r.value = some q) (h0 : 0 < q) (h1 : q < 1) (hk : r.inv.toInt = some k) :
    getMidSectionWeights.ofRatio r gui = some (getMidSectionWeights k gui) ∧
    1 ≤ k ∧
    0 ≤ (getMidSectionWeights k gui).1 ∧ 0 ≤ (getMidSectionWeights k gui).2 ∧
    (getMidSectionWeights k gui = (0, 0) ↔
      gui.currentWindow = "main" ∧
      (gui.ScreenMode = .SCREEN_HALF ∨ gui.ScreenMode = .SCREEN_FULL) ∧
      splitMainPanelSideBySide gui = false ∧ k = 1) := by
  obtain ⟨mant, j, hr, hm1, hmj⟩ := Float64.value_unit r q hval h0 h1
  have hk1 : 1 ≤ k := by
    subst hr
    have hne : mant ≠ 0 := by omega
    have hle : -(j : Int) ≤ 0 := by omega
    simp only [Float64.inv, hne, if_false, hle, if_true, neg_neg, Int.toNat_ofNat] at hk
    exact Float64.round_toInt_ge_one (2 ^ j) mant hm1 (le_of_lt hmj) k hk
  refine ⟨by simp [getMidSectionWeights.ofRatio, hk], hk1, ?_⟩
  unfold getMidSectionWeights
  cases hs : splitMainPanelSideBySide gui <;>
    by_cases hw : gui.currentWindow = "main" <;>
    cases hmode : gui.ScreenMode <;>
    simp [hw] <;> omega

/-- C22, at the ratio 0.25 with the files panel focused in normal mode: the weights are
1 and 3. -/
theorem getMidSectionWeights_nonneg_witness :
    (Float64.round false 1 4).value = some (1 / 4) ∧
    getMidSectionWeights.ofRatio (Float64.round false 1 4)
        ⟨.SCREEN_NORMAL, [], ⟨2, false, false, "auto"⟩, "files", false, false, false, 120,
          40⟩ = some (1, 3) ∧
    (1 : Int) ≤ 4 :=
  have hv : (Float64.round false 1 4).value = some (1 / 4) := by
    have : Float64.round false 1 4 = .finite false 4503599627370496 (-54) := by decide
    rw [this]
    simp only [Float64.value, Bool.false_eq_true, if_false, Option.some.injEq]
    norm_num
  have hk : (Float64.round false 1 4).inv.toInt = some 4 := by decide
  have h := getMidSectionWeights_nonneg (Float64.round false 1 4) (1 / 4) 4
    ⟨.SCREEN_NORMAL, [], ⟨2, false, false, "auto"⟩, "files", false, false, false, 120, 40⟩
    hv (by norm_num) (by norm_num) hk
  ⟨hv, h.1.trans (by decide), h.2.1⟩

/-- C22 as stated fails at the ratio 0.6 (the `float64` 5404319552844595 / 2 ^ 53, which
is between 0 and 1) with the main window focused in Half screen mode and the main panel
not split: `int(1/0.6) = 1` and both weights are zero. -/
theorem getMidSectionWeights_nonneg_counterexample :
    (Float64.round false 3 5).value = some (5404319552844595 / 2 ^ 53) ∧
    ((0 : ℚ) < 5404319552844595 / 2 ^ 53 ∧ (5404319552844595 / 2 ^ 53 : ℚ) < 1) ∧
    (Float64.round false 3 5).inv.toInt = some 1 ∧
    getMidSectionWeights.ofRatio (Float64.round false 3 5)
        ⟨.SCREEN_HALF, [], ⟨2, false, false, "auto"⟩, "main", false, false, false, 120,
          40⟩ = some (0, 0) := by
  refine ⟨?_, by norm_num, by decide, by decide⟩
  have : Float64.round false 3 5 = .finite false 5404319552844595 (-53) := by decide
  rw [this]
  simp only [Float64.value, Bool.false_eq_true, if_false, Option.some.injEq]
  norm_num

/-! ## Sub-commits panel -/

/-- C25: `getSelectedSubCommit` returns no commit exactly when the selected line index is
-1 or the sub-commit list is empty; for every state with `-1 ≤ selectedLine < len(commits)`
the list access is in bounds and, when a commit is returned, it is the one at the selected
index; and in the state left by a successful `switchToSubCommitsContext` (index 0, with a
`pushContext` that leaves the list and the index alone) it returns the first commit, or
none when the list is empty. -/
theorem getSelectedSubCommit_spec (gui : SubCommitsState) :
    (getSelectedSubCommit gui = .ok none
      ↔ gui.SelectedLineIdx = -1 ∨ gui.SubCommits.length = 0) ∧
    (-1 ≤ gui.SelectedLineIdx → gui.SelectedLineIdx < gui.SubCommits.length →
      getSelectedSubCommit gui
        = .ok (if gui.SelectedLineIdx = -1 then none
               else gui.SubCommits[gui.SelectedLineIdx.toNat]?) ∧
      (gui.SelectedLineIdx ≠ -1 →
        ∃ commit, gui.SubCommits[gui.SelectedLineIdx.toNat]? = some commit ∧
          getSelectedSubCommit gui = .ok (some commit))) ∧
    (∀ (GetCommits : String → Except String (List Commit))
      (currentSideListContext : SubCommitsState → Option Context)
      (pushContext : SubCommitsState → Context → SubCommitsState × Option String)
      (refName : String) (next : SubCommitsState),
      (∀ s c, (pushContext s c).1.SubCommits = s.SubCommits ∧
        (pushContext s c).1.SelectedLineIdx = s.SelectedLineIdx) →
      switchToSubCommitsContext GetCommits currentSideListContext pushContext gui refName
        = (next, none) →
      next.SelectedLineIdx = 0 ∧ getSelectedSubCommit next = .ok next.SubCommits.head?) := by
  have hinb : ∀ s : SubCommitsState, -1 ≤ s.SelectedLineIdx →
      s.SelectedLineIdx < s.SubCommits.length →
      getSelectedSubCommit s
        = .ok (if s.SelectedLineIdx = -1 then none
               else s.SubCommits[s.SelectedLineIdx.toNat]?) := by
    intro s h1 h2
    unfold getSelectedSubCommit
    simp only []
    by_cases hsel : s.SelectedLineIdx = -1
    · simp [hsel]
    · have hlen : ¬ s.SubCommits.length = 0 := by omega
      have hneg : ¬ s.SelectedLineIdx < 0 := by omega
      have hlt : s.SelectedLineIdx.toNat < s.SubCommits.length := by omega
      simp only [hsel, hlen, or_self, if_false, hneg, List.getElem?_eq_getElem hlt]
  refine ⟨?_, fun h1 h2 => ⟨hinb gui h1 h2, fun hsel => ?_⟩, ?_⟩
  · unfold getSelectedSubCommit
    simp only []
    constructor
    · intro h
      by_contra hc
      rw [if_neg hc] at h
      split_ifs at h
      split at h
      · cases h
      · cases h
    · intro h
      rw [if_pos h]
  · have hlt : gui.SelectedLineIdx.toNat < gui.SubCommits.length := by omega
    refine ⟨gui.SubCommits[gui.SelectedLineIdx.toNat], List.getElem?_eq_getElem hlt, ?_⟩
    rw [hinb gui h1 h2, if_neg hsel, List.getElem?_eq_getElem hlt]
  · intro GetCommits currentSideListContext pushContext refName next hpush hrun
    unfold switchToSubCommitsContext at hrun
    cases hload : GetCommits refName with
    | error err =>
      rw [hload] at hrun
      simp at hrun
    | ok commits =>
      rw [hload] at hrun
      simp only [] at hrun
      have hnext := congrArg Prod.fst hrun
      simp only [] at hnext
      obtain ⟨hsub, hidx⟩ := hpush _ gui.SubCommitsContext
      rw [hnext] at hsub hidx
      simp only [] at hsub hidx
      refine ⟨hidx, ?_⟩
      unfold getSelectedSubCommit
      simp only [hidx, hsub]
      cases commits with
      | nil => simp
      | cons c cs => simp

/-- C25, at concrete states: nothing selected, the second of two commits selected, and the
state after switching to the sub-commits of a ref with one commit. -/
theorem getSelectedSubCommit_spec_witness :
    getSelectedSubCommit
        ⟨[⟨"a1"⟩, ⟨"b2"⟩], "master", -1, ⟨"subCommits", .SIDE_CONTEXT, "branches"⟩, none, []⟩
      = .ok none ∧
    getSelectedSubCommit
        ⟨[⟨"a1"⟩, ⟨"b2"⟩], "master", 1, ⟨"subCommits", .SIDE_CONTEXT, "branches"⟩, none, []⟩
      = .ok (some ⟨"b2"⟩) ∧
    getSelectedSubCommit
        ⟨[⟨"c3"⟩], "dev", 0, ⟨"subCommits", .SIDE_CONTEXT, "branches"⟩, none,
          [⟨"subCommits", .SIDE_CONTEXT, "branches"⟩]⟩
      = .ok (some ⟨"c3"⟩) :=
  ⟨(getSelectedSubCommit_spec
      ⟨[⟨"a1"⟩, ⟨"b2"⟩], "master", -1, ⟨"subCommits", .SIDE_CONTEXT, "branches"⟩, none,
        []⟩).1.2 (Or.inl rfl),
   ((getSelectedSubCommit_spec
      ⟨[⟨"a1"⟩, ⟨"b2"⟩], "master", 1, ⟨"subCommits", .SIDE_CONTEXT, "branches"⟩, none,
        []⟩).2.1 (by decide) (by decide)).1,
   ((getSelectedSubCommit_spec
      ⟨[⟨"a1"⟩, ⟨"b2"⟩], "master", 3, ⟨"subCommits", .SIDE_CONTEXT, "branches"⟩, none,
        []⟩).2.2
      (fun _ => .ok [⟨"c3"⟩]) (fun _ => none)
      (fun s c => ({ s with ContextStack := s.ContextStack ++ [c] }, none)) "dev"
      ⟨[⟨"c3"⟩], "dev", 0, ⟨"subCommits", .SIDE_CONTEXT, "branches"⟩, none,
        [⟨"subCommits", .SIDE_CONTEXT, "branches"⟩]⟩
      (fun _ _ => ⟨rfl, rfl⟩) rfl).2⟩

/-- C26, as the code behaves: in every state in which `getSelectedSubCommit` returns no
commit, `handleCheckoutSubCommit` and `handleViewSubCommitFiles` return no error and leave
the state unchanged, while `handleCreateSubCommitResetMenu`, which has no check of the
missing commit, reads `commit.Sha` and panics with a nil pointer dereference. -/
theorem subCommitHandlers_nothing_selected
    (ask : SubCommitsState → (SubCommitsState → SubCommitsState × Option String)
      → SubCommitsState × Option String)
    (handleCheckoutRef : SubCommitsState → String → SubCommitsState × Option String)
    (switchToCommitFilesContext : SubCommitsState → String → Bool → Context → String
      → SubCommitsState × Option String)
    (createResetMenu : SubCommitsState → String → SubCommitsState × Option String)
    (gui : SubCommitsState) (hnone : getSelectedSubCommit gui = .ok none) :
    handleCheckoutSubCommit ask handleCheckoutRef gui = .ok (gui, none) ∧
    handleViewSubCommitFiles switchToCommitFilesContext gui = .ok (gui, none) ∧
    handleCreateSubCommitResetMenu createResetMenu gui = .error "nil pointer dereference" := by
  unfold handleCheckoutSubCommit handleViewSubCommitFiles handleCreateSubCommitResetMenu
  rw [hnone]
  exact ⟨rfl, rfl, rfl⟩

/-- C26, in the state left by switching to the sub-commits of a ref that has no commit
(empty list, index 0): the reset-menu handler panics, the other two handlers return. -/
theorem subCommitHandlers_nothing_selected_witness :
    getSelectedSubCommit
        ⟨[], "dev", 0, ⟨"subCommits", .SIDE_CONTEXT, "branches"⟩, none, []⟩ = .ok none ∧
    handleCheckoutSubCommit (fun s confirm => confirm s) (fun s _ => (s, none))
        ⟨[], "dev", 0, ⟨"subCommits", .SIDE_CONTEXT, "branches"⟩, none, []⟩
      = .ok (⟨[], "dev", 0, ⟨"subCommits", .SIDE_CONTEXT, "branches"⟩, none, []⟩, none) ∧
    handleViewSubCommitFiles (fun s _ _ _ _ => (s, none))
        ⟨[], "dev", 0, ⟨"subCommits", .SIDE_CONTEXT, "branches"⟩, none, []⟩
      = .ok (⟨[], "dev", 0, ⟨"subCommits", .SIDE_CONTEXT, "branches"⟩, none, []⟩, none) ∧
    handleCreateSubCommitResetMenu (fun s _ => (s, none))
        ⟨[], "dev", 0, ⟨"subCommits", .SIDE_CONTEXT, "branches"⟩, none, []⟩
      = .error "nil pointer dereference" :=
  ⟨rfl,
   subCommitHandlers_nothing_selected (fun s confirm => confirm s) (fun s _ => (s, none))
     (fun s _ _ _ _ => (s, none)) (fun s _ => (s, none))
     ⟨[], "dev", 0, ⟨"subCommits", .SIDE_CONTEXT, "branches"⟩, none, []⟩ rfl⟩

/-- C27: `switchToSubCommitsContext` either fails atomically or completes fully.  When
loading the commits fails it returns that error and the state is unchanged.  When loading
succeeds, the result is that of `pushContext` on the sub-commits context in the state
holding the loaded commits, the ref name, the selected line index 0 and, as parent of the
sub-commits context, the current side list context; the context stack of that state is
still the one before the call. -/
theorem switchToSubCommitsContext_atomic
    (GetCommits : String → Except String (List Commit))
    (currentSideListContext : SubCommitsState → Option Context)
    (pushContext : SubCommitsState → Context → SubCommitsState × Option String)
    (gui : SubCommitsState) (refName : String) :
    (∀ err, GetCommits refName = .error err →
      switchToSubCommitsContext GetCommits currentSideListContext pushContext gui refName
        = (gui, some err)) ∧
    (∀ commits, GetCommits refName = .ok commits →
      ∃ loaded : SubCommitsState,
        loaded.SubCommits = commits ∧ loaded.refName = refName ∧
        loaded.SelectedLineIdx = 0 ∧
        loaded.SubCommitsParent
          = currentSideListContext
              { gui with SubCommits := commits, refName := refName, SelectedLineIdx := 0 } ∧
        loaded.SubCommitsContext = gui.SubCommitsContext ∧
        loaded.ContextStack = gui.ContextStack ∧
        switchToSubCommitsContext GetCommits currentSideListContext pushContext gui refName
          = pushContext loaded gui.SubCommitsContext) := by
  refine ⟨fun err herr => ?_, fun commits hok => ?_⟩
  · unfold switchToSubCommitsContext
    rw [herr]
  · unfold switchToSubCommitsContext
    rw [hok]
    exact ⟨{ gui with
        SubCommits := commits, refName := refName, SelectedLineIdx := 0,
        SubCommitsParent := currentSideListContext
          { gui with SubCommits := commits, refName := refName, SelectedLineIdx := 0 } },
      rfl, rfl, rfl, rfl, rfl, rfl, rfl⟩

/-- C27, at a concrete state: a failing load leaves the state as it was and returns the
error; a load of one commit, with a `pushContext` that appends to the stack, stores the
commit and the ref name, resets the index, sets the parent and pushes the context. -/
theorem switchToSubCommitsContext_atomic_witness :
    switchToSubCommitsContext (fun _ => .error "bad ref") (fun _ => none)
        (fun s c => ({ s with ContextStack := s.ContextStack ++ [c] }, none))
        ⟨[⟨"a1"⟩], "master", 3, ⟨"subCommits", .SIDE_CONTEXT, "branches"⟩, none,
          [⟨"branches", .SIDE_CONTEXT, "branches"⟩]⟩ "dev"
      = (⟨[⟨"a1"⟩], "master", 3, ⟨"subCommits", .SIDE_CONTEXT, "branches"⟩, none,
          [⟨"branches", .SIDE_CONTEXT, "branches"⟩]⟩, some "bad ref") ∧
    switchToSubCommitsContext (fun _ => .ok [⟨"c3"⟩])
        (fun _ => some ⟨"branches", .SIDE_CONTEXT, "branches"⟩)
        (fun s c => ({ s with ContextStack := s.ContextStack ++ [c] }, none))
        ⟨[⟨"a1"⟩], "master", 3, ⟨"subCommits", .SIDE_CONTEXT, "branches"⟩, none,
          [⟨"branches", .SIDE_CONTEXT, "branches"⟩]⟩ "dev"
      = (⟨[⟨"c3"⟩], "dev", 0, ⟨"subCommits", .SIDE_CONTEXT, "branches"⟩,
          some ⟨"branches", .SIDE_CONTEXT, "branches"⟩,
          [⟨"branches", .SIDE_CONTEXT, "branches"⟩,
            ⟨"subCommits", .SIDE_CONTEXT, "branches"⟩]⟩, none) :=
  ⟨(switchToSubCommitsContext_atomic (fun _ => .error "bad ref") (fun _ => none)
      (fun s c => ({ s with ContextStack := s.ContextStack ++ [c] }, none))
      ⟨[⟨"a1"⟩], "master", 3, ⟨"subCommits", .SIDE_CONTEXT, "branches"⟩, none,
        [⟨"branches", .SIDE_CONTEXT, "branches"⟩]⟩ "dev").1 "bad ref" rfl,
   rfl⟩

/-! ## Pager configuration -/

/-- The first piece found by the scan of `Split` is the current piece followed by the part
before the first occurrence of the separator. -/
theorem Split.loop_head (sep : List Char) (s cur : List Char) :
    (Split.loop sep s cur 0)[0]? = some (cur.reverse ++ Split.first sep s) := by
  induction s generalizing cur with
  | nil => simp [Split.loop, Split.first]
  | cons c rest ih =>
    unfold Split.loop Split.first
    by_cases hp : sep.isPrefixOf (c :: rest) = true
    · simp [hp]
    · simp only [hp, Bool.false_eq_true, if_false]
      rw [ih]
      simp

/-- The first element of `Split s sep`, for a non-empty separator. -/
theorem Split_head (s sep : String) (hsep : sep ≠ "") :
    (Split s sep)[0]? = some ⟨Split.first sep.data s.data⟩ := by
  unfold Split
  rw [if_neg hsep, List.getElem?_map, Split.loop_head]
  simp

/-- The part before the first occurrence of the separator is a prefix. -/
theorem Split.first_prefix (sep s : List Char) : Split.first sep s <+: s := by
  induction s with
  | nil => simp [Split.first]
  | cons c rest ih =>
    unfold Split.first
    split_ifs
    · exact List.nil_prefix
    · exact (List.prefix_cons_inj c).mpr ih

/-- The part before the first occurrence of a non-empty separator does not contain it. -/
theorem Split.first_not_infix (sep s : List Char) (hsep : sep ≠ []) :
    ¬ sep <:+: Split.first sep s := by
  induction s with
  | nil =>
    simp only [Split.first, List.infix_nil]
    exact hsep
  | cons c rest ih =>
    unfold Split.first
    by_cases hp : sep.isPrefixOf (c :: rest) = true
    · simp only [hp, if_true, List.infix_nil]
      exact hsep
    · simp only [hp, Bool.false_eq_true, if_false]
      intro hin
      rcases List.infix_cons_iff.mp hin with h | h
      · apply hp
        rw [List.isPrefixOf_iff_prefix]
        exact h.trans ((List.prefix_cons_inj c).mpr (Split.first_prefix sep rest))
      · exact ih h

/-- When the separator occurs, the part before its first occurrence is followed by it, and
no occurrence starts earlier. -/
theorem Split.first_occurrence (sep s p rest : List Char) (h : s = p ++ sep ++ rest) :
    ∃ rest2, s = Split.first sep s ++ sep ++ rest2 ∧
      (Split.first sep s).length ≤ p.length := by
  induction s generalizing p with
  | nil =>
    refine ⟨rest, ?_, Nat.zero_le _⟩
    have hp : p = [] := by
      cases p with
      | nil => rfl
      | cons a t => simp at h
    rw [hp] at h
    simpa [Split.first] using h
  | cons c t ih =>
    unfold Split.first
    by_cases hp : sep.isPrefixOf (c :: t) = true
    · simp only [hp, if_true, List.nil_append, List.length_nil, Nat.zero_le, and_true]
      rw [List.isPrefixOf_iff_prefix] at hp
      obtain ⟨r, hr⟩ := hp
      exact ⟨r, hr.symm⟩
    · simp only [hp, Bool.false_eq_true, if_false]
      cases p with
      | nil =>
        exfalso
        apply hp
        rw [List.isPrefixOf_iff_prefix]
        exact ⟨rest, by simpa using h.symm⟩
      | cons a p2 =>
        simp only [List.cons_append, List.cons.injEq] at h
        obtain ⟨rest2, h2, hlen⟩ := ih p2 (by simpa using h.2)
        refine ⟨rest2, ?_, by simpa using hlen⟩
        simp only [List.cons_append, List.cons.injEq, true_and]
        simpa using h2

/-- Without an occurrence of the separator, the part before the first occurrence is the
whole list. -/
theorem Split.first_eq_self (sep s : List Char) (h : ¬ sep <:+: s) :
    Split.first sep s = s := by
  induction s with
  | nil => rfl
  | cons c rest ih =>
    unfold Split.first
    have hp : ¬ sep.isPrefixOf (c :: rest) = true := by
      rw [List.isPrefixOf_iff_prefix]
      exact fun hpre => h hpre.isInfix
    have hrest : ¬ sep <:+: rest := fun hin => h (List.infix_cons hin)
    simp only [hp, Bool.false_eq_true, if_false, ih hrest]

/-- For the separator of one character, the part before its first occurrence is the
longest prefix without that character. -/
theorem Split.first_singleton (a : Char) (s : List Char) :
    Split.first [a] s = s.takeWhile (fun c => c != a) := by
  induction s with
  | nil => rfl
  | cons c rest ih =>
    unfold Split.first
    by_cases hc : c = a
    · subst hc
      simp [List.isPrefixOf]
    · have hac : ¬ a = c := fun h => hc h.symm
      simp [List.isPrefixOf, hc, hac, ih]

/-- With neither variable set and a failing query, `ConfiguredPager` returns the empty
string. -/
theorem ConfiguredPager_query_failed (c : GitCommand) (err : String)
    (hg : c.GIT_PAGER = "") (hp : c.PAGER = "")
    (herr : c.RunCommandWithOutput "git config --get-all core.pager" = .error err) :
    ConfiguredPager c = some "" := by
  unfold ConfiguredPager
  rw [herr]
  simp [hg, hp]

/-- With neither variable set and a successful query, `ConfiguredPager` returns the
characters of the trimmed output before the first newline. -/
theorem ConfiguredPager_query_ok (c : GitCommand) (output : String)
    (hg : c.GIT_PAGER = "") (hp : c.PAGER = "")
    (hout : c.RunCommandWithOutput "git config --get-all core.pager" = .ok output) :
    ConfiguredPager c = (Split (TrimSpace output) "\n")[0]? ∧
    ConfiguredPager c
      = some ⟨(TrimSpace output).data.takeWhile (fun r => r != '\n')⟩ := by
  have h1 : ConfiguredPager c = (Split (TrimSpace output) "\n")[0]? := by
    unfold ConfiguredPager
    rw [hout]
    simp [hg, hp]
  refine ⟨h1, ?_⟩
  rw [h1, Split_head _ _ (by decide)]
  have : ("\n" : String).data = ['\n'] := rfl
  rw [this, Split.first_singleton]

/-- The function `ConfiguredPager` returns in every case. -/
theorem ConfiguredPager_total (c : GitCommand) : ∃ pager, ConfiguredPager c = some pager := by
  by_cases hg : c.GIT_PAGER = ""
  · by_cases hp : c.PAGER = ""
    · cases hrun : c.RunCommandWithOutput "git config --get-all core.pager" with
      | error err => exact ⟨_, ConfiguredPager_query_failed c err hg hp hrun⟩
      | ok output => exact ⟨_, (ConfiguredPager_query_ok c output hg hp hrun).2⟩
    · exact ⟨c.PAGER, by unfold ConfiguredPager; rw [if_neg (not_not.mpr hg), if_pos hp]⟩
  · exact ⟨c.GIT_PAGER, by unfold ConfiguredPager; rw [if_pos hg]⟩

/-- C28: `ConfiguredPager` resolves the pager by strict precedence: `GIT_PAGER` when it is
non-empty; otherwise `PAGER` when it is non-empty; otherwise the empty string when the
`git config --get-all core.pager` query fails, and the first line of its white-space
trimmed output when it succeeds (the characters before the first newline); in this last
case the result contains no newline.  It returns in every case. -/
theorem ConfiguredPager_precedence (c : GitCommand) :
    (c.GIT_PAGER ≠ "" → ConfiguredPager c = some c.GIT_PAGER) ∧
    (c.GIT_PAGER = "" → c.PAGER ≠ "" → ConfiguredPager c = some c.PAGER) ∧
    (c.GIT_PAGER = "" → c.PAGER = "" →
      (∀ err, c.RunCommandWithOutput "git config --get-all core.pager" = .error err →
        ConfiguredPager c = some "") ∧
      (∀ output, c.RunCommandWithOutput "git config --get-all core.pager" = .ok output →
        ConfiguredPager c = (Split (TrimSpace output) "\n")[0]? ∧
        ConfiguredPager c
          = some ⟨(TrimSpace output).data.takeWhile (fun r => r != '\n')⟩) ∧
      (∀ pager, ConfiguredPager c = some pager → '\n' ∉ pager.data)) ∧
    (∃ pager, ConfiguredPager c = some pager) := by
  have hfail := fun err hg hp => ConfiguredPager_query_failed c err hg hp
  have hok := fun output hg hp => ConfiguredPager_query_ok c output hg hp
  refine ⟨?_, ?_, fun hg hp => ⟨fun err => hfail err hg hp, fun output => hok output hg hp,
    ?_⟩, ?_⟩
  · intro hg
    unfold ConfiguredPager
    rw [if_pos hg]
  · intro hg hp
    unfold ConfiguredPager
    rw [if_neg (not_not.mpr hg), if_pos hp]
  · intro pager hpager
    cases hrun : c.RunCommandWithOutput "git config --get-all core.pager" with
    | error err =>
      rw [hfail err hg hp hrun] at hpager
      cases hpager
      simp
    | ok output =>
      rw [(hok output hg hp hrun).2] at hpager
      cases hpager
      intro hmem
      have := List.mem_takeWhile_imp hmem
      simp at this
  · exact ConfiguredPager_total c

/-- C28, at concrete environments: `GIT_PAGER` set; only `PAGER` set; neither set with a
failing query; neither set with a query printing two lines. -/
theorem ConfiguredPager_precedence_witness :
    ConfiguredPager ⟨"delta", "less", fun _ => .ok "cat\n", true, ""⟩ = some "delta" ∧
    ConfiguredPager ⟨"", "less", fun _ => .ok "cat\n", true, ""⟩ = some "less" ∧
    ConfiguredPager ⟨"", "", fun _ => .error "exit status 1", true, ""⟩ = some "" ∧
    ConfiguredPager ⟨"", "", fun _ => .ok " diff-so-fancy\nmore\n", true, ""⟩
      = some "diff-so-fancy" :=
  ⟨(ConfiguredPager_precedence ⟨"delta", "less", fun _ => .ok "cat\n", true, ""⟩).1
      (by decide),
   (ConfiguredPager_precedence ⟨"", "less", fun _ => .ok "cat\n", true, ""⟩).2.1 rfl
      (by decide),
   ((ConfiguredPager_precedence ⟨"", "", fun _ => .error "exit status 1", true, ""⟩).2.2.1
      rfl rfl).1 "exit status 1" rfl,
   (((ConfiguredPager_precedence
      ⟨"", "", fun _ => .ok " diff-so-fancy\nmore\n", true, ""⟩).2.2.1
      rfl rfl).2.1 " diff-so-fancy\nmore\n" rfl).1.trans (by decide)⟩

/-- C29: when paging is set to use the git config, `GetPager` returns, for every width,
one and the same string: the part of the configured pager that precedes the first
occurrence of `"| less"`, which is the whole string when there is none; the result never
contains `"| less"`. -/
theorem GetPager_useConfig
    (ResolvePlaceholderString : String → List (String × String) → String)
    (c : GitCommand) (huse : c.UseConfig = true) :
    ∃ pager result : String,
      ConfiguredPager c = some pager ∧
      (∀ width : Int, GetPager ResolvePlaceholderString c width = some result) ∧
      result.data <+: pager.data ∧
      (¬ "| less".data <:+: pager.data → result = pager) ∧
      (∀ p rest : List Char, pager.data = p ++ "| less".data ++ rest →
        ∃ rest2, pager.data = result.data ++ "| less".data ++ rest2 ∧
          result.data.length ≤ p.length) ∧
      ¬ "| less".data <:+: result.data := by
  obtain ⟨pager, hpager⟩ := ConfiguredPager_total c
  refine ⟨pager, ⟨Split.first "| less".data pager.data⟩, hpager, ?_,
    Split.first_prefix _ _, ?_, ?_, Split.first_not_infix _ _ (by decide)⟩
  · intro width
    unfold GetPager
    simp only [huse, if_true, hpager]
    exact Split_head pager "| less" (by decide)
  · intro hno
    rw [Split.first_eq_self _ _ hno]
  · intro p rest hsplit
    exact Split.first_occurrence _ _ p rest hsplit

/-- C29, at a concrete configuration: with `PAGER` set to a command piped into `less`, the
pager is the command before the pipe, at width 80 as at width 200. -/
theorem GetPager_useConfig_witness :
    (∀ width : Int,
      GetPager (fun template _ => template)
        ⟨"", "diff-so-fancy | less -R", fun _ => .ok "", true, ""⟩ width
        = some "diff-so-fancy ") ∧
    ¬ "| less".data <:+: "diff-so-fancy ".data := by
  obtain ⟨pager, result, _, hw, _, _, _, hno⟩ :=
    GetPager_useConfig (fun template _ => template)
      ⟨"", "diff-so-fancy | less -R", fun _ => .ok "", true, ""⟩ rfl
  have h80 : GetPager (fun template _ => template)
      ⟨"", "diff-so-fancy | less -R", fun _ => .ok "", true, ""⟩ 80
      = some "diff-so-fancy " := by decide
  have hres : "diff-so-fancy " = result := by
    have h := hw 80
    rw [h80] at h
    exact Option.some.inj h
  subst hres
  exact ⟨hw, hno⟩

end Lazygit
